import Mathlib

/-!
# Verification of the mm.c allocator (implicit heap, explicit free list)

Shallow embedding of `src/mm.c`: a dynamic memory allocator with
boundary-tag encoded blocks, an intrusive doubly-linked free list
(`list_root`, `BACK`/`FORWARD` link words overlaid on free payloads),
first-fit search, splitting, and eager coalescing.

Modelling choices, argued against the source:

* Machine words are `Nat` with explicit truncation: header/footer tag
  words are `uint32_t` (`% 2^32` where C converts), `size_t` arithmetic
  is 64-bit.  Bit operations (`&`, `|`) are `Nat.land`/`Nat.lor` with
  the masks written out.
* `mm.c` writes every header together with the matching footer
  (`put_on_heap`, and paired `PUT(HDRP ..)/PUT(FTRP ..)` at every other
  site, where `FTRP` is computed from the just-updated header), so a
  block is modelled by a single tag word `hdr` standing for both.
* A block also carries its two link words `bk`/`fd` (`BACK`/`FORWARD`,
  the first 16 payload bytes).  They persist while the block is
  allocated, exactly as the stale bytes do in memory; `0` encodes the
  C null pointer (no block ever lives at address 0).
* The heap-grow collaborator (`mem_sbrk` from `memlib.c`, which is not
  part of the sources) is modelled from the spec: it commits exactly
  the requested bytes at the previous end of the region or signals
  failure once a fixed capacity `cap` is exhausted, and fresh memory
  reads as zero.  The zero-fill matches what `coalesce` itself relies
  on: the `prevBlock == bp` special case is reached because the unused
  word below the first real block stays zero.
* Addresses are byte offsets from the start of the region: padding word
  at 0, prologue block pointer at 8 (size 24, allocated, its payload
  holding the root links), first real block pointer at 48
  (= 2*HEAP_SIZE, since `mm_init` grows by 48 bytes but lays out only
  32), epilogue header at `brk - 4`.
* Reads of words the block structure cannot account for (freeing wild
  pointers, following corrupted links, writes that would overlap a
  block's own footer) yield `none`: the operation is modelled as
  undefined, matching reads/writes of unmodelled or out-of-heap bytes.
-/

namespace MM

/-! ### Constants (mm.c lines 58-63) -/

def WSIZE : Nat := 4
def DSIZE : Nat := 8
def CHUNKSIZE : Nat := 4096        -- 1 << 12
def OVERHEAD : Nat := 8
def ALIGNMENT : Nat := 8
def HEAP_SIZE : Nat := 24

/-! ### Boundary-tag codec (mm.c lines 65-126)

`PACK`, `GET_SIZE`, `GET_ALLOC` operate on `uint32_t`; `ALIGN` on
`size_t` (64-bit).  `MAX` takes C `int` arguments. -/

/-- The macro `PACK(size, alloc) = size | (alloc & 0x1)` with `size : uint32_t`
(the argument conversion truncates) and `alloc : int`. -/
def PACK (size alloc : Nat) : Nat := (size % 2 ^ 32) ||| (alloc &&& 1)

/-- The macro `GET_SIZE(p) = GET(p) & ~0x7` on a stored 32-bit tag word;
the mask `~0x7` as `uint32_t` is `0xFFFFFFF8 = 2^32 - 8`. -/
def GET_SIZE (w : Nat) : Nat := w &&& (2 ^ 32 - 8)

/-- The macro `GET_ALLOC(p) = GET(p) & 0x1`. -/
def GET_ALLOC (w : Nat) : Nat := w &&& 1

/-- The macro `ALIGN(p) = ((size_t)(p) + (ALIGNMENT-1)) & ~0x7` in 64-bit
arithmetic. -/
def ALIGN (n : Nat) : Nat := ((n + 7) % 2 ^ 64) &&& (2 ^ 64 - 8)

/-- C `int` reading of a 32-bit value (used by `MAX` and the
`(int)size` cast in `mm_realloc`). -/
def toInt32 (n : Nat) : Int :=
  if n % 2 ^ 32 < 2 ^ 31 then (n % 2 ^ 32 : Int) else (n % 2 ^ 32 : Int) - 2 ^ 32

/-- The helper `MAX(x, y)` on C `int`s (mm.c lines 65-67). -/
def MAXint (x y : Int) : Int := if x > y then x else y

/-! ### Heap state

A managed block is identified by its block pointer `addr` (the address
of its payload, as handed to callers); its header sits at `addr - 4`,
its footer at `addr + GET_SIZE hdr - 8`, and the next block starts at
`addr + GET_SIZE hdr`.  The prologue block (pointer 8, tag
`PACK HEAP_SIZE 1`, never rewritten by any code path that stays inside
the block structure) is kept out of `blocks`; its two link words are
the fields `proBk`/`proFd`.  The epilogue header `PACK 0 1` lives at
`brk - 4`: `extend_heap` relocates it by moving `brk`. -/

structure Block where
  addr : Nat
  hdr  : Nat
  bk   : Nat
  fd   : Nat
deriving Repr, DecidableEq

structure MState where
  blocks : List Block
  proBk  : Nat
  proFd  : Nat
  root   : Nat                      -- list_root; 0 encodes NULL
  brk    : Nat                      -- current end of the grown region
  grown  : Nat                      -- ghost: total bytes obtained from mem_sbrk
  copies : List (Nat × Nat × Nat)   -- ghost: memcpy events (dst, src, len)
deriving Repr, DecidableEq

def findBlock (s : MState) (a : Nat) : Option Block :=
  s.blocks.find? (fun b => b.addr == a)

/-- Reading `GET(HDRP(bp))`: the prologue and the epilogue headers are
at their fixed places, any other defined header is a managed block's. -/
def readHdr (s : MState) (bp : Nat) : Option Nat :=
  if bp == 8 then some (PACK HEAP_SIZE 1)
  else if bp == s.brk then some (PACK 0 1)
  else (findBlock s bp).map (fun b => b.hdr)

/-- Reading `GET(FTRP(bp))`: headers and footers are written in sync in
mm.c, so the footer of block `bp` carries the block's `hdr` word. -/
def readFtr (s : MState) (bp : Nat) : Option Nat :=
  if bp == 8 then some (PACK HEAP_SIZE 1)
  else (findBlock s bp).map (fun b => b.hdr)

/-- Reading the word at `bp - DSIZE` (used by `PREV_BLKP`): it is the
footer of the block whose extent ends at `bp`, or the prologue footer
when `bp = 32`, or the word below the first real block (`bp = 48`,
bytes 40-43), which is never written and still holds the zero fill of
fresh memory — the read `coalesce` resolves with its `prevBlock == bp`
test. -/
def prevWord (s : MState) (bp : Nat) : Option Nat :=
  if bp == 32 then some (PACK HEAP_SIZE 1)
  else match s.blocks.find? (fun b => b.addr + GET_SIZE b.hdr == bp) with
       | some b => some b.hdr
       | none => if bp == 2 * HEAP_SIZE then some 0 else none

/-- Reading `BACK(bp)`, the link word at `bp..bp+8`.  A block smaller
than `HEAP_SIZE` cannot hold the two link words without overlapping its
own footer, so such an access leaves the modelled structure. -/
def getBk (s : MState) (bp : Nat) : Option Nat :=
  if bp == 8 then some s.proBk
  else match findBlock s bp with
       | some b => if HEAP_SIZE ≤ GET_SIZE b.hdr then some b.bk else none
       | none => none

/-- Reading `FORWARD(bp)` (identical to `PRED(bp)`: both macros expand
to the word at `bp + ALIGNMENT`). -/
def getFd (s : MState) (bp : Nat) : Option Nat :=
  if bp == 8 then some s.proFd
  else match findBlock s bp with
       | some b => if HEAP_SIZE ≤ GET_SIZE b.hdr then some b.fd else none
       | none => none

/-- Writing `BACK(bp) = v`. -/
def setBk (s : MState) (bp v : Nat) : Option MState :=
  if bp == 8 then some { s with proBk := v }
  else match findBlock s bp with
       | some b =>
         if HEAP_SIZE ≤ GET_SIZE b.hdr then
           some { s with blocks :=
             s.blocks.map (fun c => if c.addr == bp then { c with bk := v } else c) }
         else none
       | none => none

/-- Writing `FORWARD(bp) = v`. -/
def setFd (s : MState) (bp v : Nat) : Option MState :=
  if bp == 8 then some { s with proFd := v }
  else match findBlock s bp with
       | some b =>
         if HEAP_SIZE ≤ GET_SIZE b.hdr then
           some { s with blocks :=
             s.blocks.map (fun c => if c.addr == bp then { c with fd := v } else c) }
         else none
       | none => none

def insertBlock : List Block → Block → List Block
  | [], b => [b]
  | c :: l, b => if b.addr < c.addr then b :: c :: l else c :: insertBlock l b

/-- Writing a fresh tag to header and footer of the block at `bp`
(`PUT(HDRP(bp), tag); PUT(FTRP(bp), tag)` with `FTRP` computed from the
just-updated header).  If no block starts at `bp` yet, this is the
write that creates one there (in `extend_heap` and in the split arm of
`place`); its link words model the untouched underlying bytes as zero
— they are always rewritten by `add_node` before any code path reads
them. -/
def writeHdr (s : MState) (bp tag : Nat) : MState :=
  if (findBlock s bp).isSome then
    { s with blocks :=
        s.blocks.map (fun c => if c.addr == bp then { c with hdr := tag } else c) }
  else
    { s with blocks := insertBlock s.blocks ⟨bp, tag, 0, 0⟩ }

/-- Dropping the bookkeeping entry of a block whose header just became
interior bytes of an enclosing block (the size-growing `PUT` in
`coalesce`, `mm_realloc`'s absorb-next `put_on_heap`). -/
def removeBlock (s : MState) (bp : Nat) : MState :=
  { s with blocks := s.blocks.filter (fun b => b.addr != bp) }

/-! ### Explicit free list (mm.c lines 162-202) -/

/-- Translation of `add_node` (mm.c lines 162-176). -/
def add_node (s : MState) (bp : Nat) : Option MState :=
  let head := s.root
  if s.root == 0 then do
    let s := { s with root := bp }
    let s ← setBk s bp 0
    let s ← setFd s bp 0
    pure s
  else do
    let s ← setFd s bp head
    let s ← setBk s bp 0
    let s ← setBk s head bp
    pure { s with root := bp }

/-- Translation of `delete_node` (mm.c lines 181-202).  The re-read of
`BACK(bp)` on line 191/198 yields `temp_back` again: the preceding
writes touch only `list_root` or a `FORWARD` field. -/
def delete_node (s : MState) (bp : Nat) : Option MState := do
  let temp_back ← getBk s bp
  let temp_forward ← getFd s bp
  if temp_back == 0 then
    let s := { s with root := temp_forward }
    if temp_forward != 0 then setBk s temp_forward temp_back
    else pure s
  else do
    let s ← setFd s temp_back temp_forward
    if temp_forward != 0 then setBk s temp_forward temp_back
    else pure s

/-! ### Coalescing (mm.c lines 289-335) -/

/-- Translation of `coalesce`.  `PREV_BLKP(bp)` is recomputed by the
source inside cases 2 and 3, but the word at `bp - DSIZE` it reads is
never overwritten before those uses (the merged footer lands at
`prevBlock + size - 8 ≠ bp - 8` because the absorbed sizes are
positive), so one computation of `prevBlock` is faithful.  The
model-level `removeBlock` applications record that the absorbed
block's header was engulfed by the size-growing `PUT`s. -/
def coalesce (s : MState) (bp : Nat) : Option (MState × Nat) := do
  let pw ← prevWord s bp
  let prevBlock := bp - GET_SIZE pw
  let fw ← readFtr s prevBlock
  let prev_alloc : Nat := if GET_ALLOC fw ≠ 0 || prevBlock == bp then 1 else 0
  let hw ← readHdr s bp
  let nextBp := bp + GET_SIZE hw
  let nw ← readHdr s nextBp
  let next_alloc := GET_ALLOC nw
  let size := GET_SIZE hw
  if prev_alloc == 1 && next_alloc == 0 then       -- Case 1: absorb next block
    let size := size + GET_SIZE nw
    let s ← delete_node s nextBp
    let s := writeHdr (removeBlock s nextBp) bp (PACK size 0)
    let s ← add_node s bp
    pure (s, bp)
  else if prev_alloc == 0 && next_alloc == 1 then  -- Case 2: absorb into prev block
    let phw ← readHdr s prevBlock
    let size := size + GET_SIZE phw
    let s := writeHdr (removeBlock s bp) prevBlock (PACK size 0)
    let s ← delete_node s prevBlock
    let s ← add_node s prevBlock
    pure (s, prevBlock)
  else if prev_alloc == 0 && next_alloc == 0 then  -- Case 3: absorb both
    let phw ← readHdr s prevBlock
    let size := size + GET_SIZE phw + GET_SIZE nw
    let s ← delete_node s prevBlock
    let s ← delete_node s nextBp
    let s := writeHdr (removeBlock (removeBlock s bp) nextBp) prevBlock (PACK size 0)
    let s ← add_node s prevBlock
    pure (s, prevBlock)
  else                                             -- neither neighbour free
    let s ← add_node s bp
    pure (s, bp)

/-! ### Heap growth (mm.c lines 237-254) -/

/-- Translation of `extend_heap`, with the heap-grow collaborator
modelled from the spec: `mem_sbrk(size)` commits exactly `size` fresh
zero bytes at `brk` while the capacity `cap` allows it and signals
failure afterwards.  The fresh epilogue header write is implicit: after
`brk` moves, `readHdr` places `PACK 0 1` at the new end. -/
def extend_heap (cap : Nat) (s : MState) (words : Nat) : Option (MState × Nat) :=
  let size := if words % 2 == 1 then (words + 1) * WSIZE else words * WSIZE
  if cap < s.grown + size then pure (s, 0)           -- mem_sbrk fails, return NULL
  else
    let bp := s.brk
    let s := { s with brk := s.brk + size, grown := s.grown + size }
    let s := writeHdr s bp (PACK size 0)
    coalesce s bp

/-! ### First-fit search (mm.c lines 261-272) -/

/-- Loop body of `find_fit`: `for (bp = list_root; GET_ALLOC(HDRP(bp))
== 0; bp = PRED(bp))`.  `PRED` expands to the word at `bp + ALIGNMENT`
— the same word `FORWARD` names — so the walk follows the insertion
order from the most recently registered block on.  The loop leaves the
registered blocks only through its allocated-header exit (in every
reachable state the allocated prologue terminates the list); a walk
that would run forever or through unmodelled words returns `none`. -/
def ffLoop (s : MState) (asize : Nat) : Nat → Nat → Option (Option Nat)
  | 0, _ => none
  | fuel + 1, bp => do
    let hw ← readHdr s bp
    if GET_ALLOC hw == 0 then
      if GET_SIZE hw ≥ asize then pure (some bp)
      else do
        let fd ← getFd s bp
        ffLoop s asize fuel fd
    else pure none                                   -- return NULL: no fit

def find_fit (s : MState) (asize : Nat) : Option (Option Nat) :=
  ffLoop s asize (s.blocks.length + 2) s.root

/-! ### Free (mm.c lines 277-284) -/

/-- Translation of `mm_free`. -/
def mm_free (s : MState) (bp : Nat) : Option MState := do
  let hw ← readHdr s bp
  let size := GET_SIZE hw
  let s := writeHdr s bp (PACK size 0)
  let r ← coalesce s bp
  pure r.1

/-! ### Placement (mm.c lines 377-396) -/

/-- Translation of `place`.  `csize - asize` is `size_t` subtraction,
hence the explicit wrap; `NEXT_BLKP(bp)` in the split arm reads the
header the first `PUT` just wrote. -/
def place (s : MState) (bp asize : Nat) : Option MState := do
  let hw ← readHdr s bp
  let csize := GET_SIZE hw
  if (csize + 2 ^ 64 - asize) % 2 ^ 64 ≥ HEAP_SIZE then
    let s := writeHdr s bp (PACK asize 1)
    let s ← delete_node s bp
    let bp2 := bp + GET_SIZE (PACK asize 1)
    let s := writeHdr s bp2 (PACK ((csize + 2 ^ 64 - asize) % 2 ^ 64) 0)
    let r ← coalesce s bp2
    pure r.1
  else
    let s := writeHdr s bp (PACK csize 1)
    delete_node s bp

/-! ### Allocation (mm.c lines 340-368) -/

/-- Translation of `mm_malloc` (`size` is the `uint32_t` argument).
`asize` lives in `size_t`; `find_fit` and `place` take `uint32_t`, so
the argument conversions truncate.  `extendsize` goes through
`MAX(int, int)`. -/
def mm_malloc (cap : Nat) (s : MState) (size : Nat) : Option (MState × Nat) :=
  if size == 0 then pure (s, 0)                      -- `if (size <= 0)` on an unsigned value
  else
    let asize := if ALIGN size + DSIZE < HEAP_SIZE then HEAP_SIZE else ALIGN size + DSIZE
    do
    let r ← find_fit s (asize % 2 ^ 32)
    match r with
    | some bp => do
        let s ← place s bp (asize % 2 ^ 32)
        pure (s, bp)
    | none =>
        let extendsize := ((MAXint (toInt32 asize) (toInt32 CHUNKSIZE)).emod (2 ^ 64)).toNat
        do
        let er ← extend_heap cap s (extendsize / WSIZE)
        let s := er.1
        let bp := er.2
        if bp == 0 then pure (s, 0)
        else do
          let s ← place s bp (asize % 2 ^ 32)
          pure (s, bp)

/-! ### Resizing (mm.c lines 402-442) -/

/-- The `memcpy(new_ptr, bp, newsize)` call of `mm_realloc`, at block
granularity: the event is logged (ghost field `copies`), and the words
the copy lands on top of the destination's link positions take the
source's link words (for `newsize ≥ 16` — the call site always copies
at least the full 16 link bytes).  A length that would overrun the
destination's payload into its own footer leaves the block structure
and is undefined here; a length overrunning the *source* payload reads
bytes this model does not represent, which only flow into payload
contents it does not represent either. -/
def memcpyBlks (s : MState) (dst src n : Nat) : Option MState := do
  let _db ← findBlock s dst
  let sb ← findBlock s src
  if GET_SIZE _db.hdr < n + DSIZE then none
  else
    let s := { s with copies := (dst, src, n) :: s.copies }
    if 16 ≤ n then
      pure { s with blocks :=
        s.blocks.map (fun c => if c.addr == dst then { c with bk := sb.bk, fd := sb.fd } else c) }
    else pure s

/-- Translation of `mm_realloc`.  Notable source facts carried over
verbatim: the null-pointer branch calls `mm_malloc` and then returns
NULL, discarding the fresh block; `newsize` is `size + HEAP_SIZE`; the
final fallback calls `place` a second time on the block `mm_malloc`
already placed, then copies `newsize` bytes.  The trailing
`else return NULL` of the source is dead (`size > 0` compares the
unsigned value) but is kept. -/
def mm_realloc (cap : Nat) (s : MState) (bp size : Nat) : Option (MState × Nat) :=
  if bp == 0 then do
    let r ← mm_malloc cap s size
    pure (r.1, 0)
  else if size == 0 then do                          -- `(int)size == 0` iff `size == 0` on 32 bits
    let s ← mm_free s bp
    pure (s, 0)
  else if 0 < size then do
    let hw ← readHdr s bp
    let oldsize := GET_SIZE hw
    let newsize := size + HEAP_SIZE
    if newsize ≤ oldsize then pure (s, bp)
    else do
      let nw ← readHdr s (bp + oldsize)
      let next_alloc := GET_ALLOC nw
      let csize := oldsize + GET_SIZE nw
      if next_alloc == 0 && newsize ≤ csize then do
        let s ← delete_node s (bp + oldsize)
        let s := writeHdr (removeBlock s (bp + oldsize)) bp (PACK csize 1)
        pure (s, bp)
      else do
        let r ← mm_malloc cap s (newsize % 2 ^ 32)
        let s := r.1
        let np := r.2
        let s ← place s np (newsize % 2 ^ 32)
        let s ← memcpyBlks s np bp newsize
        let s ← mm_free s bp
        pure (s, np)
  else pure (s, 0)

/-! ### Initialisation (mm.c lines 207-231) -/

/-- State after the layout phase of `mm_init`: 48 bytes grown, padding
word, prologue header/footer `PACK(HEAP_SIZE, 1)` (hardwired into
`readHdr`/`readFtr`/`prevWord`), the stale epilogue header written at
offset 28 (never read again: the next block walk from the prologue is
never taken, and the first `extend_heap` places its block header at
offset 44), `FORWARD(heap_listp)` zeroed by the two link `PUT`s,
`list_root = heap_listp = 8`. -/
def initState : MState :=
  { blocks := [], proBk := 0, proFd := 0, root := 8
    brk := 2 * HEAP_SIZE, grown := 2 * HEAP_SIZE, copies := [] }

/-- Translation of `mm_init`: grow by `2*HEAP_SIZE`, lay out the
sentinels, then extend by `CHUNKSIZE/DSIZE` *words* (mm.c line 227 —
`extend_heap` multiplies by `WSIZE`, so this commits `CHUNKSIZE/2`
bytes).  Either grow failure propagates as `-1`. -/
def mm_init (cap : Nat) : MState × Int :=
  if cap < 2 * HEAP_SIZE then
    ({ blocks := [], proBk := 0, proFd := 0, root := 0, brk := 0, grown := 0, copies := [] }, -1)
  else match extend_heap cap initState (CHUNKSIZE / DSIZE) with
       | some (s, bp) => if bp == 0 then (s, -1) else (s, 0)
       | none => (initState, -1)

/-! ### The registry as a list

`chainFrom` reads the linked list off the state: from a node, follow
`FORWARD` words until NULL.  This is the Free-Block Registry the spec
talks about; `registry s` starts at `list_root`. -/

def chainFrom (s : MState) : Nat → Nat → Option (List Nat)
  | 0, _ => none
  | fuel + 1, bp =>
    if bp == 0 then some []
    else do
      let fd ← getFd s bp
      let l ← chainFrom s fuel fd
      pure (bp :: l)

def registry (s : MState) : Option (List Nat) :=
  chainFrom s (s.blocks.length + 2) s.root

/-- Decidable reading of `mm.c`'s notion of a free managed block. -/
def isFreeBlock (s : MState) (a : Nat) : Bool :=
  match findBlock s a with
  | some b => GET_ALLOC b.hdr == 0
  | none => false


/-! ### Structural predicates -/

/-- Every tag word the source stores is `PACK sz a` with an 8-aligned
32-bit `sz` and `a ≤ 1`; such a word is exactly the sum of its two
fields. -/
def goodTag (w : Nat) : Prop := w < 2 ^ 32 ∧ GET_SIZE w + GET_ALLOC w = w

/-- Blocks tile the region: starting at address `a`, each block starts
where its predecessor ends, with positive sizes, ending exactly at
`e` (where the epilogue header sits). -/
def Tiles : Nat → List Block → Nat → Prop
  | a, [], e => e = a
  | a, b :: l, e => b.addr = a ∧ 0 < GET_SIZE b.hdr ∧ Tiles (a + GET_SIZE b.hdr) l e

/-- No two physically adjacent managed blocks are both free.  (The
prologue and epilogue neighbours are always allocated, so consecutive
entries of the tiling are the only adjacent pairs that matter.) -/
def NoAdjFree : List Block → Prop
  | [] => True
  | [_] => True
  | b :: c :: l => ¬(GET_ALLOC b.hdr = 0 ∧ GET_ALLOC c.hdr = 0) ∧ NoAdjFree (c :: l)

/-- Well-formedness of a heap state under collaborator capacity `cap`:
the managed blocks tile `[48, brk)`, all stored tags are canonical
with sizes at least one double word, `grown` tracks `brk` (the region
is exactly what `mem_sbrk` handed out), and the region fits the
capacity. -/
structure WF (cap : Nat) (s : MState) : Prop where
  tiles : Tiles (2 * HEAP_SIZE) s.blocks s.brk
  tags : ∀ b ∈ s.blocks, goodTag b.hdr ∧ 8 ≤ GET_SIZE b.hdr
  grown_eq : s.grown = s.brk
  le_cap : s.brk ≤ cap
  lo : 2 * HEAP_SIZE ≤ s.brk
  noadj : NoAdjFree s.blocks

/-- The doubly linked free list read off the state: from node `cur`
(whose `BACK` word is `prev`), the `FORWARD` words chain through the
free managed blocks listed in `l` and end at the allocated prologue,
whose `FORWARD` word is NULL. -/
def Chain (s : MState) : Nat → Nat → List Nat → Prop
  | prev, cur, [] => cur = 8 ∧ s.proBk = prev ∧ s.proFd = 0
  | prev, cur, a :: l =>
      cur = a ∧ a ≠ 8 ∧ ∃ b, findBlock s a = some b ∧ GET_ALLOC b.hdr = 0 ∧
        HEAP_SIZE ≤ GET_SIZE b.hdr ∧ b.bk = prev ∧ Chain s a b.fd l

/-- Registry exactness: the linked list from `list_root` passes through
`L` and terminates at the prologue; `L` has no duplicates and holds
exactly the free managed blocks. -/
def RegOk (s : MState) (L : List Nat) : Prop :=
  Chain s 0 s.root L ∧ L.Nodup ∧ ∀ a, isFreeBlock s a = true → a ∈ L

/-- The test whether `mm_realloc s bp n` would take its final
reallocate-and-copy arm (malloc + second place + memcpy + free). -/
def takesFallback (s : MState) (bp n : Nat) : Bool :=
  if bp == 0 then false
  else if n == 0 then false
  else match readHdr s bp with
    | none => false
    | some hw =>
      let oldsize := GET_SIZE hw
      if n + HEAP_SIZE ≤ oldsize then false
      else match readHdr s (bp + oldsize) with
        | none => false
        | some nw => !(GET_ALLOC nw == 0 && n + HEAP_SIZE ≤ oldsize + GET_SIZE nw)

/-! ### Reachable states

`Reach cap` closes the successfully initialised heap under the public
operations that return (an operation whose modelled execution is
undefined — `none` — does not return a value and yields no state).
`deallocate`/`resize` are applied only to live payload pointers or
NULL, as the spec's caller contract demands (passing anything else is
undefined behaviour there too).  `ReachSafe cap` additionally keeps
`resize` away from its reallocate-and-copy arm. -/

inductive Reach (cap : Nat) : MState → Prop where
  | init : ∀ s, mm_init cap = (s, 0) → Reach cap s
  | step_malloc : ∀ s s1 n p, Reach cap s → n < 2 ^ 32 →
      mm_malloc cap s n = some (s1, p) → Reach cap s1
  | step_free : ∀ s s1 bp b, Reach cap s → findBlock s bp = some b →
      GET_ALLOC b.hdr = 1 → mm_free s bp = some s1 → Reach cap s1
  | step_realloc : ∀ s s1 bp n p, Reach cap s → n < 2 ^ 32 →
      (bp = 0 ∨ ∃ b, findBlock s bp = some b ∧ GET_ALLOC b.hdr = 1) →
      mm_realloc cap s bp n = some (s1, p) → Reach cap s1

inductive ReachSafe (cap : Nat) : MState → Prop where
  | init : ∀ s, mm_init cap = (s, 0) → ReachSafe cap s
  | step_malloc : ∀ s s1 n p, ReachSafe cap s → n < 2 ^ 32 →
      mm_malloc cap s n = some (s1, p) → ReachSafe cap s1
  | step_free : ∀ s s1 bp b, ReachSafe cap s → findBlock s bp = some b →
      GET_ALLOC b.hdr = 1 → mm_free s bp = some s1 → ReachSafe cap s1
  | step_realloc : ∀ s s1 bp n p, ReachSafe cap s → n < 2 ^ 32 →
      (bp = 0 ∨ ∃ b, findBlock s bp = some b ∧ GET_ALLOC b.hdr = 1) →
      takesFallback s bp n = false →
      mm_realloc cap s bp n = some (s1, p) → ReachSafe cap s1

/-! ### Concrete states used by the evaluated theorems -/

def cap0 : Nat := 10000

/-- Heap right after a successful `mm_init`. -/
def heap0 : MState := (mm_init cap0).1

/-- Heap after `mm_init; mm_malloc(16)` (block 48, size 24). -/
def heap1 : MState := ((mm_malloc cap0 heap0 16).getD (initState, 0)).1

/-- Heap after a further `mm_malloc(16)` (block 72, size 24). -/
def heap2 : MState := ((mm_malloc cap0 heap1 16).getD (initState, 0)).1

/-- Heap from a capacity-2096 collaborator: after `mm_init`, exactly
the seeded free block remains and the capacity is exhausted. -/
def heapT : MState := (mm_init 2096).1

/-- The same tight heap after `mm_malloc(2040)` takes the whole free
block: any further growth request must fail. -/
def heapT1 : MState := ((mm_malloc 2096 heapT 2040).getD (initState, 0)).1

/-- The state a successful `mm_init` always produces, written out: one
free block of `CHUNKSIZE/2` bytes at 48, registered, with the prologue
terminating the free list. -/
def initSeeded : MState :=
  { blocks := [{ addr := 48, hdr := 2048, bk := 0, fd := 8 }], proBk := 48, proFd := 0,
    root := 48, brk := 2096, grown := 2096, copies := [] }

/-- Sum of the size fields over a run of blocks. -/
def sumSizes (l : List Block) : Nat := (l.map (fun b => GET_SIZE b.hdr)).sum

/-- The tag-relevant projection of a heap: addresses and tag words of
all managed blocks.  Link-word operations leave it untouched. -/
def shape (s : MState) : List (Nat × Nat) := s.blocks.map (fun b => (b.addr, b.hdr))

/-- The no-adjacent-free side condition at the seam of two block runs:
the last block before the seam and the first after it are not both
free. -/
def edgeOk : Option Block → Option Block → Prop
  | some b, some c => ¬(GET_ALLOC b.hdr = 0 ∧ GET_ALLOC c.hdr = 0)
  | _, _ => True


/-! ### Arithmetic characterisation of the codec -/

theorem testBit_eight_mul (a i : Nat) :
    (8 * a).testBit i = (decide (i ≥ 3) && a.testBit (i - 3)) := by
  have h : (8 : Nat) * a = 2 ^ 3 * a := by norm_num
  rw [h, Nat.testBit_mul_pow_two]

/-- Clearing the low three bits of `x < 2^n` rounds down to a multiple
of 8: `x &&& (2^n - 8) = 8 * (x / 8)`. -/
theorem land_mask_eq {n : Nat} (h3 : 3 ≤ n) {x : Nat} (hx : x < 2 ^ n) :
    x &&& (2 ^ n - 8) = 8 * (x / 8) := by
  have hsplit : 2 ^ n - 8 = 8 * (2 ^ (n - 3) - 1) := by
    have h : 8 * 2 ^ (n - 3) = 2 ^ n := by
      rw [show (8 : Nat) = 2 ^ 3 by norm_num, ← pow_add]
      congr 1
      omega
    have h2 : 1 ≤ 2 ^ (n - 3) := Nat.one_le_two_pow
    omega
  have hdivBit : ∀ j, (x / 8).testBit j = x.testBit (j + 3) := by
    intro j
    have h : x / 8 = x >>> 3 := by
      rw [Nat.shiftRight_eq_div_pow]
    rw [h, Nat.testBit_shiftRight, Nat.add_comm]
  apply Nat.eq_of_testBit_eq
  intro i
  rw [hsplit, Nat.testBit_and, testBit_eight_mul, testBit_eight_mul,
    Nat.testBit_two_pow_sub_one]
  rcases Nat.lt_or_ge i 3 with hi | hi
  · -- low bits: the mask is 0 there, and so is `8 * (x / 8)`
    simp [show ¬ (i ≥ 3) by omega]
  · rcases Nat.lt_or_ge i n with hin | hin
    · -- middle bits: mask is 1, both sides agree with `x`
      have h1 : i - 3 < n - 3 := by omega
      have h2 : (x / 8).testBit (i - 3) = x.testBit i := by
        rw [hdivBit]
        congr 1
        omega
      simp [hi, h1, h2]
    · -- high bits: everything is below `2^n ≤ 2^i`
      have hxi : Nat.testBit x i = false :=
        Nat.testBit_lt_two_pow (lt_of_lt_of_le hx (Nat.pow_le_pow_right (by norm_num) hin))
      have h2 : ¬ (i - 3 < n - 3) := by omega
      have h4 : (x / 8).testBit (i - 3) = false := by
        rw [hdivBit]
        rw [show i - 3 + 3 = i by omega]
        exact hxi
      simp [hxi, h2, h4]

theorem GET_SIZE_eq {w : Nat} (hw : w < 2 ^ 32) : GET_SIZE w = 8 * (w / 8) := by
  unfold GET_SIZE
  exact land_mask_eq (by norm_num) hw

theorem GET_ALLOC_eq (w : Nat) : GET_ALLOC w = w % 2 := Nat.and_one_is_mod w

theorem ALIGN_eq {n : Nat} (hn : n + 7 < 2 ^ 64) : ALIGN n = 8 * ((n + 7) / 8) := by
  unfold ALIGN
  rw [Nat.mod_eq_of_lt hn]
  exact land_mask_eq (by norm_num) hn

/-- On canonical inputs `PACK` is just addition of the flag into the
low bit. -/
theorem PACK_eq {s a : Nat} (hs : 8 ∣ s) (hs32 : s < 2 ^ 32) (ha : a ≤ 1) :
    PACK s a = s + a := by
  obtain ⟨k, rfl⟩ := hs
  have ha1 : a &&& 1 = a := by
    interval_cases a <;> rfl
  unfold PACK
  rw [Nat.mod_eq_of_lt hs32, ha1]
  have h := (Nat.mul_add_lt_is_or (show a < 2 ^ 3 by omega) k).symm
  norm_num at h
  exact h

theorem GET_SIZE_PACK {s a : Nat} (hs : 8 ∣ s) (hs32 : s < 2 ^ 32) (ha : a ≤ 1) :
    GET_SIZE (PACK s a) = s := by
  obtain ⟨k, hk⟩ := hs
  rw [PACK_eq ⟨k, hk⟩ hs32 ha, GET_SIZE_eq (by omega)]
  subst hk
  rw [Nat.mul_add_div (by norm_num)]
  have h0 : a / 8 = 0 := Nat.div_eq_of_lt (by omega)
  omega

theorem GET_ALLOC_PACK {s a : Nat} (hs : 8 ∣ s) (hs32 : s < 2 ^ 32) (ha : a ≤ 1) :
    GET_ALLOC (PACK s a) = a := by
  obtain ⟨k, rfl⟩ := hs
  rw [PACK_eq ⟨k, rfl⟩ hs32 ha, GET_ALLOC_eq]
  omega

/-! ### Claim theorems: the codec and the trivial request paths -/

/-- C10: the boundary-tag codec round-trips — for every size that is a
multiple of 8 (and fits the 32-bit tag word) and every allocated flag
in `{0, 1}`, `GET_SIZE (PACK size flag) = size` and
`GET_ALLOC (PACK size flag) = flag`. -/
theorem C10_theorem (size flag : Nat) (h32 : size < 2 ^ 32) (h8 : 8 ∣ size)
    (hf : flag ≤ 1) :
    GET_SIZE (PACK size flag) = size ∧ GET_ALLOC (PACK size flag) = flag :=
  ⟨GET_SIZE_PACK h8 h32 hf, GET_ALLOC_PACK h8 h32 hf⟩

/-- Witness for C10 at `size = 4096`, `flag = 1`. -/
theorem C10_witness :
    GET_SIZE (PACK 4096 1) = 4096 ∧ GET_ALLOC (PACK 4096 1) = 1 :=
  C10_theorem 4096 1 (by norm_num) (by norm_num) (by norm_num)

/-- C9: `allocate(0)` returns a null result and leaves the state — the
registry, every block, the heap extent — entirely unchanged; the
translated `mm_malloc` returns through its `size <= 0` arm before any
mutation. -/
theorem C9_theorem : ∀ (cap : Nat) (s : MState), mm_malloc cap s 0 = some (s, 0) := by
  intro cap s
  rfl

/-! ### Claim theorems: counterexamples found by running the model -/

/-- C1 counterexample: immediately after a successful `mm_init`, the
Free-Block Registry (the linked list from `list_root`) is `[48, 8]`,
and node 8 is the always-allocated prologue: an allocated block — the
prologue sentinel itself — is a registry member, refuting both the
membership iff and the claim that the prologue never appears. -/
theorem C1_counterexample :
    (mm_init cap0).2 = 0 ∧ registry heap0 = some [48, 8] ∧
    GET_ALLOC ((readHdr heap0 8).getD 0) = 1 := by decide

/-- C2 counterexample: immediately after a successful `mm_init`, every
block between prologue and epilogue (exactly the one seeded free
block) totals 2048 bytes, while the heap-grow collaborator has handed
out 2096 bytes (48 for the bootstrap layout plus 2048 for the first
extension): the claimed conservation equality fails. -/
theorem C2_counterexample :
    (mm_init cap0).2 = 0 ∧ sumSizes heap0.blocks = 2048 ∧ heap0.grown = 2096 := by decide

/-- C3 (code bug): `resize(null, 16)` on the freshly initialised heap
performs exactly the allocation `allocate(16)` performs — both leave
the same heap `heap1` behind — but `mm_realloc` then returns NULL
(line 407 discards the `mm_malloc` result), not the pointer 48 that
`allocate(16)` returns. -/
theorem C3_theorem :
    mm_realloc cap0 heap0 0 16 = some (heap1, 0) ∧
    mm_malloc cap0 heap0 16 = some (heap1, 48) ∧ (48 : Nat) ≠ 0 := by decide

/-- C4 counterexample: block 48 of `heap1` has size 24, so a resize to
16 payload bytes satisfies `16 + tag_overhead ≤ 24`; the claim demands
an unchanged heap, but `mm_realloc` compares against
`16 + HEAP_SIZE = 40 > 24` and instead absorbs the free successor,
changing the block set. -/
theorem C4_counterexample :
    16 + OVERHEAD ≤ GET_SIZE ((readHdr heap1 48).getD 0) ∧
    (mm_realloc cap0 heap1 48 16).isSome = true ∧
    ((mm_realloc cap0 heap1 48 16).getD (initState, 0)).1.blocks ≠ heap1.blocks := by decide

/-- C5 (code bug): in the reallocate-and-copy fallback the source
copies `newsize = size + 24` bytes, not `min(needed, current_size)`:
resizing block 48 (size 24) to 16 bytes copies 40 bytes (over-reading
the old block), where the claim demands `min(16+8, 24) = 24`; and when
the fallback's allocation fails (capacity exhausted), the code passes
NULL to `place`/`memcpy` — modelled as the undefined result `none` —
instead of reporting failure with the original block intact. -/
theorem C5_theorem :
    ((mm_realloc cap0 heap2 48 16).getD (initState, 0)).1.copies = [(96, 48, 40)] ∧
    ((mm_realloc cap0 heap2 48 16).getD (initState, 0)).2 = 96 ∧
    (40 : Nat) ≠ min (16 + OVERHEAD) (GET_SIZE ((readHdr heap2 48).getD 0)) ∧
    mm_realloc 2096 heapT1 48 3000 = none := by decide

/-- C8 counterexample: a successful `mm_init` extends the heap by
`CHUNKSIZE/DSIZE` words = 2048 bytes — half the configured chunk
constant `CHUNKSIZE = 4096` — because `extend_heap` multiplies its
argument by `WSIZE`, not `DSIZE`. -/
theorem C8_counterexample :
    (mm_init cap0).2 = 0 ∧ heap0.brk - initState.brk = 2048 ∧
    CHUNKSIZE = 4096 ∧ (2048 : Nat) ≠ CHUNKSIZE := by decide

theorem extend_init_fail (cap : Nat) (h : cap < 2096) :
    extend_heap cap initState (CHUNKSIZE / DSIZE) = some (initState, 0) := by
  unfold extend_heap
  norm_num [initState, WSIZE, CHUNKSIZE, DSIZE, HEAP_SIZE]
  omega

theorem extend_init_ok (cap : Nat) (h : 2096 ≤ cap) :
    extend_heap cap initState (CHUNKSIZE / DSIZE) = some (initSeeded, 48) := by
  unfold extend_heap
  norm_num [initState, WSIZE, CHUNKSIZE, DSIZE, HEAP_SIZE]
  rw [if_neg (by omega)]
  decide

/-- C8 amended: after laying out padding, prologue and epilogue (a
48-byte bootstrap request), `mm_init` immediately extends the heap by
`CHUNKSIZE/DSIZE` words = `CHUNKSIZE/2` = 2048 bytes — not one full
chunk — seeding the registry with the single free block 48; it
returns failure when the heap-grow service cannot satisfy the 48-byte
bootstrap request or the 2048-byte extension. -/
theorem C8_theorem (cap : Nat) :
    (cap < 2 * HEAP_SIZE → (mm_init cap).2 = -1) ∧
    (2 * HEAP_SIZE ≤ cap → cap < 2096 → (mm_init cap).2 = -1) ∧
    (2096 ≤ cap → mm_init cap = (initSeeded, 0)) := by
  refine ⟨fun h => ?_, fun h1 h2 => ?_, fun h => ?_⟩
  · unfold mm_init
    rw [if_pos h]
  · unfold mm_init
    rw [if_neg (Nat.not_lt.mpr h1), extend_init_fail cap h2]
    rfl
  · unfold mm_init
    rw [if_neg (Nat.not_lt.mpr (by unfold HEAP_SIZE; omega)), extend_init_ok cap h]
    rfl

/-- Witness for C8 at capacities 40 (bootstrap fails), 100 (extension
fails) and 10000 (success, extension of 2048 bytes, registry seeded
with block 48). -/
theorem C8_witness :
    (mm_init 40).2 = -1 ∧ (mm_init 100).2 = -1 ∧ mm_init 10000 = (initSeeded, 0) :=
  ⟨(C8_theorem 40).1 (by norm_num [HEAP_SIZE]),
   (C8_theorem 100).2.1 (by norm_num [HEAP_SIZE]) (by norm_num),
   (C8_theorem 10000).2.2 (by norm_num)⟩

/-- C4 amended: `mm_realloc` keeps the block in place and changes
nothing exactly when `new_size + HEAP_SIZE` (24 — the source's margin,
despite its own `2 words for header and footer` comment) fits the
current size: for every state, live pointer and nonzero size with
`n + HEAP_SIZE ≤ current size`, `resize(p, n)` returns `p` and the
state — in particular the block set — is untouched. -/
theorem C4_theorem (cap : Nat) (s : MState) (bp n hw : Nat)
    (hbp : bp ≠ 0) (hn : n ≠ 0) (hr : readHdr s bp = some hw)
    (hle : n + HEAP_SIZE ≤ GET_SIZE hw) :
    mm_realloc cap s bp n = some (s, bp) := by
  unfold mm_realloc
  rw [if_neg (by simp [hbp]), if_neg (by simp [hn]),
    if_pos (by exact Nat.pos_of_ne_zero hn)]
  rw [hr]
  simp only [Option.pure_def, Option.bind_eq_bind, Option.some_bind]
  rw [if_pos hle]

/-- Witness for C4 on the tight heap: block 48 has size 2048 and
`100 + 24 ≤ 2048`, so `resize(48, 100)` returns 48 with the state
unchanged. -/
theorem C4_witness : mm_realloc 2096 heapT1 48 100 = some (heapT1, 48) :=
  C4_theorem 2096 heapT1 48 100 2049 (by norm_num) (by norm_num) (by decide)
    (by decide)

/-! ### The first-fit search over the registry chain -/

theorem setBk_root {s s1 : MState} {bp v : Nat} (h : setBk s bp v = some s1) :
    s1.root = s.root := by
  unfold setBk at h
  split at h
  · cases h
    rfl
  · split at h
    · split at h
      · cases h
        rfl
      · cases h
    · cases h

theorem setFd_root {s s1 : MState} {bp v : Nat} (h : setFd s bp v = some s1) :
    s1.root = s.root := by
  unfold setFd at h
  split at h
  · cases h
    rfl
  · split at h
    · split at h
      · cases h
        rfl
      · cases h
    · cases h

/-- Whenever `add_node` returns, the inserted block has become the
registry root (both source branches end with `list_root = bp`). -/
theorem add_node_root {s s1 : MState} {bp : Nat} (h : add_node s bp = some s1) :
    s1.root = bp := by
  unfold add_node at h
  split at h
  · simp only [Option.pure_def, Option.bind_eq_bind] at h
    obtain ⟨t1, h1, h2⟩ := Option.bind_eq_some.mp h
    obtain ⟨t2, h3, h4⟩ := Option.bind_eq_some.mp h2
    cases h4
    rw [setFd_root h3, setBk_root h1]
  · simp only [Option.pure_def, Option.bind_eq_bind] at h
    obtain ⟨t1, h1, h2⟩ := Option.bind_eq_some.mp h
    obtain ⟨t2, h3, h4⟩ := Option.bind_eq_some.mp h2
    obtain ⟨t3, h5, h6⟩ := Option.bind_eq_some.mp h4
    cases h6
    rfl

/-- The `find_fit` loop walks exactly the chained nodes, in chain
order, and stops at the allocated prologue terminator. -/
theorem ffLoop_chain (s : MState) (asize : Nat) :
    ∀ (L : List Nat) (prev cur fuel : Nat), Chain s prev cur L →
      (∀ a ∈ L, a ≠ s.brk) → L.length < fuel →
      ffLoop s asize fuel cur =
        some (L.find? (fun a => decide (asize ≤ GET_SIZE ((readHdr s a).getD 0)))) := by
  intro L
  induction L with
  | nil =>
    intro prev cur fuel hc hbrk hfuel
    simp only [Chain] at hc
    obtain ⟨rfl, -, -⟩ := hc
    obtain ⟨fuel, rfl⟩ : ∃ f, fuel = f + 1 := ⟨fuel - 1, by omega⟩
    have h8 : readHdr s 8 = some (PACK HEAP_SIZE 1) := rfl
    have hal : (GET_ALLOC (PACK HEAP_SIZE 1) == 0) = false := by decide
    unfold ffLoop
    rw [h8]
    simp only [Option.pure_def, Option.bind_eq_bind, Option.some_bind, hal]
    simp
  | cons cur l ih =>
    intro prev cur0 fuel hc hbrk hfuel
    simp only [Chain] at hc
    obtain ⟨he, ha8, b, hfb, hfree, hsz, hbk, hch⟩ := hc
    subst he
    obtain ⟨fuel, rfl⟩ : ∃ f, fuel = f + 1 := ⟨fuel - 1, by omega⟩
    have habrk : cur0 ≠ s.brk := hbrk cur0 (by simp)
    have hread : readHdr s cur0 = some b.hdr := by
      unfold readHdr
      rw [if_neg (by simp [ha8]), if_neg (by simp [habrk]), hfb]
      rfl
    have hfd : getFd s cur0 = some b.fd := by
      unfold getFd
      rw [if_neg (by simp [ha8]), hfb]
      simp [hsz]
    have hal : (GET_ALLOC b.hdr == 0) = true := by simp [hfree]
    unfold ffLoop
    rw [hread]
    simp only [Option.pure_def, Option.bind_eq_bind, Option.some_bind, hal, if_true]
    by_cases hfit : asize ≤ GET_SIZE b.hdr
    · rw [if_pos hfit, List.find?_cons_of_pos _ (by simp [hread, hfit])]
    · rw [if_neg hfit, hfd]
      simp only [Option.some_bind]
      rw [ih cur0 b.fd fuel hch (fun x hx => hbrk x (by simp [hx])) (by
        simpa using Nat.lt_of_succ_lt_succ hfuel)]
      rw [List.find?_cons_of_neg _ (by simp [hread, hfit])]

/-- C6: over any state whose registry is the chain `L` (terminated by
the prologue), `find_fit` performs first fit in the registry's current
list order: it returns the first chained block whose size is at least
`asize`, and a no-fit NULL exactly when no chained free block is that
large; and the order is LIFO — whenever `add_node` registers a block,
that block becomes the root the next search visits first. -/
theorem C6_theorem (s : MState) (L : List Nat) (asize : Nat)
    (hc : Chain s 0 s.root L) (hbrk : ∀ a ∈ L, a ≠ s.brk)
    (hlen : L.length ≤ s.blocks.length) :
    find_fit s asize =
      some (L.find? (fun a => decide (asize ≤ GET_SIZE ((readHdr s a).getD 0)))) ∧
    ∀ bp s1, add_node s bp = some s1 → s1.root = bp :=
  ⟨ffLoop_chain s asize L 0 s.root (s.blocks.length + 2) hc hbrk (by omega),
    fun _bp _s1 h => add_node_root h⟩

/-- Witness for C6 on the freshly initialised heap, whose registry
chain is `[48]`: a request of 24 bytes is served by block 48, a
request of 3000 bytes finds no fit, and registering a block makes it
the root. -/
theorem C6_witness :
    find_fit heap0 24 = some (some 48) ∧ find_fit heap0 3000 = some none ∧
    ∀ s1, add_node heap0 48 = some s1 → s1.root = 48 := by
  have hch : Chain heap0 0 heap0.root [48] := by
    simp only [Chain]
    exact ⟨by decide, by decide, ⟨48, 2048, 0, 8⟩, by decide, by decide, by decide,
      by decide, by decide, by decide, by decide⟩
  have hbrk : ∀ a ∈ ([48] : List Nat), a ≠ heap0.brk := by decide
  have hlen : ([48] : List Nat).length ≤ heap0.blocks.length := by decide
  refine ⟨?_, ?_, fun s1 h => (C6_theorem heap0 [48] 24 hch hbrk hlen).2 48 s1 h⟩
  · rw [(C6_theorem heap0 [48] 24 hch hbrk hlen).1]
    decide
  · rw [(C6_theorem heap0 [48] 3000 hch hbrk hlen).1]
    decide

/-! ### Toolkit: canonical tag words -/

theorem GET_ALLOC_le_one (w : Nat) : GET_ALLOC w ≤ 1 := by
  rw [GET_ALLOC_eq]
  omega

theorem GET_SIZE_le (w : Nat) : GET_SIZE w ≤ w := Nat.and_le_left

theorem GET_SIZE_dvd {w : Nat} (h32 : w < 2 ^ 32) : 8 ∣ GET_SIZE w := by
  rw [GET_SIZE_eq h32]
  exact ⟨w / 8, rfl⟩

theorem goodTag_PACK {sz a : Nat} (h8 : 8 ∣ sz) (h32 : sz < 2 ^ 32) (ha : a ≤ 1) :
    goodTag (PACK sz a) := by
  refine ⟨?_, ?_⟩
  · rw [PACK_eq h8 h32 ha]
    omega
  · rw [GET_SIZE_PACK h8 h32 ha, GET_ALLOC_PACK h8 h32 ha, PACK_eq h8 h32 ha]

theorem goodTag_lt {w : Nat} (h : goodTag w) : w < 2 ^ 32 := h.1

theorem goodTag_size_dvd {w : Nat} (h : goodTag w) : 8 ∣ GET_SIZE w :=
  GET_SIZE_dvd h.1

/-! ### Toolkit: tiling -/

theorem tiles_nil_iff {a e : Nat} : Tiles a ([] : List Block) e ↔ e = a := Iff.rfl

theorem tiles_cons {b : Block} {l : List Block} {a e : Nat} :
    Tiles a (b :: l) e ↔
      b.addr = a ∧ 0 < GET_SIZE b.hdr ∧ Tiles (a + GET_SIZE b.hdr) l e := Iff.rfl

theorem tiles_nil {a e : Nat} (h : Tiles a ([] : List Block) e) : e = a := h

theorem tiles_append {l1 l2 : List Block} {a e : Nat} :
    Tiles a (l1 ++ l2) e ↔ ∃ m, Tiles a l1 m ∧ Tiles m l2 e := by
  induction l1 generalizing a with
  | nil =>
    simp only [List.nil_append, tiles_nil_iff]
    constructor
    · intro h
      exact ⟨a, rfl, h⟩
    · rintro ⟨m, rfl, h⟩
      exact h
  | cons b l ih =>
    rw [List.cons_append]
    rw [tiles_cons]
    constructor
    · rintro ⟨h1, h2, h3⟩
      obtain ⟨m, h4, h5⟩ := ih.mp h3
      exact ⟨m, tiles_cons.mpr ⟨h1, h2, h4⟩, h5⟩
    · rintro ⟨m, hm, h4⟩
      obtain ⟨h1, h2, h3⟩ := tiles_cons.mp hm
      exact ⟨h1, h2, ih.mpr ⟨m, h3, h4⟩⟩

theorem tiles_le {l : List Block} {a e : Nat} (h : Tiles a l e) : a ≤ e := by
  induction l generalizing a with
  | nil => exact Nat.le_of_eq (tiles_nil h).symm
  | cons b l ih =>
    obtain ⟨-, hpos, ht⟩ := tiles_cons.mp h
    have := ih ht
    omega

theorem tiles_bounds {l : List Block} {a e : Nat} (h : Tiles a l e) :
    ∀ b ∈ l, a ≤ b.addr ∧ b.addr + GET_SIZE b.hdr ≤ e ∧ 0 < GET_SIZE b.hdr := by
  induction l generalizing a with
  | nil => simp
  | cons c l ih =>
    obtain ⟨hca, hpos, ht⟩ := tiles_cons.mp h
    intro b hb
    rcases List.mem_cons.mp hb with rfl | hb
    · have := tiles_le ht
      omega
    · have := ih ht b hb
      omega

theorem tiles_sum {l : List Block} {a e : Nat} (h : Tiles a l e) :
    a + sumSizes l = e := by
  induction l generalizing a with
  | nil => simp [sumSizes, tiles_nil h]
  | cons b l ih =>
    obtain ⟨-, -, ht⟩ := tiles_cons.mp h
    have := ih ht
    simp only [sumSizes, List.map_cons, List.sum_cons] at *
    omega

/-! ### Toolkit: locating blocks inside a tiling -/

theorem find?_addr_decomp {A B : List Block} {b : Block} {d : Nat}
    (hpre : ∀ c ∈ A, c.addr ≠ d) (hb : b.addr = d) :
    (A ++ b :: B).find? (fun c => c.addr == d) = some b := by
  rw [List.find?_append]
  have hnone : A.find? (fun c => c.addr == d) = none :=
    List.find?_eq_none.mpr (fun c hc => by simp [hpre c hc])
  rw [hnone]
  simp [List.find?_cons, hb]

theorem findBlock_mem_decomp {s : MState} {bp : Nat} {b : Block}
    (h : findBlock s bp = some b) :
    b.addr = bp ∧ ∃ pre post, s.blocks = pre ++ b :: post := by
  have hmem : b ∈ s.blocks := List.mem_of_find?_eq_some h
  have hpred := List.find?_some h
  refine ⟨by simpa using hpred, ?_⟩
  obtain ⟨pre, post, heq⟩ := List.append_of_mem hmem
  exact ⟨pre, post, heq⟩

theorem find?_end_none {l : List Block} {a e bp : Nat} (h : Tiles a l e) (hle : bp ≤ a) :
    l.find? (fun c => c.addr + GET_SIZE c.hdr == bp) = none := by
  refine List.find?_eq_none.mpr (fun c hc => ?_)
  have := tiles_bounds h c hc
  simp only [beq_iff_eq]
  omega

theorem find?_end_last {pre : List Block} {p : Block} {a bp : Nat}
    (h : Tiles a (pre ++ [p]) bp) :
    (pre ++ [p]).find? (fun c => c.addr + GET_SIZE c.hdr == bp) = some p := by
  obtain ⟨m, hm1, hm2⟩ := tiles_append.mp h
  obtain ⟨hpa, hppos, hpe⟩ := hm2
  have hpe2 : bp = m + GET_SIZE p.hdr := tiles_nil hpe
  rw [List.find?_append]
  have hnone : pre.find? (fun c => c.addr + GET_SIZE c.hdr == bp) = none := by
    refine List.find?_eq_none.mpr (fun c hc => ?_)
    have := tiles_bounds hm1 c hc
    simp only [beq_iff_eq]
    omega
  rw [hnone]
  simp [List.find?_cons, hpa, hpe2.symm]

/-! ### Toolkit: operations that only touch link words -/

theorem shape_map_link {l : List Block} {f : Block → Block}
    (hf : ∀ b, (f b).addr = b.addr ∧ (f b).hdr = b.hdr) :
    (l.map f).map (fun b => (b.addr, b.hdr)) = l.map (fun b => (b.addr, b.hdr)) := by
  induction l with
  | nil => rfl
  | cons b l ih => simp [ih, (hf b).1, (hf b).2]

theorem setBk_frame {s s1 : MState} {bp v : Nat} (h : setBk s bp v = some s1) :
    shape s1 = shape s ∧ s1.brk = s.brk ∧ s1.grown = s.grown := by
  unfold setBk at h
  split at h
  · cases h
    exact ⟨rfl, rfl, rfl⟩
  · split at h
    · split at h
      · cases h
        refine ⟨?_, rfl, rfl⟩
        unfold shape
        exact shape_map_link (fun b => by split <;> simp)
      · cases h
    · cases h

theorem setFd_frame {s s1 : MState} {bp v : Nat} (h : setFd s bp v = some s1) :
    shape s1 = shape s ∧ s1.brk = s.brk ∧ s1.grown = s.grown := by
  unfold setFd at h
  split at h
  · cases h
    exact ⟨rfl, rfl, rfl⟩
  · split at h
    · split at h
      · cases h
        refine ⟨?_, rfl, rfl⟩
        unfold shape
        exact shape_map_link (fun b => by split <;> simp)
      · cases h
    · cases h

theorem add_node_frame {s s1 : MState} {bp : Nat} (h : add_node s bp = some s1) :
    shape s1 = shape s ∧ s1.brk = s.brk ∧ s1.grown = s.grown := by
  unfold add_node at h
  split at h
  · simp only [Option.pure_def, Option.bind_eq_bind] at h
    obtain ⟨t1, h1, h2⟩ := Option.bind_eq_some.mp h
    obtain ⟨t2, h3, h4⟩ := Option.bind_eq_some.mp h2
    cases h4
    obtain ⟨a1, a2, a3⟩ := setBk_frame h1
    obtain ⟨b1, b2, b3⟩ := setFd_frame h3
    exact ⟨b1.trans a1, b2.trans a2, b3.trans a3⟩
  · simp only [Option.pure_def, Option.bind_eq_bind] at h
    obtain ⟨t1, h1, h2⟩ := Option.bind_eq_some.mp h
    obtain ⟨t2, h3, h4⟩ := Option.bind_eq_some.mp h2
    obtain ⟨t3, h5, h6⟩ := Option.bind_eq_some.mp h4
    cases h6
    obtain ⟨a1, a2, a3⟩ := setFd_frame h1
    obtain ⟨b1, b2, b3⟩ := setBk_frame h3
    obtain ⟨c1, c2, c3⟩ := setBk_frame h5
    exact ⟨(c1.trans (b1.trans a1) : _), c2.trans (b2.trans a2), c3.trans (b3.trans a3)⟩

theorem delete_node_frame {s s1 : MState} {bp : Nat} (h : delete_node s bp = some s1) :
    shape s1 = shape s ∧ s1.brk = s.brk ∧ s1.grown = s.grown := by
  unfold delete_node at h
  simp only [Option.pure_def, Option.bind_eq_bind] at h
  obtain ⟨tb, h1, h2⟩ := Option.bind_eq_some.mp h
  obtain ⟨tf, h3, h4⟩ := Option.bind_eq_some.mp h2
  split at h4
  · split at h4
    · obtain ⟨a1, a2, a3⟩ := setBk_frame h4
      exact ⟨a1, a2, a3⟩
    · cases h4
      exact ⟨rfl, rfl, rfl⟩
  · obtain ⟨t1, h5, h6⟩ := Option.bind_eq_some.mp h4
    obtain ⟨a1, a2, a3⟩ := setFd_frame h5
    split at h6
    · obtain ⟨b1, b2, b3⟩ := setBk_frame h6
      exact ⟨b1.trans a1, b2.trans a2, b3.trans a3⟩
    · cases h6
      exact ⟨a1, a2, a3⟩

/-! ### Toolkit: transport along equal shapes -/

theorem tiles_of_shape {l1 l2 : List Block} {a e : Nat}
    (hsh : l1.map (fun b => (b.addr, b.hdr)) = l2.map (fun b => (b.addr, b.hdr)))
    (h : Tiles a l1 e) : Tiles a l2 e := by
  induction l1 generalizing l2 a with
  | nil =>
    cases l2 with
    | nil => exact h
    | cons c l2 => simp at hsh
  | cons b l ih =>
    cases l2 with
    | nil => simp at hsh
    | cons c l2 =>
      simp only [List.map_cons, List.cons.injEq, Prod.mk.injEq] at hsh
      obtain ⟨⟨e1, e2⟩, hsh⟩ := hsh
      obtain ⟨h1, h2, h3⟩ := h
      exact ⟨e1 ▸ h1, e2 ▸ h2, by rw [← e2]; exact ih hsh h3⟩

theorem tags_of_shape {l1 l2 : List Block}
    (hsh : l1.map (fun b => (b.addr, b.hdr)) = l2.map (fun b => (b.addr, b.hdr)))
    (h : ∀ b ∈ l1, goodTag b.hdr ∧ 8 ≤ GET_SIZE b.hdr) :
    ∀ b ∈ l2, goodTag b.hdr ∧ 8 ≤ GET_SIZE b.hdr := by
  induction l1 generalizing l2 with
  | nil =>
    cases l2 with
    | nil => simp
    | cons c l2 => simp at hsh
  | cons b l ih =>
    cases l2 with
    | nil => simp at hsh
    | cons c l2 =>
      simp only [List.map_cons, List.cons.injEq, Prod.mk.injEq] at hsh
      obtain ⟨⟨-, e2⟩, hsh⟩ := hsh
      intro d hd
      rcases List.mem_cons.mp hd with rfl | hd
      · rw [← e2]
        exact h b (by simp)
      · exact ih hsh (fun x hx => h x (by simp [hx])) d hd

theorem noadj_of_shape {l1 l2 : List Block}
    (hsh : l1.map (fun b => (b.addr, b.hdr)) = l2.map (fun b => (b.addr, b.hdr)))
    (h : NoAdjFree l1) : NoAdjFree l2 := by
  induction l1 generalizing l2 with
  | nil =>
    cases l2 with
    | nil => trivial
    | cons c l2 => simp at hsh
  | cons b l ih =>
    cases l2 with
    | nil => trivial
    | cons c l2 =>
      simp only [List.map_cons, List.cons.injEq, Prod.mk.injEq] at hsh
      obtain ⟨⟨-, e2⟩, hsh⟩ := hsh
      cases l with
      | nil =>
        cases l2 with
        | nil => trivial
        | cons d l2 => simp at hsh
      | cons b2 l =>
        cases l2 with
        | nil => simp at hsh
        | cons c2 l2 =>
          have hsh2 := hsh
          simp only [List.map_cons, List.cons.injEq, Prod.mk.injEq] at hsh2
          obtain ⟨⟨-, e22⟩, -⟩ := hsh2
          obtain ⟨hedge, htail⟩ := h
          exact ⟨by rw [← e2, ← e22]; exact hedge, ih hsh htail⟩

theorem sumSizes_of_shape {l1 l2 : List Block}
    (hsh : l1.map (fun b => (b.addr, b.hdr)) = l2.map (fun b => (b.addr, b.hdr))) :
    sumSizes l1 = sumSizes l2 := by
  induction l1 generalizing l2 with
  | nil =>
    cases l2 with
    | nil => rfl
    | cons c l2 => simp at hsh
  | cons b l ih =>
    cases l2 with
    | nil => simp at hsh
    | cons c l2 =>
      simp only [List.map_cons, List.cons.injEq, Prod.mk.injEq] at hsh
      obtain ⟨⟨-, e2⟩, hsh⟩ := hsh
      simp only [sumSizes, List.map_cons, List.sum_cons] at *
      rw [e2, ih hsh]

/-- Transport the whole well-formedness structure along a step that
only rewrites link words. -/
theorem WF_of_frame {cap : Nat} {s s1 : MState}
    (hfr : shape s1 = shape s ∧ s1.brk = s.brk ∧ s1.grown = s.grown)
    (h : WF cap s) : WF cap s1 := by
  obtain ⟨hsh, hbrk, hgr⟩ := hfr
  unfold shape at hsh
  refine ⟨?_, ?_, ?_, ?_, ?_, ?_⟩
  · rw [hbrk]
    exact tiles_of_shape hsh.symm h.tiles
  · exact tags_of_shape hsh.symm h.tags
  · rw [hgr, hbrk]
    exact h.grown_eq
  · rw [hbrk]
    exact h.le_cap
  · rw [hbrk]
    exact h.lo
  · exact noadj_of_shape hsh.symm h.noadj

/-! ### Toolkit: sums and adjacency over runs -/

theorem sumSizes_append (l1 l2 : List Block) :
    sumSizes (l1 ++ l2) = sumSizes l1 + sumSizes l2 := by
  simp [sumSizes]

theorem sumSizes_cons (b : Block) (l : List Block) :
    sumSizes (b :: l) = GET_SIZE b.hdr + sumSizes l := by
  simp [sumSizes]

theorem noadj_nil : NoAdjFree [] := trivial

theorem noadj_cons {b : Block} {l : List Block} :
    NoAdjFree (b :: l) ↔ edgeOk (some b) l.head? ∧ NoAdjFree l := by
  cases l with
  | nil => simp [NoAdjFree, edgeOk]
  | cons c l => simp [NoAdjFree, edgeOk]

theorem noadj_append {l1 l2 : List Block} :
    NoAdjFree (l1 ++ l2) ↔
      NoAdjFree l1 ∧ NoAdjFree l2 ∧ edgeOk l1.getLast? l2.head? := by
  induction l1 with
  | nil =>
    constructor
    · intro h
      exact ⟨trivial, h, trivial⟩
    · rintro ⟨-, h, -⟩
      exact h
  | cons b l1 ih =>
    rw [List.cons_append, noadj_cons, ih, noadj_cons (b := b) (l := l1)]
    cases l1 with
    | nil =>
      simp only [List.nil_append, List.head?_nil, List.getLast?_singleton,
        List.getLast?_nil]
      constructor
      · rintro ⟨h1, -, h2, -⟩
        exact ⟨⟨trivial, trivial⟩, h2, h1⟩
      · rintro ⟨-, h2, h1⟩
        exact ⟨h1, trivial, h2, trivial⟩
    | cons c l1 =>
      simp only [List.head?_cons, List.getLast?_cons_cons]
      constructor
      · rintro ⟨h1, h2, h3, h4⟩
        exact ⟨⟨h1, h2⟩, h3, h4⟩
      · rintro ⟨⟨h1, h2⟩, h3, h4⟩
        exact ⟨h1, h2, h3, h4⟩

/-! ### Toolkit: block searches factor through addresses and tags -/

theorem find?_factor {u v : List Block}
    (hsh : u.map (fun b => (b.addr, b.hdr)) = v.map (fun b => (b.addr, b.hdr)))
    (p : Nat × Nat → Bool) :
    Option.map (fun b => (b.addr, b.hdr)) (u.find? (fun c => p (c.addr, c.hdr))) =
    Option.map (fun b => (b.addr, b.hdr)) (v.find? (fun c => p (c.addr, c.hdr))) := by
  induction u generalizing v with
  | nil =>
    cases v with
    | nil => rfl
    | cons c v => simp at hsh
  | cons b l ih =>
    cases v with
    | nil => simp at hsh
    | cons c v =>
      simp only [List.map_cons, List.cons.injEq, Prod.mk.injEq] at hsh
      obtain ⟨⟨e1, e2⟩, hsh⟩ := hsh
      by_cases hp : p (b.addr, b.hdr) = true
      · rw [List.find?_cons_of_pos _ (by simpa using hp),
          List.find?_cons_of_pos _ (by rw [← e1, ← e2]; exact hp)]
        simp [e1, e2]
      · have hp2 : p (b.addr, b.hdr) = false := Bool.eq_false_iff.mpr hp
        rw [List.find?_cons_of_neg _ (by simpa using hp),
          List.find?_cons_of_neg _ (by rw [← e1, ← e2]; simpa using hp)]
        exact ih hsh

/-- Reading a managed block's header through an equal shape: if the
witness run `W` has an entry `b` at `bp` (with all other addresses
different), the state reads `b.hdr` there. -/
theorem readHdr_of_pairs {s : MState} {W : List Block} {b : Block} {bp : Nat}
    (hsh : shape s = W.map (fun b => (b.addr, b.hdr)))
    (hfw : W.find? (fun c => c.addr == bp) = some b)
    (h8 : bp ≠ 8) (hbrk : bp ≠ s.brk) :
    readHdr s bp = some b.hdr := by
  have hf := find?_factor (u := s.blocks) (v := W) hsh (fun q => q.1 == bp)
  rw [hfw] at hf
  unfold readHdr findBlock
  rw [if_neg (by simp [h8]), if_neg (by simp [hbrk])]
  cases hfind : s.blocks.find? (fun c => c.addr == bp) with
  | none => rw [hfind] at hf; simp at hf
  | some c =>
    rw [hfind] at hf
    simp only [Option.map_some'] at hf
    simp [Prod.ext_iff] at hf
    simp [hf.2]

theorem readFtr_of_pairs {s : MState} {W : List Block} {b : Block} {bp : Nat}
    (hsh : shape s = W.map (fun b => (b.addr, b.hdr)))
    (hfw : W.find? (fun c => c.addr == bp) = some b)
    (h8 : bp ≠ 8) :
    readFtr s bp = some b.hdr := by
  have hf := find?_factor (u := s.blocks) (v := W) hsh (fun q => q.1 == bp)
  rw [hfw] at hf
  unfold readFtr findBlock
  rw [if_neg (by simp [h8])]
  cases hfind : s.blocks.find? (fun c => c.addr == bp) with
  | none => rw [hfind] at hf; simp at hf
  | some c =>
    rw [hfind] at hf
    simp only [Option.map_some'] at hf
    simp [Prod.ext_iff] at hf
    simp [hf.2]

/-- The footer word below `bp`, read through an equal shape:
whatever entry of the witness run ends at `bp` is what the state's
search finds. -/
theorem prevWord_of_pairs_found {s : MState} {W : List Block} {p : Block} {bp : Nat}
    (hsh : shape s = W.map (fun b => (b.addr, b.hdr)))
    (hfw : W.find? (fun c => c.addr + GET_SIZE c.hdr == bp) = some p)
    (h32 : bp ≠ 32) :
    prevWord s bp = some p.hdr := by
  have hf := find?_factor (u := s.blocks) (v := W) hsh
    (fun q => q.1 + GET_SIZE q.2 == bp)
  rw [hfw] at hf
  unfold prevWord
  rw [if_neg (by simp [h32])]
  cases hfind : s.blocks.find? (fun c => c.addr + GET_SIZE c.hdr == bp) with
  | none => rw [hfind] at hf; simp at hf
  | some c =>
    rw [hfind] at hf
    simp only [Option.map_some'] at hf
    simp [Prod.ext_iff] at hf
    simp [hf.2]

theorem prevWord_of_pairs_none {s : MState} {W : List Block} {bp : Nat}
    (hsh : shape s = W.map (fun b => (b.addr, b.hdr)))
    (hfw : W.find? (fun c => c.addr + GET_SIZE c.hdr == bp) = none)
    (h32 : bp ≠ 32) (h48 : bp = 2 * HEAP_SIZE) :
    prevWord s bp = some 0 := by
  have hf := find?_factor (u := s.blocks) (v := W) hsh
    (fun q => q.1 + GET_SIZE q.2 == bp)
  rw [hfw] at hf
  unfold prevWord
  rw [if_neg (by simp [h32])]
  cases hfind : s.blocks.find? (fun c => c.addr + GET_SIZE c.hdr == bp) with
  | none => simp [h48]
  | some c => rw [hfind] at hf; simp at hf

/-! ### Toolkit: header writes and removals at the shape level -/

theorem map_ite_addr {l : List Block} {bp : Nat} (g : Block → Block)
    (hl : ∀ c ∈ l, c.addr ≠ bp) :
    l.map (fun c => if c.addr == bp then g c else c) = l := by
  induction l with
  | nil => rfl
  | cons c l ih =>
    simp only [List.map_cons]
    rw [if_neg (by simp [hl c (by simp)]), ih (fun d hd => hl d (by simp [hd]))]

theorem shape_removeBlock (s : MState) (x : Nat) :
    shape (removeBlock s x) = (shape s).filter (fun q => q.1 != x) := by
  unfold shape removeBlock
  simp only []
  induction s.blocks with
  | nil => rfl
  | cons b l ih =>
    simp only [List.map_cons, List.filter_cons]
    by_cases hb : b.addr != x
    · simp only [hb]
      simp only [List.filter_cons, hb, if_pos rfl] at *
      simp [ih]
    · simp only [Bool.not_eq_true] at hb
      simp [hb, ih]

theorem findBlock_isSome_of_pairs {s : MState} {W : List Block} {b : Block} {bp : Nat}
    (hsh : shape s = W.map (fun b => (b.addr, b.hdr)))
    (hfw : W.find? (fun c => c.addr == bp) = some b) :
    (findBlock s bp).isSome = true := by
  have hf := find?_factor (u := s.blocks) (v := W) hsh (fun q => q.1 == bp)
  rw [hfw] at hf
  unfold findBlock
  cases hfind : s.blocks.find? (fun c => c.addr == bp) with
  | none => rw [hfind] at hf; simp at hf
  | some c => rfl

theorem map_pair_update (l : List Block) (bp tag : Nat) :
    (l.map (fun c => if c.addr == bp then { c with hdr := tag } else c)).map
        (fun b => (b.addr, b.hdr)) =
      (l.map (fun b => (b.addr, b.hdr))).map
        (fun q => if q.1 == bp then (q.1, tag) else q) := by
  induction l with
  | nil => rfl
  | cons b l ih =>
    simp only [List.map_cons, ih]
    by_cases hb : b.addr = bp <;> simp [hb]

theorem shape_writeHdr_update {s : MState} {bp tag : Nat}
    (h : (findBlock s bp).isSome = true) :
    shape (writeHdr s bp tag) =
      (shape s).map (fun q => if q.1 == bp then (q.1, tag) else q) := by
  unfold writeHdr
  rw [if_pos h]
  unfold shape
  exact map_pair_update s.blocks bp tag

theorem shape_insertBlock {l : List Block} {b : Block} {L1 L2 : List (Nat × Nat)}
    (hsh : l.map (fun c => (c.addr, c.hdr)) = L1 ++ L2)
    (h1 : ∀ q ∈ L1, ¬(b.addr < q.1)) (h2 : ∀ q ∈ L2, b.addr < q.1) :
    (insertBlock l b).map (fun c => (c.addr, c.hdr)) = L1 ++ (b.addr, b.hdr) :: L2 := by
  induction l generalizing L1 with
  | nil =>
    simp only [List.map_nil] at hsh
    obtain ⟨rfl, rfl⟩ : L1 = [] ∧ L2 = [] := List.append_eq_nil.mp hsh.symm
    rfl
  | cons c l ih =>
    cases L1 with
    | nil =>
      simp only [List.nil_append] at hsh ⊢
      subst hsh
      have hlt : b.addr < c.addr := h2 (c.addr, c.hdr) (by simp)
      unfold insertBlock
      rw [if_pos hlt]
      simp
    | cons q L1 =>
      simp only [List.map_cons, List.cons_append, List.cons.injEq] at hsh
      obtain ⟨hq, hsh⟩ := hsh
      have hnlt : ¬(b.addr < c.addr) := by
        have := h1 q (by simp)
        rw [← hq] at this
        exact this
      unfold insertBlock
      rw [if_neg hnlt]
      simp only [List.map_cons, List.cons_append, List.cons.injEq]
      exact ⟨hq, ih hsh (fun x hx => h1 x (by simp [hx]))⟩

theorem shape_writeHdr_insert {s : MState} {d t : Nat} {P Q : List (Nat × Nat)}
    (hsh : shape s = P ++ Q)
    (hnone : findBlock s d = none)
    (h1 : ∀ q ∈ P, ¬(d < q.1)) (h2 : ∀ q ∈ Q, d < q.1) :
    shape (writeHdr s d t) = P ++ (d, t) :: Q := by
  unfold writeHdr
  rw [hnone]
  simp only [Option.isSome_none, Bool.false_eq_true, if_false]
  exact shape_insertBlock (b := ⟨d, t, 0, 0⟩) hsh h1 h2

theorem insertBlock_append_end {l : List Block} {b : Block}
    (h : ∀ c ∈ l, c.addr < b.addr) :
    insertBlock l b = l ++ [b] := by
  induction l with
  | nil => rfl
  | cons c l ih =>
    unfold insertBlock
    rw [if_neg (by have := h c (by simp); omega)]
    rw [ih (fun d hd => h d (by simp [hd]))]
    rfl

/-- Appending a fresh block past every existing address (the
`extend_heap` write) is an exact state equation. -/
theorem writeHdr_append_end {s : MState} {bp tag : Nat}
    (h : ∀ c ∈ s.blocks, c.addr < bp) :
    writeHdr s bp tag = { s with blocks := s.blocks ++ [⟨bp, tag, 0, 0⟩] } := by
  unfold writeHdr
  have hnone : findBlock s bp = none := by
    unfold findBlock
    refine List.find?_eq_none.mpr (fun c hc => ?_)
    have := h c hc
    simp only [beq_iff_eq]
    omega
  rw [hnone]
  simp only [Option.isSome_none, Bool.false_eq_true, if_false]
  congr 1
  exact insertBlock_append_end h

theorem writeHdr_brk (s : MState) (bp tag : Nat) : (writeHdr s bp tag).brk = s.brk := by
  unfold writeHdr
  split <;> rfl

theorem writeHdr_grown (s : MState) (bp tag : Nat) :
    (writeHdr s bp tag).grown = s.grown := by
  unfold writeHdr
  split <;> rfl

theorem removeBlock_brk (s : MState) (x : Nat) : (removeBlock s x).brk = s.brk := rfl

theorem removeBlock_grown (s : MState) (x : Nat) :
    (removeBlock s x).grown = s.grown := rfl

theorem findBlock_hdr_of_pairs {s : MState} {W : List Block} {b : Block} {bp : Nat}
    (hsh : shape s = W.map (fun b => (b.addr, b.hdr)))
    (hfw : W.find? (fun c => c.addr == bp) = some b) :
    ∃ c, findBlock s bp = some c ∧ c.addr = b.addr ∧ c.hdr = b.hdr := by
  have hf := find?_factor (u := s.blocks) (v := W) hsh (fun q => q.1 == bp)
  rw [hfw] at hf
  unfold findBlock
  cases hfind : s.blocks.find? (fun c => c.addr == bp) with
  | none => rw [hfind] at hf; simp at hf
  | some c =>
    rw [hfind] at hf
    simp only [Option.map_some'] at hf
    simp [Prod.ext_iff] at hf
    exact ⟨c, rfl, hf.1, hf.2⟩

/-- Assemble well-formedness of a state from a witness run with equal
shape. -/
theorem WF_of_pairs {cap : Nat} {s2 : MState} {W2 : List Block}
    (hsh : shape s2 = W2.map (fun b => (b.addr, b.hdr)))
    (ht : Tiles (2 * HEAP_SIZE) W2 s2.brk)
    (htg : ∀ c ∈ W2, goodTag c.hdr ∧ 8 ≤ GET_SIZE c.hdr)
    (hna : NoAdjFree W2)
    (hgr : s2.grown = s2.brk) (hc : s2.brk ≤ cap) (hlo : 2 * HEAP_SIZE ≤ s2.brk) :
    WF cap s2 := by
  unfold shape at hsh
  refine ⟨tiles_of_shape hsh.symm ht, tags_of_shape hsh.symm htg, hgr, hc, hlo,
    noadj_of_shape hsh.symm hna⟩

theorem filter_ne_pairs {L : List (Nat × Nat)} {x : Nat} (h : ∀ q ∈ L, q.1 ≠ x) :
    L.filter (fun q => q.1 != x) = L := by
  induction L with
  | nil => rfl
  | cons q L ih =>
    rw [List.filter_cons, if_pos (by simp [h q (by simp)]),
      ih (fun d hd => h d (by simp [hd]))]

theorem filter_pairs_decomp {P Q : List (Nat × Nat)} {x : Nat} {r : Nat × Nat}
    (hq : r.1 = x) (h1 : ∀ q ∈ P, q.1 ≠ x) (h2 : ∀ q ∈ Q, q.1 ≠ x) :
    (P ++ r :: Q).filter (fun q => q.1 != x) = P ++ Q := by
  rw [List.filter_append, filter_ne_pairs h1, List.filter_cons,
    if_neg (by simp [hq]), filter_ne_pairs h2]

theorem upd_pairs_decomp {P Q : List (Nat × Nat)} {d t w : Nat}
    (h1 : ∀ q ∈ P, q.1 ≠ d) (h2 : ∀ q ∈ Q, q.1 ≠ d) :
    (P ++ (d, w) :: Q).map (fun q => if q.1 == d then (q.1, t) else q) =
      P ++ (d, t) :: Q := by
  rw [List.map_append, List.map_cons]
  have e1 : P.map (fun q => if q.1 == d then (q.1, t) else q) = P := by
    induction P with
    | nil => rfl
    | cons q L ih =>
      simp only [List.map_cons]
      rw [if_neg (by simp [h1 q (by simp)]), ih (fun d hd => h1 d (by simp [hd]))]
  have e2 : Q.map (fun q => if q.1 == d then (q.1, t) else q) = Q := by
    induction Q with
    | nil => rfl
    | cons q L ih =>
      simp only [List.map_cons]
      rw [if_neg (by simp [h2 q (by simp)]), ih (fun d hd => h2 d (by simp [hd]))]
  rw [e1, e2]
  simp

/-! ### The coalescing lemma -/

/-- Common ending of every `coalesce` branch: the merged (or original)
free block `nb`, sitting between the runs `A` and `B` in a state whose
shape matches, is registered with `add_node` (which only rewrites link
words) and returned. -/
theorem coalesce_finish {K : Nat} {s2 s1 : MState} {A B : List Block} {n : Block}
    (hadd : add_node s2 n.addr = some s1)
    (hsh2 : shape s2 = (A ++ n :: B).map (fun c => (c.addr, c.hdr)))
    (ht2 : Tiles (2 * HEAP_SIZE) (A ++ n :: B) s2.brk)
    (htg2 : ∀ c ∈ A ++ n :: B, goodTag c.hdr ∧ 8 ≤ GET_SIZE c.hdr)
    (hna2 : NoAdjFree (A ++ n :: B))
    (hgr2 : s2.grown = s2.brk) (hc2 : s2.brk ≤ K)
    (hAaddr : ∀ c ∈ A, c.addr ≠ n.addr)
    (hfreenb : GET_ALLOC n.hdr = 0) :
    WF K s1 ∧ sumSizes s1.blocks = sumSizes (A ++ n :: B) ∧ s1.brk = s2.brk ∧
      s1.grown = s2.grown ∧
      shape s1 = (A ++ n :: B).map (fun c => (c.addr, c.hdr)) ∧
      ∃ rb, findBlock s1 n.addr = some rb ∧ GET_ALLOC rb.hdr = 0 ∧
        GET_SIZE n.hdr ≤ GET_SIZE rb.hdr := by
  obtain ⟨f1, f2, f3⟩ := add_node_frame hadd
  have hsh1 : shape s1 = (A ++ n :: B).map (fun c => (c.addr, c.hdr)) := f1.trans hsh2
  have hfind : (A ++ n :: B).find? (fun c => c.addr == n.addr) = some n :=
    find?_addr_decomp hAaddr rfl
  obtain ⟨rb, hrb1, hrb2, hrb3⟩ := findBlock_hdr_of_pairs hsh1 hfind
  refine ⟨?_, ?_, f2, f3, hsh1, rb, hrb1, by rw [hrb3]; exact hfreenb, by rw [hrb3]⟩
  · exact WF_of_pairs hsh1 (f2 ▸ ht2) htg2 hna2 (by rw [f2, f3]; exact hgr2)
      (by rw [f2]; exact hc2) (by rw [f2]; exact tiles_le ht2)
  · unfold shape at hsh1
    rw [sumSizes_of_shape hsh1]

theorem sumSizes_nil : sumSizes ([] : List Block) = 0 := rfl

theorem edgeOk_shift {q : Option Block} {c : Block} (c' : Block)
    (h : edgeOk q (some c)) (hc : GET_ALLOC c.hdr = 0) : edgeOk q (some c') := by
  cases q with
  | none => trivial
  | some a =>
    simp only [edgeOk] at h ⊢
    intro hcon
    exact h ⟨hcon.1, hc⟩

theorem edgeOk_shift_left {q : Option Block} {c : Block} (c' : Block)
    (h : edgeOk (some c) q) (hc : GET_ALLOC c.hdr = 0) : edgeOk (some c') q := by
  cases q with
  | none => trivial
  | some a =>
    simp only [edgeOk] at h ⊢
    intro hcon
    exact h ⟨hc, hcon.2⟩

theorem edgeOk_left_alloc {c : Block} (q : Option Block) (hc : GET_ALLOC c.hdr = 1) :
    edgeOk (some c) q := by
  cases q with
  | none => trivial
  | some a =>
    simp only [edgeOk]
    intro hcon
    omega

theorem edgeOk_right_alloc {c : Block} (q : Option Block) (hc : GET_ALLOC c.hdr = 1) :
    edgeOk q (some c) := by
  cases q with
  | none => trivial
  | some a =>
    simp only [edgeOk]
    intro hcon
    omega

theorem coalesce_spec {K : Nat} {s : MState} {A B : List Block} {b : Block}
    (hcap : K ≤ 2 ^ 31)
    (hsh : shape s = (A ++ b :: B).map (fun c => (c.addr, c.hdr)))
    (htiles : Tiles (2 * HEAP_SIZE) (A ++ b :: B) s.brk)
    (htags : ∀ c ∈ A ++ b :: B, goodTag c.hdr ∧ 8 ≤ GET_SIZE c.hdr)
    (hgrown : s.grown = s.brk) (hlecap : s.brk ≤ K)
    (hfree : GET_ALLOC b.hdr = 0)
    (hpre : NoAdjFree A) (hpost : NoAdjFree B)
    {s1 : MState} {r : Nat} (h : coalesce s b.addr = some (s1, r)) :
    WF K s1 ∧ sumSizes s1.blocks = sumSizes (A ++ b :: B) ∧
      s1.brk = s.brk ∧ s1.grown = s.grown ∧
      (∀ q ∈ shape s, GET_ALLOC q.2 = 1 → q ∈ shape s1) ∧
      ∃ rb, findBlock s1 r = some rb ∧ GET_ALLOC rb.hdr = 0 ∧
        GET_SIZE b.hdr ≤ GET_SIZE rb.hdr := by
  have hhs : HEAP_SIZE = 24 := rfl
  obtain ⟨m, htpre, htrest⟩ := tiles_append.mp htiles
  obtain ⟨hbaddr, hbpos, htpost⟩ := tiles_cons.mp htrest
  rw [← hbaddr] at htpre htpost
  have hb48 : 2 * HEAP_SIZE ≤ b.addr := tiles_le htpre
  have hbend : b.addr + GET_SIZE b.hdr ≤ s.brk := tiles_le htpost
  obtain ⟨htagb, hbsz⟩ := htags b (by simp)
  have hb8 : b.addr ≠ 8 := by omega
  have hbbrk : b.addr ≠ s.brk := by omega
  have hprefacts := tiles_bounds htpre
  have hpostfacts := tiles_bounds htpost
  have hfindb : (A ++ b :: B).find? (fun c => c.addr == b.addr) = some b :=
    find?_addr_decomp (fun c hc => by have := hprefacts c hc; omega) rfl
  have hreadb : readHdr s b.addr = some b.hdr := readHdr_of_pairs hsh hfindb hb8 hbbrk
  rcases List.eq_nil_or_concat' A with rfl | ⟨pre2, p, rfl⟩
  · -- A = []
    have hb48e : b.addr = 2 * HEAP_SIZE := tiles_nil htpre
    have hpw : prevWord s b.addr = some 0 := by
      refine prevWord_of_pairs_none hsh (find?_end_none htiles (by omega)) (by omega)
        hb48e
    have hftr : readFtr s b.addr = some b.hdr := readFtr_of_pairs hsh hfindb hb8
    rcases hpost0 : B with _ | ⟨n, post2⟩
    · -- B = []
      subst hpost0
      have hbrke : s.brk = b.addr + GET_SIZE b.hdr := tiles_nil htpost
      have hreadn : readHdr s (b.addr + GET_SIZE b.hdr) = some (PACK 0 1) := by
        unfold readHdr
        rw [if_neg (by simp; omega), if_pos (by simp [hbrke])]
      unfold coalesce at h
      rw [hpw] at h
      simp only [Option.pure_def, Option.bind_eq_bind, Option.some_bind] at h
      rw [show GET_SIZE 0 = 0 from by decide, Nat.sub_zero, hftr] at h
      simp only [Option.some_bind] at h
      rw [hreadb] at h
      simp only [Option.some_bind] at h
      rw [hreadn] at h
      simp only [Option.some_bind] at h
      simp only [hfree] at h
      rw [show GET_ALLOC (PACK 0 1) = 1 from by decide] at h
      simp at h
      obtain ⟨s1x, hadd, heq⟩ := Option.bind_eq_some.mp h
      have heq2 : s1x = s1 ∧ b.addr = r := by simpa using heq
      obtain ⟨rfl, rfl⟩ := heq2
      have hfin := coalesce_finish (A := []) (B := []) (n := b) (K := K) hadd
        (by simpa using hsh) (by simpa using htiles) (by simpa using htags)
        (by trivial) hgrown hlecap (by simp) hfree
      obtain ⟨w1, w2, w3, w4, w5, w6⟩ := hfin
      refine ⟨w1, by simpa using w2, w3, w4, ?_, by simpa using w6⟩
      intro q hq hqa
      rw [hsh] at hq
      rw [w5]
      simpa using hq
    · -- B = n :: post2
      subst hpost0
      obtain ⟨hnaddr, hnpos, htpost2⟩ := tiles_cons.mp htpost
      obtain ⟨htagn, hnsz⟩ := htags n (by simp)
      have hnend : n.addr + GET_SIZE n.hdr ≤ s.brk := by
        have := tiles_le htpost2
        omega
      have hpost2facts := tiles_bounds htpost2
      have hfindn : (b :: n :: post2).find? (fun c => c.addr == n.addr) = some n := by
        have hx := find?_addr_decomp (A := [b]) (B := post2) (b := n) (d := n.addr)
          (fun c hc => by
            have hc2 : c = b := by simpa using hc
            subst hc2
            omega) rfl
        simpa using hx
      have hreadn : readHdr s (b.addr + GET_SIZE b.hdr) = some n.hdr := by
        rw [← hnaddr]
        exact readHdr_of_pairs (by simpa using hsh) hfindn (by omega) (by omega)
      unfold coalesce at h
      rw [hpw] at h
      simp only [Option.pure_def, Option.bind_eq_bind, Option.some_bind] at h
      rw [show GET_SIZE 0 = 0 from by decide, Nat.sub_zero, hftr] at h
      simp only [Option.some_bind] at h
      rw [hreadb] at h
      simp only [Option.some_bind] at h
      rw [hreadn] at h
      simp only [Option.some_bind] at h
      simp only [hfree] at h
      rcases Nat.le_one_iff_eq_zero_or_eq_one.mp (GET_ALLOC_le_one n.hdr) with hna0 | hna1
      · -- next block free: Case 1 merge
        rw [hna0] at h
        simp at h
        rw [← hnaddr] at h
        obtain ⟨t, hdel, h2⟩ := Option.bind_eq_some.mp h
        obtain ⟨s1x, hadd, heq⟩ := Option.bind_eq_some.mp h2
        have heq2 : s1x = s1 ∧ b.addr = r := by simpa using heq
        obtain ⟨rfl, rfl⟩ := heq2
        obtain ⟨d1, d2, d3⟩ := delete_node_frame hdel
        have hshrem : shape (removeBlock t n.addr) =
            (b.addr, b.hdr) :: post2.map (fun c => (c.addr, c.hdr)) := by
          rw [shape_removeBlock, d1,
            show shape s = ((b :: n :: post2).map (fun c => (c.addr, c.hdr))) from by
              simpa using hsh]
          simp only [List.map_cons]
          have hx := filter_pairs_decomp (P := [(b.addr, b.hdr)])
            (r := (n.addr, n.hdr)) (Q := post2.map (fun c => (c.addr, c.hdr)))
            (x := n.addr) rfl
            (fun q hq => by
              have hq2 : q = (b.addr, b.hdr) := by simpa using hq
              subst hq2
              simp
              omega)
            (fun q hq => by
              obtain ⟨c, hc, rfl⟩ := List.mem_map.mp hq
              have := hpost2facts c hc
              simp
              omega)
          simpa using hx
        have hfindrem : (findBlock (removeBlock t n.addr) b.addr).isSome = true := by
          refine findBlock_isSome_of_pairs (W := b :: post2) (b := b) ?_ ?_
          · rw [hshrem]
            simp
          · exact List.find?_cons_of_pos _ (by simp)
        have hSdvd : 8 ∣ GET_SIZE b.hdr + GET_SIZE n.hdr :=
          Nat.dvd_add (goodTag_size_dvd htagb) (goodTag_size_dvd htagn)
        have hSlt : GET_SIZE b.hdr + GET_SIZE n.hdr < 2 ^ 32 := by omega
        have hS : GET_SIZE (PACK (GET_SIZE b.hdr + GET_SIZE n.hdr) 0) =
            GET_SIZE b.hdr + GET_SIZE n.hdr := GET_SIZE_PACK hSdvd hSlt (by norm_num)
        have hAz : GET_ALLOC (PACK (GET_SIZE b.hdr + GET_SIZE n.hdr) 0) = 0 :=
          GET_ALLOC_PACK hSdvd hSlt (by norm_num)
        have hshs2 : shape (writeHdr (removeBlock t n.addr) b.addr
            (PACK (GET_SIZE b.hdr + GET_SIZE n.hdr) 0)) =
            (({ b with hdr := PACK (GET_SIZE b.hdr + GET_SIZE n.hdr) 0 } :: post2).map
              (fun c => (c.addr, c.hdr))) := by
          rw [shape_writeHdr_update hfindrem, hshrem]
          have hx := upd_pairs_decomp (P := [])
            (Q := post2.map (fun c => (c.addr, c.hdr))) (d := b.addr)
            (t := PACK (GET_SIZE b.hdr + GET_SIZE n.hdr) 0) (w := b.hdr)
            (by simp)
            (fun q hq => by
              obtain ⟨c, hc, rfl⟩ := List.mem_map.mp hq
              have := hpost2facts c hc
              simp
              omega)
          simpa using hx
        have hbrks2 : (writeHdr (removeBlock t n.addr) b.addr
            (PACK (GET_SIZE b.hdr + GET_SIZE n.hdr) 0)).brk = s.brk := by
          rw [writeHdr_brk, removeBlock_brk, d2]
        have hgrs2 : (writeHdr (removeBlock t n.addr) b.addr
            (PACK (GET_SIZE b.hdr + GET_SIZE n.hdr) 0)).grown = s.grown := by
          rw [writeHdr_grown, removeBlock_grown, d3]
        have hfin := coalesce_finish (A := []) (B := post2)
          (n := { b with hdr := PACK (GET_SIZE b.hdr + GET_SIZE n.hdr) 0 })
          (K := K) hadd (by simpa using hshs2)
          (by
            rw [hbrks2]
            refine tiles_cons.mpr ⟨?_, ?_, ?_⟩
            · show b.addr = 2 * HEAP_SIZE
              exact hb48e
            · show 0 < GET_SIZE (PACK (GET_SIZE b.hdr + GET_SIZE n.hdr) 0)
              rw [hS]
              omega
            · show Tiles (2 * HEAP_SIZE +
                  GET_SIZE (PACK (GET_SIZE b.hdr + GET_SIZE n.hdr) 0)) post2 s.brk
              rw [hS, ← hb48e, ← Nat.add_assoc]
              exact htpost2)
          (by
            intro c hc
            rcases List.mem_cons.mp hc with rfl | hc
            · exact ⟨goodTag_PACK hSdvd hSlt (by norm_num), by rw [hS]; omega⟩
            · exact htags c (by simp [hc]))
          (by
            simp only [List.nil_append]
            rw [noadj_cons]
            refine ⟨?_, ?_⟩
            · have hx := (noadj_cons.mp hpost).1
              cases hhd : post2.head? with
              | none => trivial
              | some hd =>
                rw [hhd] at hx
                simp only [edgeOk, hAz]
                intro hcon
                exact hx ⟨hna0, hcon.2⟩
            · exact (noadj_cons.mp hpost).2)
          (by rw [hbrks2, hgrs2, hgrown])
          (by rw [hbrks2]; exact hlecap)
          (by simp) hAz
        obtain ⟨w1, w2, w3, w4, w5, w6⟩ := hfin
        refine ⟨w1, ?_, by rw [w3, hbrks2], by rw [w4, hgrs2], ?_, ?_⟩
        · rw [w2]
          simp only [sumSizes_cons, List.nil_append, hS]
          omega
        · intro q hq hqa
          rw [hsh] at hq
          rw [w5]
          obtain ⟨c, hc, hcq⟩ := List.mem_map.mp hq
          have hcq2 : (c.addr, c.hdr) = q := hcq
          subst hcq2
          have hqa2 : GET_ALLOC c.hdr = 1 := hqa
          simp at hc
          rcases hc with rfl | rfl | hc
          · exact absurd hqa2 (by omega)
          · exact absurd hqa2 (by omega)
          · exact List.mem_map_of_mem _ (by simp [hc])
        · obtain ⟨rb, hrb1, hrb2, hrb3⟩ := w6
          exact ⟨rb, hrb1, hrb2, by rw [hS] at hrb3; omega⟩
      · -- next block allocated: nothing to merge
        rw [hna1] at h
        simp at h
        obtain ⟨s1x, hadd, heq⟩ := Option.bind_eq_some.mp h
        have heq2 : s1x = s1 ∧ b.addr = r := by simpa using heq
        obtain ⟨rfl, rfl⟩ := heq2
        have hfin := coalesce_finish (A := []) (B := n :: post2) (n := b) (K := K)
          hadd (by simpa using hsh) (by simpa using htiles) (by simpa using htags)
          (by
            simp only [List.nil_append]
            rw [noadj_cons]
            exact ⟨by simp [edgeOk, hna1], hpost⟩)
          hgrown hlecap (by simp) hfree
        obtain ⟨w1, w2, w3, w4, w5, w6⟩ := hfin
        refine ⟨w1, by simpa using w2, w3, w4, ?_, by simpa using w6⟩
        intro q hq hqa
        rw [hsh] at hq
        rw [w5]
        simpa using hq
  · -- A = pre2 ++ [p]: the freed block has a managed predecessor p
    obtain ⟨m2, htpre2, htp⟩ := tiles_append.mp htpre
    obtain ⟨hpaddr2, hppos, htpnil⟩ := tiles_cons.mp htp
    subst hpaddr2
    have hpend : b.addr = p.addr + GET_SIZE p.hdr := tiles_nil htpnil
    obtain ⟨htagp, hpsz⟩ := htags p (by simp)
    have hp48 : 2 * HEAP_SIZE ≤ p.addr := tiles_le htpre2
    have hpre2facts := tiles_bounds htpre2
    have hpw : prevWord s b.addr = some p.hdr := by
      refine prevWord_of_pairs_found hsh ?_ (by omega)
      rw [List.find?_append, find?_end_last htpre]
      rfl
    have hprevB : b.addr - GET_SIZE p.hdr = p.addr := by omega
    have hfindp : ((pre2 ++ [p]) ++ b :: B).find? (fun c => c.addr == p.addr) =
        some p := by
      have hx := find?_addr_decomp (A := pre2) (B := b :: B) (b := p)
        (d := p.addr) (fun c hc => by have := hpre2facts c hc; omega) rfl
      simpa using hx
    have hftrp : readFtr s p.addr = some p.hdr := readFtr_of_pairs hsh hfindp (by omega)
    have hreadp : readHdr s p.addr = some p.hdr :=
      readHdr_of_pairs hsh hfindp (by omega) (by omega)
    have hpb : (p.addr == b.addr) = false := by simp; omega
    have hpreOnly : NoAdjFree pre2 := (noadj_append.mp hpre).1
    have hedgep : edgeOk pre2.getLast? (some p) := by
      have hx := (noadj_append.mp hpre).2.2
      simpa using hx
    unfold coalesce at h
    rw [hpw] at h
    simp only [Option.pure_def, Option.bind_eq_bind, Option.some_bind] at h
    rw [hprevB, hftrp] at h
    simp only [Option.some_bind] at h
    rw [hreadb] at h
    simp only [Option.some_bind] at h
    rw [hpb] at h
    rcases hpost0 : B with _ | ⟨n, post2⟩
    · -- B = []: the freed block ends at the managed top
      subst hpost0
      have hbrke : s.brk = b.addr + GET_SIZE b.hdr := tiles_nil htpost
      have hreadn : readHdr s (b.addr + GET_SIZE b.hdr) = some (PACK 0 1) := by
        unfold readHdr
        rw [if_neg (by simp; omega), if_pos (by simp [hbrke])]
      rw [hreadn] at h
      simp only [Option.some_bind] at h
      rw [show GET_ALLOC (PACK 0 1) = 1 from by decide] at h
      rcases Nat.le_one_iff_eq_zero_or_eq_one.mp (GET_ALLOC_le_one p.hdr) with hpa0 | hpa1
      · -- previous block free: absorb into it (Case 2)
        rw [hpa0] at h
        simp at h
        rw [hreadp] at h
        simp only [Option.some_bind] at h
        obtain ⟨t, hdel, h2⟩ := Option.bind_eq_some.mp h
        obtain ⟨s1x, hadd, heq⟩ := Option.bind_eq_some.mp h2
        have heq2 : s1x = s1 ∧ p.addr = r := by simpa using heq
        obtain ⟨rfl, rfl⟩ := heq2
        have hSdvd : 8 ∣ GET_SIZE b.hdr + GET_SIZE p.hdr :=
          Nat.dvd_add (goodTag_size_dvd htagb) (goodTag_size_dvd htagp)
        have hSlt : GET_SIZE b.hdr + GET_SIZE p.hdr < 2 ^ 32 := by omega
        have hS : GET_SIZE (PACK (GET_SIZE b.hdr + GET_SIZE p.hdr) 0) =
            GET_SIZE b.hdr + GET_SIZE p.hdr := GET_SIZE_PACK hSdvd hSlt (by norm_num)
        have hAz : GET_ALLOC (PACK (GET_SIZE b.hdr + GET_SIZE p.hdr) 0) = 0 :=
          GET_ALLOC_PACK hSdvd hSlt (by norm_num)
        have hshrem : shape (removeBlock s b.addr) =
            pre2.map (fun c => (c.addr, c.hdr)) ++ [(p.addr, p.hdr)] := by
          rw [shape_removeBlock, hsh]
          simp only [List.map_append, List.map_cons, List.map_nil]
          have hx := filter_pairs_decomp
            (P := pre2.map (fun c => (c.addr, c.hdr)) ++ [(p.addr, p.hdr)])
            (r := (b.addr, b.hdr)) (Q := ([] : List (Nat × Nat))) (x := b.addr) rfl
            (fun q hq => by
              rcases List.mem_append.mp hq with hq | hq
              · obtain ⟨c, hc, rfl⟩ := List.mem_map.mp hq
                have := hpre2facts c hc
                simp
                omega
              · have hq2 : q = (p.addr, p.hdr) := by simpa using hq
                subst hq2
                simp
                omega)
            (by simp)
          simpa using hx
        have hfindrem : (findBlock (removeBlock s b.addr) p.addr).isSome = true := by
          refine findBlock_isSome_of_pairs (W := pre2 ++ [p]) (b := p) ?_ ?_
          · rw [hshrem]
            simp
          · exact find?_addr_decomp (A := pre2) (B := ([] : List Block)) (b := p)
              (d := p.addr) (fun c hc => by have := hpre2facts c hc; omega) rfl
        have hshs2 : shape (writeHdr (removeBlock s b.addr) p.addr
            (PACK (GET_SIZE b.hdr + GET_SIZE p.hdr) 0)) =
            ((pre2 ++ [({ p with hdr := PACK (GET_SIZE b.hdr + GET_SIZE p.hdr) 0 } : Block)]).map
              (fun c => (c.addr, c.hdr))) := by
          rw [shape_writeHdr_update hfindrem, hshrem]
          have hx := upd_pairs_decomp (P := pre2.map (fun c => (c.addr, c.hdr)))
            (Q := ([] : List (Nat × Nat))) (d := p.addr)
            (t := PACK (GET_SIZE b.hdr + GET_SIZE p.hdr) 0) (w := p.hdr)
            (fun q hq => by
              obtain ⟨c, hc, rfl⟩ := List.mem_map.mp hq
              have := hpre2facts c hc
              simp
              omega)
            (by simp)
          simpa using hx
        obtain ⟨d1, d2, d3⟩ := delete_node_frame hdel
        have hsht : shape t = ((pre2 ++ [({ p with
            hdr := PACK (GET_SIZE b.hdr + GET_SIZE p.hdr) 0 } : Block)]).map
              (fun c => (c.addr, c.hdr))) := by
          rw [d1, hshs2]
        have hbrkt : t.brk = s.brk := by
          rw [d2, writeHdr_brk, removeBlock_brk]
        have hgrt : t.grown = s.grown := by
          rw [d3, writeHdr_grown, removeBlock_grown]
        have hfin := coalesce_finish (A := pre2) (B := [])
          (n := { p with hdr := PACK (GET_SIZE b.hdr + GET_SIZE p.hdr) 0 })
          (K := K) hadd hsht
          (by
            rw [hbrkt]
            refine tiles_append.mpr ⟨p.addr, htpre2, tiles_cons.mpr ⟨rfl, ?_, ?_⟩⟩
            · rw [hS]
              omega
            · refine tiles_nil_iff.mpr ?_
              rw [hS]
              omega)
          (by
            intro c hc
            rcases List.mem_append.mp hc with hc | hc
            · exact htags c (by simp [hc])
            · have hc2 : c = { p with hdr := PACK (GET_SIZE b.hdr + GET_SIZE p.hdr) 0 } := by
                simpa using hc
              subst hc2
              refine ⟨goodTag_PACK hSdvd hSlt (by norm_num), ?_⟩
              rw [hS]
              omega)
          (by
            refine noadj_append.mpr ⟨hpreOnly, trivial, ?_⟩
            exact edgeOk_shift _ hedgep hpa0)
          (by rw [hgrt, hbrkt]; exact hgrown)
          (by rw [hbrkt]; exact hlecap)
          (fun c hc => by
            have := hpre2facts c hc
            show c.addr ≠ p.addr
            omega)
          hAz
        obtain ⟨w1, w2, w3, w4, w5, w6⟩ := hfin
        refine ⟨w1, ?_, by rw [w3, hbrkt], by rw [w4, hgrt], ?_, ?_⟩
        · rw [w2]
          simp only [sumSizes_append, sumSizes_cons, sumSizes_nil, hS]
          omega
        · intro q hq hqa
          rw [hsh] at hq
          rw [w5]
          obtain ⟨c, hc, hcq⟩ := List.mem_map.mp hq
          have hcq2 : (c.addr, c.hdr) = q := hcq
          subst hcq2
          have hqa2 : GET_ALLOC c.hdr = 1 := hqa
          simp at hc
          rcases hc with hc | rfl | rfl
          · exact List.mem_map_of_mem _ (by simp [hc])
          · exact absurd hqa2 (by omega)
          · exact absurd hqa2 (by omega)
        · obtain ⟨rb, hrb1, hrb2, hrb3⟩ := w6
          exact ⟨rb, hrb1, hrb2, by rw [hS] at hrb3; omega⟩
      · -- previous block allocated: no merge (Case 0)
        rw [hpa1] at h
        simp at h
        obtain ⟨s1x, hadd, heq⟩ := Option.bind_eq_some.mp h
        have heq2 : s1x = s1 ∧ b.addr = r := by simpa using heq
        obtain ⟨rfl, rfl⟩ := heq2
        have hfin := coalesce_finish (A := pre2 ++ [p]) (B := []) (n := b)
          (K := K) hadd hsh htiles htags
          (by
            refine noadj_append.mpr ⟨hpre, trivial, ?_⟩
            rw [List.getLast?_concat]
            exact edgeOk_left_alloc _ hpa1)
          hgrown hlecap
          (fun c hc => by
            rcases List.mem_append.mp hc with hc | hc
            · have := hpre2facts c hc
              omega
            · have hc2 : c = p := by simpa using hc
              subst hc2
              omega)
          hfree
        obtain ⟨w1, w2, w3, w4, w5, w6⟩ := hfin
        refine ⟨w1, by simpa using w2, w3, w4, ?_, by simpa using w6⟩
        intro q hq hqa
        rw [hsh] at hq
        rw [w5]
        simpa using hq
    · -- B = n :: post2: the freed block has a managed successor n
      subst hpost0
      obtain ⟨hnaddr, hnpos, htpost2⟩ := tiles_cons.mp htpost
      obtain ⟨htagn, hnsz⟩ := htags n (by simp)
      have hnend : n.addr + GET_SIZE n.hdr ≤ s.brk := by
        have := tiles_le htpost2
        omega
      have hpost2facts := tiles_bounds htpost2
      have hfindn : ((pre2 ++ [p]) ++ b :: n :: post2).find?
          (fun c => c.addr == n.addr) = some n := by
        have hx := find?_addr_decomp (A := (pre2 ++ [p]) ++ [b]) (B := post2)
          (b := n) (d := n.addr)
          (fun c hc => by
            rcases List.mem_append.mp hc with hc | hc
            · rcases List.mem_append.mp hc with hc | hc
              · have := hpre2facts c hc
                omega
              · have hc2 : c = p := by simpa using hc
                subst hc2
                omega
            · have hc2 : c = b := by simpa using hc
              subst hc2
              omega) rfl
        simpa using hx
      have hreadn : readHdr s (b.addr + GET_SIZE b.hdr) = some n.hdr := by
        rw [← hnaddr]
        exact readHdr_of_pairs hsh hfindn (by omega) (by omega)
      rw [hreadn] at h
      simp only [Option.some_bind] at h
      rcases Nat.le_one_iff_eq_zero_or_eq_one.mp (GET_ALLOC_le_one p.hdr) with hpa0 | hpa1 <;>
        rcases Nat.le_one_iff_eq_zero_or_eq_one.mp (GET_ALLOC_le_one n.hdr) with hna0 | hna1
      · -- both neighbours free: absorb both (Case 3)
        rw [hpa0, hna0] at h
        simp at h
        rw [hreadp] at h
        simp only [Option.some_bind] at h
        rw [← hnaddr] at h
        obtain ⟨t1, hdel1, h2⟩ := Option.bind_eq_some.mp h
        obtain ⟨t2, hdel2, h3⟩ := Option.bind_eq_some.mp h2
        obtain ⟨s1x, hadd, heq⟩ := Option.bind_eq_some.mp h3
        have heq2 : s1x = s1 ∧ p.addr = r := by simpa using heq
        obtain ⟨rfl, rfl⟩ := heq2
        have hSdvd : 8 ∣ GET_SIZE b.hdr + GET_SIZE p.hdr + GET_SIZE n.hdr :=
          Nat.dvd_add (Nat.dvd_add (goodTag_size_dvd htagb) (goodTag_size_dvd htagp))
            (goodTag_size_dvd htagn)
        have hSlt : GET_SIZE b.hdr + GET_SIZE p.hdr + GET_SIZE n.hdr < 2 ^ 32 := by omega
        have hS : GET_SIZE (PACK (GET_SIZE b.hdr + GET_SIZE p.hdr + GET_SIZE n.hdr) 0) =
            GET_SIZE b.hdr + GET_SIZE p.hdr + GET_SIZE n.hdr :=
          GET_SIZE_PACK hSdvd hSlt (by norm_num)
        have hAz : GET_ALLOC (PACK (GET_SIZE b.hdr + GET_SIZE p.hdr + GET_SIZE n.hdr) 0) = 0 :=
          GET_ALLOC_PACK hSdvd hSlt (by norm_num)
        have hsht2 : shape t2 = ((pre2 ++ [p]) ++ b :: n :: post2).map
            (fun c => (c.addr, c.hdr)) := by
          rw [(delete_node_frame hdel2).1, (delete_node_frame hdel1).1, hsh]
        have hshrem1 : shape (removeBlock t2 b.addr) =
            pre2.map (fun c => (c.addr, c.hdr)) ++ (p.addr, p.hdr) ::
              (n.addr, n.hdr) :: post2.map (fun c => (c.addr, c.hdr)) := by
          rw [shape_removeBlock, hsht2]
          simp only [List.map_append, List.map_cons, List.map_nil]
          have hx := filter_pairs_decomp
            (P := pre2.map (fun c => (c.addr, c.hdr)) ++ [(p.addr, p.hdr)])
            (r := (b.addr, b.hdr))
            (Q := (n.addr, n.hdr) :: post2.map (fun c => (c.addr, c.hdr)))
            (x := b.addr) rfl
            (fun q hq => by
              rcases List.mem_append.mp hq with hq | hq
              · obtain ⟨c, hc, rfl⟩ := List.mem_map.mp hq
                have := hpre2facts c hc
                simp
                omega
              · have hq2 : q = (p.addr, p.hdr) := by simpa using hq
                subst hq2
                simp
                omega)
            (fun q hq => by
              rcases List.mem_cons.mp hq with rfl | hq
              · simp
                omega
              · obtain ⟨c, hc, rfl⟩ := List.mem_map.mp hq
                have := hpost2facts c hc
                simp
                omega)
          simpa using hx
        have hshrem2 : shape (removeBlock (removeBlock t2 b.addr) n.addr) =
            pre2.map (fun c => (c.addr, c.hdr)) ++ (p.addr, p.hdr) ::
              post2.map (fun c => (c.addr, c.hdr)) := by
          rw [shape_removeBlock, hshrem1]
          have hx := filter_pairs_decomp
            (P := pre2.map (fun c => (c.addr, c.hdr)) ++ [(p.addr, p.hdr)])
            (r := (n.addr, n.hdr))
            (Q := post2.map (fun c => (c.addr, c.hdr)))
            (x := n.addr) rfl
            (fun q hq => by
              rcases List.mem_append.mp hq with hq | hq
              · obtain ⟨c, hc, rfl⟩ := List.mem_map.mp hq
                have := hpre2facts c hc
                simp
                omega
              · have hq2 : q = (p.addr, p.hdr) := by simpa using hq
                subst hq2
                simp
                omega)
            (fun q hq => by
              obtain ⟨c, hc, rfl⟩ := List.mem_map.mp hq
              have := hpost2facts c hc
              simp
              omega)
          simpa using hx
        have hfindrem : (findBlock (removeBlock (removeBlock t2 b.addr) n.addr)
            p.addr).isSome = true := by
          refine findBlock_isSome_of_pairs (W := pre2 ++ p :: post2) (b := p) ?_ ?_
          · rw [hshrem2]
            simp
          · exact find?_addr_decomp (A := pre2) (B := post2) (b := p) (d := p.addr)
              (fun c hc => by have := hpre2facts c hc; omega) rfl
        have hshs2 : shape (writeHdr (removeBlock (removeBlock t2 b.addr) n.addr) p.addr
            (PACK (GET_SIZE b.hdr + GET_SIZE p.hdr + GET_SIZE n.hdr) 0)) =
            ((pre2 ++ { p with
              hdr := PACK (GET_SIZE b.hdr + GET_SIZE p.hdr + GET_SIZE n.hdr) 0 } ::
                post2).map (fun c => (c.addr, c.hdr))) := by
          rw [shape_writeHdr_update hfindrem, hshrem2]
          have hx := upd_pairs_decomp (P := pre2.map (fun c => (c.addr, c.hdr)))
            (Q := post2.map (fun c => (c.addr, c.hdr))) (d := p.addr)
            (t := PACK (GET_SIZE b.hdr + GET_SIZE p.hdr + GET_SIZE n.hdr) 0)
            (w := p.hdr)
            (fun q hq => by
              obtain ⟨c, hc, rfl⟩ := List.mem_map.mp hq
              have := hpre2facts c hc
              simp
              omega)
            (fun q hq => by
              obtain ⟨c, hc, rfl⟩ := List.mem_map.mp hq
              have := hpost2facts c hc
              simp
              omega)
          simpa using hx
        have hbrks2 : (writeHdr (removeBlock (removeBlock t2 b.addr) n.addr) p.addr
            (PACK (GET_SIZE b.hdr + GET_SIZE p.hdr + GET_SIZE n.hdr) 0)).brk = s.brk := by
          rw [writeHdr_brk, removeBlock_brk, removeBlock_brk,
            (delete_node_frame hdel2).2.1, (delete_node_frame hdel1).2.1]
        have hgrs2 : (writeHdr (removeBlock (removeBlock t2 b.addr) n.addr) p.addr
            (PACK (GET_SIZE b.hdr + GET_SIZE p.hdr + GET_SIZE n.hdr) 0)).grown =
            s.grown := by
          rw [writeHdr_grown, removeBlock_grown, removeBlock_grown,
            (delete_node_frame hdel2).2.2, (delete_node_frame hdel1).2.2]
        have hfin := coalesce_finish (A := pre2) (B := post2)
          (n := { p with hdr := PACK (GET_SIZE b.hdr + GET_SIZE p.hdr + GET_SIZE n.hdr) 0 })
          (K := K) hadd hshs2
          (by
            rw [hbrks2]
            refine tiles_append.mpr ⟨p.addr, htpre2, tiles_cons.mpr ⟨rfl, ?_, ?_⟩⟩
            · rw [hS]
              omega
            · rw [hS]
              have he : p.addr + (GET_SIZE b.hdr + GET_SIZE p.hdr + GET_SIZE n.hdr) =
                  b.addr + GET_SIZE b.hdr + GET_SIZE n.hdr := by omega
              rw [he]
              exact htpost2)
          (by
            intro c hc
            rcases List.mem_append.mp hc with hc | hc
            · exact htags c (by simp [hc])
            · rcases List.mem_cons.mp hc with rfl | hc
              · refine ⟨goodTag_PACK hSdvd hSlt (by norm_num), ?_⟩
                rw [hS]
                omega
              · exact htags c (by simp [hc]))
          (by
            refine noadj_append.mpr ⟨hpreOnly, noadj_cons.mpr ⟨?_, ?_⟩, ?_⟩
            · exact edgeOk_shift_left _ (noadj_cons.mp hpost).1 hna0
            · exact (noadj_cons.mp hpost).2
            · exact edgeOk_shift _ hedgep hpa0)
          (by rw [hgrs2, hbrks2]; exact hgrown)
          (by rw [hbrks2]; exact hlecap)
          (fun c hc => by
            have := hpre2facts c hc
            show c.addr ≠ p.addr
            omega)
          hAz
        obtain ⟨w1, w2, w3, w4, w5, w6⟩ := hfin
        refine ⟨w1, ?_, by rw [w3, hbrks2], by rw [w4, hgrs2], ?_, ?_⟩
        · rw [w2]
          simp only [sumSizes_append, sumSizes_cons, sumSizes_nil, hS]
          omega
        · intro q hq hqa
          rw [hsh] at hq
          rw [w5]
          obtain ⟨c, hc, hcq⟩ := List.mem_map.mp hq
          have hcq2 : (c.addr, c.hdr) = q := hcq
          subst hcq2
          have hqa2 : GET_ALLOC c.hdr = 1 := hqa
          simp at hc
          rcases hc with hc | rfl | rfl | rfl | hc
          · exact List.mem_map_of_mem _ (by simp [hc])
          · exact absurd hqa2 (by omega)
          · exact absurd hqa2 (by omega)
          · exact absurd hqa2 (by omega)
          · exact List.mem_map_of_mem _ (by simp [hc])
        · obtain ⟨rb, hrb1, hrb2, hrb3⟩ := w6
          exact ⟨rb, hrb1, hrb2, by rw [hS] at hrb3; omega⟩
      · -- previous free, next allocated: absorb into previous (Case 2)
        rw [hpa0, hna1] at h
        simp at h
        rw [hreadp] at h
        simp only [Option.some_bind] at h
        obtain ⟨t, hdel, h2⟩ := Option.bind_eq_some.mp h
        obtain ⟨s1x, hadd, heq⟩ := Option.bind_eq_some.mp h2
        have heq2 : s1x = s1 ∧ p.addr = r := by simpa using heq
        obtain ⟨rfl, rfl⟩ := heq2
        have hSdvd : 8 ∣ GET_SIZE b.hdr + GET_SIZE p.hdr :=
          Nat.dvd_add (goodTag_size_dvd htagb) (goodTag_size_dvd htagp)
        have hSlt : GET_SIZE b.hdr + GET_SIZE p.hdr < 2 ^ 32 := by omega
        have hS : GET_SIZE (PACK (GET_SIZE b.hdr + GET_SIZE p.hdr) 0) =
            GET_SIZE b.hdr + GET_SIZE p.hdr := GET_SIZE_PACK hSdvd hSlt (by norm_num)
        have hAz : GET_ALLOC (PACK (GET_SIZE b.hdr + GET_SIZE p.hdr) 0) = 0 :=
          GET_ALLOC_PACK hSdvd hSlt (by norm_num)
        have hshrem : shape (removeBlock s b.addr) =
            pre2.map (fun c => (c.addr, c.hdr)) ++ (p.addr, p.hdr) ::
              (n.addr, n.hdr) :: post2.map (fun c => (c.addr, c.hdr)) := by
          rw [shape_removeBlock, hsh]
          simp only [List.map_append, List.map_cons, List.map_nil]
          have hx := filter_pairs_decomp
            (P := pre2.map (fun c => (c.addr, c.hdr)) ++ [(p.addr, p.hdr)])
            (r := (b.addr, b.hdr))
            (Q := (n.addr, n.hdr) :: post2.map (fun c => (c.addr, c.hdr)))
            (x := b.addr) rfl
            (fun q hq => by
              rcases List.mem_append.mp hq with hq | hq
              · obtain ⟨c, hc, rfl⟩ := List.mem_map.mp hq
                have := hpre2facts c hc
                simp
                omega
              · have hq2 : q = (p.addr, p.hdr) := by simpa using hq
                subst hq2
                simp
                omega)
            (fun q hq => by
              rcases List.mem_cons.mp hq with rfl | hq
              · simp
                omega
              · obtain ⟨c, hc, rfl⟩ := List.mem_map.mp hq
                have := hpost2facts c hc
                simp
                omega)
          simpa using hx
        have hfindrem : (findBlock (removeBlock s b.addr) p.addr).isSome = true := by
          refine findBlock_isSome_of_pairs (W := pre2 ++ p :: n :: post2) (b := p) ?_ ?_
          · rw [hshrem]
            simp
          · exact find?_addr_decomp (A := pre2) (B := n :: post2) (b := p)
              (d := p.addr) (fun c hc => by have := hpre2facts c hc; omega) rfl
        have hshs2 : shape (writeHdr (removeBlock s b.addr) p.addr
            (PACK (GET_SIZE b.hdr + GET_SIZE p.hdr) 0)) =
            ((pre2 ++ { p with hdr := PACK (GET_SIZE b.hdr + GET_SIZE p.hdr) 0 } ::
              n :: post2).map (fun c => (c.addr, c.hdr))) := by
          rw [shape_writeHdr_update hfindrem, hshrem]
          have hx := upd_pairs_decomp (P := pre2.map (fun c => (c.addr, c.hdr)))
            (Q := (n.addr, n.hdr) :: post2.map (fun c => (c.addr, c.hdr)))
            (d := p.addr) (t := PACK (GET_SIZE b.hdr + GET_SIZE p.hdr) 0)
            (w := p.hdr)
            (fun q hq => by
              obtain ⟨c, hc, rfl⟩ := List.mem_map.mp hq
              have := hpre2facts c hc
              simp
              omega)
            (fun q hq => by
              rcases List.mem_cons.mp hq with rfl | hq
              · simp
                omega
              · obtain ⟨c, hc, rfl⟩ := List.mem_map.mp hq
                have := hpost2facts c hc
                simp
                omega)
          simpa using hx
        obtain ⟨d1, d2, d3⟩ := delete_node_frame hdel
        have hsht : shape t = ((pre2 ++ { p with
            hdr := PACK (GET_SIZE b.hdr + GET_SIZE p.hdr) 0 } :: n :: post2).map
              (fun c => (c.addr, c.hdr))) := by
          rw [d1, hshs2]
        have hbrkt : t.brk = s.brk := by
          rw [d2, writeHdr_brk, removeBlock_brk]
        have hgrt : t.grown = s.grown := by
          rw [d3, writeHdr_grown, removeBlock_grown]
        have hfin := coalesce_finish (A := pre2) (B := n :: post2)
          (n := { p with hdr := PACK (GET_SIZE b.hdr + GET_SIZE p.hdr) 0 })
          (K := K) hadd hsht
          (by
            rw [hbrkt]
            refine tiles_append.mpr ⟨p.addr, htpre2, tiles_cons.mpr ⟨rfl, ?_, ?_⟩⟩
            · rw [hS]
              omega
            · rw [hS]
              have he : p.addr + (GET_SIZE b.hdr + GET_SIZE p.hdr) =
                  b.addr + GET_SIZE b.hdr := by omega
              rw [he]
              exact htpost)
          (by
            intro c hc
            rcases List.mem_append.mp hc with hc | hc
            · exact htags c (by simp [hc])
            · rcases List.mem_cons.mp hc with rfl | hc
              · refine ⟨goodTag_PACK hSdvd hSlt (by norm_num), ?_⟩
                rw [hS]
                omega
              · exact htags c (by simp [hc]))
          (by
            refine noadj_append.mpr ⟨hpreOnly, noadj_cons.mpr ⟨?_, hpost⟩, ?_⟩
            · exact edgeOk_right_alloc _ hna1
            · exact edgeOk_shift _ hedgep hpa0)
          (by rw [hgrt, hbrkt]; exact hgrown)
          (by rw [hbrkt]; exact hlecap)
          (fun c hc => by
            have := hpre2facts c hc
            show c.addr ≠ p.addr
            omega)
          hAz
        obtain ⟨w1, w2, w3, w4, w5, w6⟩ := hfin
        refine ⟨w1, ?_, by rw [w3, hbrkt], by rw [w4, hgrt], ?_, ?_⟩
        · rw [w2]
          simp only [sumSizes_append, sumSizes_cons, sumSizes_nil, hS]
          omega
        · intro q hq hqa
          rw [hsh] at hq
          rw [w5]
          obtain ⟨c, hc, hcq⟩ := List.mem_map.mp hq
          have hcq2 : (c.addr, c.hdr) = q := hcq
          subst hcq2
          have hqa2 : GET_ALLOC c.hdr = 1 := hqa
          simp at hc
          rcases hc with hc | rfl | rfl | rfl | hc
          · exact List.mem_map_of_mem _ (by simp [hc])
          · exact absurd hqa2 (by omega)
          · exact absurd hqa2 (by omega)
          · exact List.mem_map_of_mem _ (by simp)
          · exact List.mem_map_of_mem _ (by simp [hc])
        · obtain ⟨rb, hrb1, hrb2, hrb3⟩ := w6
          exact ⟨rb, hrb1, hrb2, by rw [hS] at hrb3; omega⟩
      · -- previous allocated, next free: absorb next (Case 1)
        rw [hpa1, hna0] at h
        simp at h
        rw [← hnaddr] at h
        obtain ⟨t, hdel, h2⟩ := Option.bind_eq_some.mp h
        obtain ⟨s1x, hadd, heq⟩ := Option.bind_eq_some.mp h2
        have heq2 : s1x = s1 ∧ b.addr = r := by simpa using heq
        obtain ⟨rfl, rfl⟩ := heq2
        obtain ⟨d1, d2, d3⟩ := delete_node_frame hdel
        have hSdvd : 8 ∣ GET_SIZE b.hdr + GET_SIZE n.hdr :=
          Nat.dvd_add (goodTag_size_dvd htagb) (goodTag_size_dvd htagn)
        have hSlt : GET_SIZE b.hdr + GET_SIZE n.hdr < 2 ^ 32 := by omega
        have hS : GET_SIZE (PACK (GET_SIZE b.hdr + GET_SIZE n.hdr) 0) =
            GET_SIZE b.hdr + GET_SIZE n.hdr := GET_SIZE_PACK hSdvd hSlt (by norm_num)
        have hAz : GET_ALLOC (PACK (GET_SIZE b.hdr + GET_SIZE n.hdr) 0) = 0 :=
          GET_ALLOC_PACK hSdvd hSlt (by norm_num)
        have hshrem : shape (removeBlock t n.addr) =
            pre2.map (fun c => (c.addr, c.hdr)) ++ (p.addr, p.hdr) ::
              (b.addr, b.hdr) :: post2.map (fun c => (c.addr, c.hdr)) := by
          rw [shape_removeBlock, d1, hsh]
          simp only [List.map_append, List.map_cons, List.map_nil]
          have hx := filter_pairs_decomp
            (P := (pre2.map (fun c => (c.addr, c.hdr)) ++ [(p.addr, p.hdr)]) ++
              [(b.addr, b.hdr)])
            (r := (n.addr, n.hdr))
            (Q := post2.map (fun c => (c.addr, c.hdr)))
            (x := n.addr) rfl
            (fun q hq => by
              rcases List.mem_append.mp hq with hq | hq
              · rcases List.mem_append.mp hq with hq | hq
                · obtain ⟨c, hc, rfl⟩ := List.mem_map.mp hq
                  have := hpre2facts c hc
                  simp
                  omega
                · have hq2 : q = (p.addr, p.hdr) := by simpa using hq
                  subst hq2
                  simp
                  omega
              · have hq2 : q = (b.addr, b.hdr) := by simpa using hq
                subst hq2
                simp
                omega)
            (fun q hq => by
              obtain ⟨c, hc, rfl⟩ := List.mem_map.mp hq
              have := hpost2facts c hc
              simp
              omega)
          simpa using hx
        have hfindrem : (findBlock (removeBlock t n.addr) b.addr).isSome = true := by
          refine findBlock_isSome_of_pairs (W := (pre2 ++ [p]) ++ b :: post2) (b := b) ?_ ?_
          · rw [hshrem]
            simp
          · exact find?_addr_decomp (A := pre2 ++ [p]) (B := post2) (b := b)
              (d := b.addr)
              (fun c hc => by
                rcases List.mem_append.mp hc with hc | hc
                · have := hpre2facts c hc
                  omega
                · have hc2 : c = p := by simpa using hc
                  subst hc2
                  omega) rfl
        have hshs2 : shape (writeHdr (removeBlock t n.addr) b.addr
            (PACK (GET_SIZE b.hdr + GET_SIZE n.hdr) 0)) =
            (((pre2 ++ [p]) ++ { b with hdr := PACK (GET_SIZE b.hdr + GET_SIZE n.hdr) 0 } ::
              post2).map (fun c => (c.addr, c.hdr))) := by
          rw [shape_writeHdr_update hfindrem, hshrem]
          have hx := upd_pairs_decomp
            (P := pre2.map (fun c => (c.addr, c.hdr)) ++ [(p.addr, p.hdr)])
            (Q := post2.map (fun c => (c.addr, c.hdr)))
            (d := b.addr) (t := PACK (GET_SIZE b.hdr + GET_SIZE n.hdr) 0)
            (w := b.hdr)
            (fun q hq => by
              rcases List.mem_append.mp hq with hq | hq
              · obtain ⟨c, hc, rfl⟩ := List.mem_map.mp hq
                have := hpre2facts c hc
                simp
                omega
              · have hq2 : q = (p.addr, p.hdr) := by simpa using hq
                subst hq2
                simp
                omega)
            (fun q hq => by
              obtain ⟨c, hc, rfl⟩ := List.mem_map.mp hq
              have := hpost2facts c hc
              simp
              omega)
          simpa using hx
        have hbrkt : (writeHdr (removeBlock t n.addr) b.addr
            (PACK (GET_SIZE b.hdr + GET_SIZE n.hdr) 0)).brk = s.brk := by
          rw [writeHdr_brk, removeBlock_brk, d2]
        have hgrt : (writeHdr (removeBlock t n.addr) b.addr
            (PACK (GET_SIZE b.hdr + GET_SIZE n.hdr) 0)).grown = s.grown := by
          rw [writeHdr_grown, removeBlock_grown, d3]
        have hfin := coalesce_finish (A := pre2 ++ [p]) (B := post2)
          (n := { b with hdr := PACK (GET_SIZE b.hdr + GET_SIZE n.hdr) 0 })
          (K := K) hadd hshs2
          (by
            rw [hbrkt]
            refine tiles_append.mpr ⟨b.addr, htpre, tiles_cons.mpr ⟨rfl, ?_, ?_⟩⟩
            · rw [hS]
              omega
            · rw [hS, ← Nat.add_assoc]
              exact htpost2)
          (by
            intro c hc
            rcases List.mem_append.mp hc with hc | hc
            · rcases List.mem_append.mp hc with hc2 | hc2
              · exact htags c (by simp [hc2])
              · exact htags c (by simp at hc2; simp [hc2])
            · rcases List.mem_cons.mp hc with rfl | hc
              · refine ⟨goodTag_PACK hSdvd hSlt (by norm_num), ?_⟩
                rw [hS]
                omega
              · exact htags c (by simp [hc]))
          (by
            refine noadj_append.mpr ⟨hpre, noadj_cons.mpr ⟨?_, ?_⟩, ?_⟩
            · exact edgeOk_shift_left _ (noadj_cons.mp hpost).1 hna0
            · exact (noadj_cons.mp hpost).2
            · rw [List.getLast?_concat]
              exact edgeOk_left_alloc _ hpa1)
          (by rw [hgrt, hbrkt]; exact hgrown)
          (by rw [hbrkt]; exact hlecap)
          (fun c hc => by
            rcases List.mem_append.mp hc with hc | hc
            · have := hpre2facts c hc
              show c.addr ≠ b.addr
              omega
            · have hc2 : c = p := by simpa using hc
              rw [hc2]
              show p.addr ≠ b.addr
              omega)
          hAz
        obtain ⟨w1, w2, w3, w4, w5, w6⟩ := hfin
        refine ⟨w1, ?_, by rw [w3, hbrkt], by rw [w4, hgrt], ?_, ?_⟩
        · rw [w2]
          simp only [sumSizes_append, sumSizes_cons, sumSizes_nil, hS]
          omega
        · intro q hq hqa
          rw [hsh] at hq
          rw [w5]
          obtain ⟨c, hc, hcq⟩ := List.mem_map.mp hq
          have hcq2 : (c.addr, c.hdr) = q := hcq
          subst hcq2
          have hqa2 : GET_ALLOC c.hdr = 1 := hqa
          simp at hc
          rcases hc with hc | rfl | rfl | rfl | hc
          · exact List.mem_map_of_mem _ (by simp [hc])
          · exact List.mem_map_of_mem _ (by simp)
          · exact absurd hqa2 (by omega)
          · exact absurd hqa2 (by omega)
          · exact List.mem_map_of_mem _ (by simp [hc])
        · obtain ⟨rb, hrb1, hrb2, hrb3⟩ := w6
          exact ⟨rb, hrb1, hrb2, by rw [hS] at hrb3; omega⟩
      · -- both neighbours allocated: no merge (Case 0)
        rw [hpa1, hna1] at h
        simp at h
        obtain ⟨s1x, hadd, heq⟩ := Option.bind_eq_some.mp h
        have heq2 : s1x = s1 ∧ b.addr = r := by simpa using heq
        obtain ⟨rfl, rfl⟩ := heq2
        have hfin := coalesce_finish (A := pre2 ++ [p]) (B := n :: post2) (n := b)
          (K := K) hadd hsh htiles htags
          (by
            refine noadj_append.mpr ⟨hpre, noadj_cons.mpr ⟨?_, hpost⟩, ?_⟩
            · exact edgeOk_right_alloc _ hna1
            · rw [List.getLast?_concat]
              exact edgeOk_left_alloc _ hpa1)
          hgrown hlecap
          (fun c hc => by
            rcases List.mem_append.mp hc with hc | hc
            · have := hpre2facts c hc
              omega
            · have hc2 : c = p := by simpa using hc
              subst hc2
              omega)
          hfree
        obtain ⟨w1, w2, w3, w4, w5, w6⟩ := hfin
        refine ⟨w1, by simpa using w2, w3, w4, ?_, by simpa using w6⟩
        intro q hq hqa
        rw [hsh] at hq
        rw [w5]
        simpa using hq

/-! ### Toolkit: general codec values and read inversions -/

theorem or_one_eq (a : Nat) : a ||| 1 = 2 * (a / 2) + 1 := by
  apply Nat.eq_of_testBit_eq
  intro i
  cases i with
  | zero =>
    rw [Nat.testBit_lor]
    simp only [Nat.testBit_zero]
    have h1 : (1 : Nat) % 2 = 1 := rfl
    have h2 : (2 * (a / 2) + 1) % 2 = 1 := by omega
    simp [h1, h2]
  | succ i =>
    rw [Nat.testBit_lor, Nat.testBit_succ, Nat.testBit_succ, Nat.testBit_succ]
    have h1 : (1 : Nat) / 2 = 0 := rfl
    have h2 : (2 * (a / 2) + 1) / 2 = a / 2 := by omega
    rw [h1, h2]
    simp

theorem PACK_one_eq {a : Nat} (ha : a < 2 ^ 32) : PACK a 1 = 2 * (a / 2) + 1 := by
  unfold PACK
  have h1 : (1 : Nat) &&& 1 = 1 := rfl
  rw [h1, Nat.mod_eq_of_lt ha, or_one_eq]

theorem GET_SIZE_PACK1 {a : Nat} (ha : a < 2 ^ 32) :
    GET_SIZE (PACK a 1) = 8 * (a / 8) := by
  rw [PACK_one_eq ha, GET_SIZE_eq (by omega)]
  omega

theorem GET_ALLOC_PACK1 {a : Nat} (ha : a < 2 ^ 32) : GET_ALLOC (PACK a 1) = 1 := by
  rw [PACK_one_eq ha, GET_ALLOC_eq]
  omega

theorem PACK_zero_eq (r : Nat) : PACK r 0 = r % 2 ^ 32 := by
  unfold PACK
  have h0 : (0 : Nat) &&& 1 = 0 := rfl
  rw [h0, Nat.or_zero]

theorem GET_SIZE_PACK0 (r : Nat) : GET_SIZE (PACK r 0) = 8 * (r % 2 ^ 32 / 8) := by
  rw [PACK_zero_eq, GET_SIZE_eq (Nat.mod_lt _ (by norm_num))]

theorem delete_node_size {s t : MState} {bp : Nat} (hb8 : bp ≠ 8)
    (h : delete_node s bp = some t) :
    ∃ b, findBlock s bp = some b ∧ HEAP_SIZE ≤ GET_SIZE b.hdr := by
  unfold delete_node at h
  simp only [Option.pure_def, Option.bind_eq_bind] at h
  obtain ⟨tb, htb, h2⟩ := Option.bind_eq_some.mp h
  unfold getBk at htb
  rw [if_neg (by simp [hb8])] at htb
  cases hfind : findBlock s bp with
  | none => rw [hfind] at htb; simp at htb
  | some b =>
    by_cases hsz : HEAP_SIZE ≤ GET_SIZE b.hdr
    · exact ⟨b, rfl, hsz⟩
    · rw [hfind] at htb
      simp [hsz] at htb

theorem coalesce_reads {s : MState} {x : Nat} {y : MState × Nat}
    (h : coalesce s x = some y) :
    ∃ pw fw hw nw, prevWord s x = some pw ∧
      readFtr s (x - GET_SIZE pw) = some fw ∧
      readHdr s x = some hw ∧
      readHdr s (x + GET_SIZE hw) = some nw := by
  unfold coalesce at h
  simp only [Option.pure_def, Option.bind_eq_bind] at h
  obtain ⟨pw, h1, h⟩ := Option.bind_eq_some.mp h
  obtain ⟨fw, h2, h⟩ := Option.bind_eq_some.mp h
  obtain ⟨hw, h3, h⟩ := Option.bind_eq_some.mp h
  obtain ⟨nw, h4, h⟩ := Option.bind_eq_some.mp h
  exact ⟨pw, fw, hw, nw, h1, h2, h3, h4⟩

theorem findBlock_none_of_pairs {s : MState} {W : List Block} {bp : Nat}
    (hsh : shape s = W.map (fun b => (b.addr, b.hdr)))
    (hW : ∀ c ∈ W, c.addr ≠ bp) :
    findBlock s bp = none := by
  have hf := find?_factor (u := s.blocks) (v := W) hsh (fun q => q.1 == bp)
  have hWn : W.find? (fun c => c.addr == bp) = none :=
    List.find?_eq_none.mpr (fun c hc => by simp [hW c hc])
  rw [hWn] at hf
  unfold findBlock
  cases hfind : s.blocks.find? (fun c => c.addr == bp) with
  | none => rfl
  | some c => rw [hfind] at hf; simp at hf

theorem readHdr_none_of_pairs {s : MState} {W : List Block} {bp : Nat}
    (hsh : shape s = W.map (fun b => (b.addr, b.hdr)))
    (h8 : bp ≠ 8) (hbrk : bp ≠ s.brk)
    (hW : ∀ c ∈ W, c.addr ≠ bp) :
    readHdr s bp = none := by
  unfold readHdr
  rw [if_neg (by simp [h8]), if_neg (by simp [hbrk]),
    findBlock_none_of_pairs hsh hW]
  rfl

theorem readHdr_entry_inv {s : MState} {bp w : Nat}
    (h : readHdr s bp = some w) (h8 : bp ≠ 8) (hbrk : bp ≠ s.brk) :
    ∃ e, findBlock s bp = some e ∧ e.hdr = w := by
  unfold readHdr at h
  rw [if_neg (by simp [h8]), if_neg (by simp [hbrk])] at h
  cases hfind : findBlock s bp with
  | none => rw [hfind] at h; simp at h
  | some e =>
    rw [hfind] at h
    simp at h
    exact ⟨e, rfl, h⟩

theorem readHdr_free_entry {s : MState} {bp w : Nat}
    (h : readHdr s bp = some w) (ha : GET_ALLOC w = 0) :
    ∃ e, findBlock s bp = some e ∧ e.hdr = w := by
  unfold readHdr at h
  by_cases h8 : bp = 8
  · rw [if_pos (by simp [h8])] at h
    have hw : w = PACK HEAP_SIZE 1 := by simpa using h.symm
    rw [hw] at ha
    simp [show GET_ALLOC (PACK HEAP_SIZE 1) = 1 from by decide] at ha
  · rw [if_neg (by simp [h8])] at h
    by_cases hbrk : bp = s.brk
    · rw [if_pos (by simp [hbrk])] at h
      have hw : w = PACK 0 1 := by simpa using h.symm
      rw [hw] at ha
      simp [show GET_ALLOC (PACK 0 1) = 1 from by decide] at ha
    · rw [if_neg (by simp [hbrk])] at h
      cases hfind : findBlock s bp with
      | none => rw [hfind] at h; simp at h
      | some e =>
        rw [hfind] at h
        simp at h
        exact ⟨e, rfl, h⟩

theorem ffLoop_found {s : MState} {asize : Nat} :
    ∀ fuel bp r, ffLoop s asize fuel bp = some (some r) →
      ∃ e, findBlock s r = some e ∧ GET_ALLOC e.hdr = 0 ∧ asize ≤ GET_SIZE e.hdr := by
  intro fuel
  induction fuel with
  | zero =>
    intro bp r h
    simp [ffLoop] at h
  | succ fuel ih =>
    intro bp r h
    unfold ffLoop at h
    simp only [Option.pure_def, Option.bind_eq_bind] at h
    obtain ⟨hw, hread, h2⟩ := Option.bind_eq_some.mp h
    by_cases ha : GET_ALLOC hw = 0
    · rw [if_pos (by simp [ha])] at h2
      by_cases hfit : GET_SIZE hw ≥ asize
      · rw [if_pos hfit] at h2
        have hbp : bp = r := by simpa using h2
        subst hbp
        obtain ⟨e, hfind, hehdr⟩ := readHdr_free_entry hread ha
        exact ⟨e, hfind, by rw [hehdr]; exact ha, by rw [hehdr]; exact hfit⟩
      · rw [if_neg hfit] at h2
        obtain ⟨fd, hfd, h3⟩ := Option.bind_eq_some.mp h2
        exact ih fd r h3
    · rw [if_neg (by simp [ha])] at h2
      simp at h2

theorem memcpyBlks_frame {s t : MState} {dst src n : Nat}
    (h : memcpyBlks s dst src n = some t) :
    shape t = shape s ∧ t.brk = s.brk ∧ t.grown = s.grown := by
  unfold memcpyBlks at h
  simp only [Option.pure_def, Option.bind_eq_bind] at h
  obtain ⟨db, hdb, h2⟩ := Option.bind_eq_some.mp h
  obtain ⟨sb, hsb, h3⟩ := Option.bind_eq_some.mp h2
  by_cases hg : GET_SIZE db.hdr < n + DSIZE
  · rw [if_pos hg] at h3
    simp at h3
  · rw [if_neg hg] at h3
    by_cases h16 : 16 ≤ n
    · rw [if_pos h16] at h3
      simp only [Option.some.injEq] at h3
      subst h3
      refine ⟨?_, rfl, rfl⟩
      unfold shape
      exact shape_map_link (fun c => by by_cases hc : c.addr == dst <;> simp [hc])
    · rw [if_neg h16] at h3
      simp only [Option.some.injEq] at h3
      subst h3
      exact ⟨rfl, rfl, rfl⟩

theorem tiles_find_mem {W : List Block} {a e : Nat} (ht : Tiles a W e) {c : Block}
    (hc : c ∈ W) : W.find? (fun d => d.addr == c.addr) = some c := by
  obtain ⟨pre, post, rfl⟩ := List.append_of_mem hc
  obtain ⟨m, h1, h2⟩ := tiles_append.mp ht
  obtain ⟨hc1, hc2, hc3⟩ := tiles_cons.mp h2
  refine find?_addr_decomp ?_ rfl
  intro d hd
  have hd2 := tiles_bounds h1 d hd
  omega

theorem findBlock_surv {s1 : MState} {x h0 : Nat}
    (ht : Tiles (2 * HEAP_SIZE) s1.blocks s1.brk)
    (hq : (x, h0) ∈ shape s1) :
    ∃ b, findBlock s1 x = some b ∧ b.hdr = h0 := by
  unfold shape at hq
  obtain ⟨c, hc, hcq⟩ := List.mem_map.mp hq
  have h1 : c.addr = x := congrArg Prod.fst hcq
  have h2 : c.hdr = h0 := congrArg Prod.snd hcq
  subst h1
  refine ⟨c, ?_, h2⟩
  unfold findBlock
  exact tiles_find_mem ht hc

theorem mem_insertBlock {l : List Block} {b c : Block} (h : c ∈ insertBlock l b) :
    c ∈ l ∨ c = b := by
  induction l with
  | nil =>
    simp [insertBlock] at h
    simp [h]
  | cons d l ih =>
    unfold insertBlock at h
    by_cases hlt : b.addr < d.addr
    · rw [if_pos hlt] at h
      rcases List.mem_cons.mp h with rfl | h
      · exact Or.inr rfl
      · exact Or.inl h
    · rw [if_neg hlt] at h
      rcases List.mem_cons.mp h with rfl | h
      · exact Or.inl (by simp)
      · rcases ih h with h | h
        · exact Or.inl (by simp [h])
        · exact Or.inr h

theorem findBlock_writeHdr_none {s : MState} {x tag y : Nat}
    (hy : findBlock s y = none) (hxy : y ≠ x) :
    findBlock (writeHdr s x tag) y = none := by
  unfold writeHdr
  by_cases hx : (findBlock s x).isSome
  · rw [if_pos hx]
    unfold findBlock at hy ⊢
    simp only []
    refine List.find?_eq_none.mpr (fun c hc => ?_)
    obtain ⟨c0, hc0, hcc⟩ := List.mem_map.mp hc
    have h0 : ¬(c0.addr == y) = true := List.find?_eq_none.mp hy c0 hc0
    subst hcc
    by_cases hcx : (c0.addr == x) = true
    · rw [if_pos hcx]
      simpa using h0
    · rw [if_neg hcx]
      exact h0
  · rw [if_neg hx]
    unfold findBlock at hy ⊢
    simp only []
    refine List.find?_eq_none.mpr (fun c hc => ?_)
    rcases mem_insertBlock hc with h | rfl
    · exact List.find?_eq_none.mp hy c h
    · simp [hxy.symm]

theorem find?_insertBlock_self {l : List Block} {b : Block}
    (h : l.find? (fun c => c.addr == b.addr) = none) :
    (insertBlock l b).find? (fun c => c.addr == b.addr) = some b := by
  induction l with
  | nil => simp [insertBlock]
  | cons d l ih =>
    rw [List.find?_cons] at h
    have hdf : (d.addr == b.addr) = false := by
      by_cases hdb : (d.addr == b.addr) = true
      · rw [hdb] at h
        simp at h
      · simpa using hdb
    rw [hdf] at h
    simp only [cond_false] at h
    unfold insertBlock
    by_cases hlt : b.addr < d.addr
    · rw [if_pos hlt, List.find?_cons]
      simp
    · rw [if_neg hlt, List.find?_cons, hdf]
      simp only [cond_false]
      exact ih h

theorem findBlock_writeHdr_self {s : MState} (x tag : Nat) :
    ∃ e, findBlock (writeHdr s x tag) x = some e ∧ e.hdr = tag ∧ e.addr = x := by
  unfold writeHdr
  by_cases hx : (findBlock s x).isSome
  · rw [if_pos hx]
    obtain ⟨c, hc⟩ := Option.isSome_iff_exists.mp hx
    unfold findBlock at hc ⊢
    have hcx : (c.addr == x) = true := by simpa using List.find?_some hc
    refine ⟨{ c with hdr := tag }, ?_, rfl, by simpa using hcx⟩
    simp only [List.find?_map]
    have hpred : ((fun b : Block => b.addr == x) ∘
        (fun c : Block => if c.addr == x then { c with hdr := tag } else c)) =
        (fun b : Block => b.addr == x) := by
      funext d
      by_cases hd : (d.addr == x) = true
      · have hdx : d.addr = x := by simpa using hd
        simp [hd, hdx]
      · have hdx : ¬(d.addr = x) := by simpa using hd
        simp [hd, hdx]
    rw [hpred, hc]
    simp only [Option.map_some']
    rw [if_pos hcx]
  · rw [if_neg hx]
    refine ⟨⟨x, tag, 0, 0⟩, ?_, rfl, rfl⟩
    unfold findBlock at hx ⊢
    have hy : s.blocks.find? (fun b => b.addr == x) = none := by
      cases hfind : s.blocks.find? (fun b => b.addr == x) with
      | none => rfl
      | some c => rw [hfind] at hx; simp at hx
    simp only []
    exact find?_insertBlock_self (b := ⟨x, tag, 0, 0⟩) hy

theorem goodTag_size_lt {w : Nat} (h : goodTag w) : GET_SIZE w < 2 ^ 32 :=
  Nat.lt_of_le_of_lt (Nat.and_le_left) (goodTag_lt h)

theorem place_spec {cap : Nat} {s s1 : MState} {e : Block} {bp asize : Nat}
    (hcap : cap ≤ 2 ^ 31) (hWF : WF cap s)
    (hfind : findBlock s bp = some e) (ha32 : asize < 2 ^ 32)
    (hbig : asize ≤ GET_SIZE e.hdr ∨ 2 ^ 31 ≤ asize)
    (h : place s bp asize = some s1) :
    WF cap s1 ∧ s1.brk = s.brk ∧ s1.grown = s.grown ∧
      ∃ e1, findBlock s1 bp = some e1 ∧ GET_ALLOC e1.hdr = 1 ∧
        GET_SIZE (PACK asize 1) ≤ GET_SIZE e1.hdr := by
  have hhs : HEAP_SIZE = 24 := rfl
  obtain ⟨hbe, pre, post, hblocks⟩ := findBlock_mem_decomp hfind
  subst hbe
  have htiles : Tiles (2 * HEAP_SIZE) (pre ++ e :: post) s.brk := by
    rw [← hblocks]
    exact hWF.tiles
  obtain ⟨m, htpre, htrest⟩ := tiles_append.mp htiles
  obtain ⟨hea, hepos, htpost⟩ := tiles_cons.mp htrest
  rw [← hea] at htpre htpost
  have he48 : 2 * HEAP_SIZE ≤ e.addr := tiles_le htpre
  have heend : e.addr + GET_SIZE e.hdr ≤ s.brk := tiles_le htpost
  have htags0 : ∀ c ∈ pre ++ e :: post, goodTag c.hdr ∧ 8 ≤ GET_SIZE c.hdr := by
    rw [← hblocks]
    exact hWF.tags
  obtain ⟨htage, hesz⟩ := htags0 e (by simp)
  have hedvd : 8 ∣ GET_SIZE e.hdr := goodTag_size_dvd htage
  have heszlt : GET_SIZE e.hdr < 2 ^ 32 := goodTag_size_lt htage
  have hnoadj : NoAdjFree (pre ++ e :: post) := by
    rw [← hblocks]
    exact hWF.noadj
  have hlecap : s.brk ≤ cap := hWF.le_cap
  obtain ⟨hnapre, hnarest, hnaedge⟩ := noadj_append.mp hnoadj
  have hnapost : NoAdjFree post := (noadj_cons.mp hnarest).2
  have hprefacts := tiles_bounds htpre
  have hpostfacts := tiles_bounds htpost
  have hsh : shape s = (pre ++ e :: post).map (fun c => (c.addr, c.hdr)) := by
    unfold shape
    rw [hblocks]
  have he8 : e.addr ≠ 8 := by omega
  have hebrk : e.addr ≠ s.brk := by omega
  have hreadb : readHdr s e.addr = some e.hdr := by
    unfold readHdr
    rw [if_neg (by simp [he8]), if_neg (by simp [hebrk]), hfind]
    rfl
  have hfinds' : (findBlock s e.addr).isSome = true := by
    rw [hfind]
    rfl
  unfold place at h
  simp only [Option.pure_def, Option.bind_eq_bind] at h
  rw [hreadb] at h
  simp only [Option.some_bind] at h
  by_cases hsplit : (GET_SIZE e.hdr + 2 ^ 64 - asize) % 2 ^ 64 ≥ HEAP_SIZE
  · -- split arm
    rw [if_pos hsplit] at h
    obtain ⟨t, hdel, h2⟩ := Option.bind_eq_some.mp h
    have hshs' : shape (writeHdr s e.addr (PACK asize 1)) =
        (pre ++ { e with hdr := PACK asize 1 } :: post).map
          (fun c => (c.addr, c.hdr)) := by
      rw [shape_writeHdr_update hfinds', hsh]
      have hx := upd_pairs_decomp (P := pre.map (fun c => (c.addr, c.hdr)))
        (Q := post.map (fun c => (c.addr, c.hdr))) (d := e.addr)
        (t := PACK asize 1) (w := e.hdr)
        (fun q hq => by
          obtain ⟨c, hc, rfl⟩ := List.mem_map.mp hq
          have := hprefacts c hc
          simp
          omega)
        (fun q hq => by
          obtain ⟨c, hc, rfl⟩ := List.mem_map.mp hq
          have := hpostfacts c hc
          simp
          omega)
      simpa using hx
    obtain ⟨b', hb'find, hb'sz⟩ := delete_node_size he8 hdel
    obtain ⟨b'', hb''find, hb''hdr, hb''addr⟩ := findBlock_writeHdr_self
      (s := s) e.addr (PACK asize 1)
    have hbeq : b' = b'' := by
      rw [hb'find] at hb''find
      simpa using hb''find
    have ha8 : HEAP_SIZE ≤ GET_SIZE (PACK asize 1) := by
      rw [← hb''hdr, ← hbeq]
      exact hb'sz
    have ha8v : GET_SIZE (PACK asize 1) = 8 * (asize / 8) := GET_SIZE_PACK1 ha32
    obtain ⟨d1, d2, d3⟩ := delete_node_frame hdel
    have htbrk : t.brk = s.brk := by rw [d2, writeHdr_brk]
    have htgr : t.grown = s.grown := by rw [d3, writeHdr_grown]
    obtain ⟨rr, hco, hr1⟩ := Option.bind_eq_some.mp h2
    obtain ⟨rs, rp⟩ := rr
    have hrs : rs = s1 := by simpa using hr1
    subst hrs
    by_cases hle : asize ≤ GET_SIZE e.hdr
    · by_cases hdvd : 8 ∣ asize
      · -- aligned split: carve the remainder and coalesce it
        have hrem : (GET_SIZE e.hdr + 2 ^ 64 - asize) % 2 ^ 64 =
            GET_SIZE e.hdr - asize := by omega
        have ha8e : GET_SIZE (PACK asize 1) = asize :=
          GET_SIZE_PACK hdvd ha32 (by norm_num)
        have hremge : HEAP_SIZE ≤ GET_SIZE e.hdr - asize := by
          rw [hrem] at hsplit
          exact hsplit
        have hasz24 : HEAP_SIZE ≤ asize := by
          rw [ha8e] at ha8
          exact ha8
        have hlt : asize < GET_SIZE e.hdr := by omega
        rw [hrem, ha8e] at hco
        have hfind_t_none : findBlock t (e.addr + asize) = none := by
          refine findBlock_none_of_pairs
            (W := pre ++ { e with hdr := PACK asize 1 } :: post)
            (by rw [d1, hshs']) ?_
          intro c hc
          rcases List.mem_append.mp hc with hc | hc
          · have := hprefacts c hc
            omega
          · rcases List.mem_cons.mp hc with rfl | hc
            · show e.addr ≠ e.addr + asize
              omega
            · have := hpostfacts c hc
              omega
        have hshs2 : shape (writeHdr t (e.addr + asize)
            (PACK (GET_SIZE e.hdr - asize) 0)) =
            ((pre ++ [({ e with hdr := PACK asize 1 } : Block)]) ++
              (⟨e.addr + asize, PACK (GET_SIZE e.hdr - asize) 0, 0, 0⟩ : Block) ::
                post).map (fun c => (c.addr, c.hdr)) := by
          have hx := shape_writeHdr_insert (s := t) (d := e.addr + asize)
            (t := PACK (GET_SIZE e.hdr - asize) 0)
            (P := pre.map (fun c => (c.addr, c.hdr)) ++ [(e.addr, PACK asize 1)])
            (Q := post.map (fun c => (c.addr, c.hdr)))
            (by rw [d1, hshs']; simp) hfind_t_none
            (fun q hq => by
              rcases List.mem_append.mp hq with hq | hq
              · obtain ⟨c, hc, rfl⟩ := List.mem_map.mp hq
                have := hprefacts c hc
                simp
                omega
              · have hq2 : q = (e.addr, PACK asize 1) := by simpa using hq
                subst hq2
                simp)
            (fun q hq => by
              obtain ⟨c, hc, rfl⟩ := List.mem_map.mp hq
              have := hpostfacts c hc
              simp
              omega)
          rw [hx]
          simp
        have hbrks2 : (writeHdr t (e.addr + asize)
            (PACK (GET_SIZE e.hdr - asize) 0)).brk = s.brk := by
          rw [writeHdr_brk, htbrk]
        have hgrs2 : (writeHdr t (e.addr + asize)
            (PACK (GET_SIZE e.hdr - asize) 0)).grown = s.grown := by
          rw [writeHdr_grown, htgr]
        have hremdvd : 8 ∣ GET_SIZE e.hdr - asize := Nat.dvd_sub' hedvd hdvd
        have hremlt : GET_SIZE e.hdr - asize < 2 ^ 32 := by omega
        have hco2 := coalesce_spec (K := cap)
          (A := pre ++ [({ e with hdr := PACK asize 1 } : Block)]) (B := post)
          (b := ⟨e.addr + asize, PACK (GET_SIZE e.hdr - asize) 0, 0, 0⟩)
          hcap hshs2
          (by
            rw [hbrks2]
            refine tiles_append.mpr ⟨e.addr + asize, ?_, tiles_cons.mpr ⟨rfl, ?_, ?_⟩⟩
            · refine tiles_append.mpr ⟨e.addr, htpre, tiles_cons.mpr ⟨rfl, ?_, ?_⟩⟩
              · rw [ha8e]
                omega
              · refine tiles_nil_iff.mpr ?_
                rw [ha8e]
            · show 0 < GET_SIZE (PACK (GET_SIZE e.hdr - asize) 0)
              rw [GET_SIZE_PACK hremdvd hremlt (by norm_num)]
              omega
            · show Tiles (e.addr + asize +
                GET_SIZE (PACK (GET_SIZE e.hdr - asize) 0)) post s.brk
              rw [GET_SIZE_PACK hremdvd hremlt (by norm_num)]
              have he2 : e.addr + asize + (GET_SIZE e.hdr - asize) =
                  e.addr + GET_SIZE e.hdr := by omega
              rw [he2]
              exact htpost)
          (by
            intro c hc
            rcases List.mem_append.mp hc with hc | hc
            · rcases List.mem_append.mp hc with hc | hc
              · exact htags0 c (by simp [hc])
              · have hc2 : c = { e with hdr := PACK asize 1 } := by simpa using hc
                subst hc2
                refine ⟨goodTag_PACK hdvd ha32 (by norm_num), ?_⟩
                rw [ha8e]
                omega
            · rcases List.mem_cons.mp hc with rfl | hc
              · refine ⟨goodTag_PACK hremdvd hremlt (by norm_num), ?_⟩
                show 8 ≤ GET_SIZE (PACK (GET_SIZE e.hdr - asize) 0)
                rw [GET_SIZE_PACK hremdvd hremlt (by norm_num)]
                omega
              · exact htags0 c (by simp [hc]))
          (by rw [hgrs2, hbrks2]; exact hWF.grown_eq)
          (by rw [hbrks2]; exact hWF.le_cap)
          (by
            show GET_ALLOC (PACK (GET_SIZE e.hdr - asize) 0) = 0
            exact GET_ALLOC_PACK hremdvd hremlt (by norm_num))
          (by
            refine noadj_append.mpr ⟨hnapre, trivial, ?_⟩
            exact edgeOk_right_alloc _ (GET_ALLOC_PACK1 ha32))
          hnapost
          hco
        obtain ⟨hWF1, hsum1, hbrk1, hgr1, hsurv1, hrb1⟩ := hco2
        refine ⟨hWF1, by rw [hbrk1, hbrks2], by rw [hgr1, hgrs2], ?_⟩
        have hqin : (e.addr, PACK asize 1) ∈
            shape (writeHdr t (e.addr + asize) (PACK (GET_SIZE e.hdr - asize) 0)) := by
          rw [hshs2]
          have hmem : ({ e with hdr := PACK asize 1 } : Block) ∈
              (pre ++ [({ e with hdr := PACK asize 1 } : Block)]) ++
                (⟨e.addr + asize, PACK (GET_SIZE e.hdr - asize) 0, 0, 0⟩ : Block) ::
                  post := by
            simp
          exact List.mem_map_of_mem _ hmem
        have hq1 := hsurv1 (e.addr, PACK asize 1) hqin (GET_ALLOC_PACK1 ha32)
        obtain ⟨e1, he1find, he1hdr⟩ := findBlock_surv hWF1.tiles hq1
        exact ⟨e1, he1find, by rw [he1hdr]; exact GET_ALLOC_PACK1 ha32,
          by rw [he1hdr]⟩
      · -- misaligned split request: the remainder header leaves an 8-byte
        -- gap, so the coalesce walk reads an undefined word and fails
        exfalso
        have hrem : (GET_SIZE e.hdr + 2 ^ 64 - asize) % 2 ^ 64 =
            GET_SIZE e.hdr - asize := by omega
        have hremge : HEAP_SIZE ≤ GET_SIZE e.hdr - asize := by
          rw [hrem] at hsplit
          exact hsplit
        obtain ⟨nb, hnbfind, hnbhdr, hnbaddr⟩ := findBlock_writeHdr_self (s := t)
          (e.addr + GET_SIZE (PACK asize 1))
          (PACK ((GET_SIZE e.hdr + 2 ^ 64 - asize) % 2 ^ 64) 0)
        obtain ⟨pw, fw, hw, nw, hpw', hfw', hhw', hnw'⟩ := coalesce_reads hco
        have hbrkw : (writeHdr t (e.addr + GET_SIZE (PACK asize 1))
            (PACK ((GET_SIZE e.hdr + 2 ^ 64 - asize) % 2 ^ 64) 0)).brk = s.brk := by
          rw [writeHdr_brk, htbrk]
        have hhw2 : hw = PACK ((GET_SIZE e.hdr + 2 ^ 64 - asize) % 2 ^ 64) 0 := by
          unfold readHdr at hhw'
          rw [if_neg (by simp only [beq_iff_eq]; rw [ha8v]; omega),
            if_neg (by simp only [beq_iff_eq]; rw [hbrkw, ha8v]; omega), hnbfind] at hhw'
          rw [← hnbhdr]
          simpa using hhw'.symm
        have hnext : e.addr + GET_SIZE (PACK asize 1) + GET_SIZE hw =
            e.addr + GET_SIZE e.hdr - 8 := by
          rw [hhw2, GET_SIZE_PACK0, hrem, ha8v]
          omega
        have hnone : readHdr (writeHdr t (e.addr + GET_SIZE (PACK asize 1))
            (PACK ((GET_SIZE e.hdr + 2 ^ 64 - asize) % 2 ^ 64) 0))
            (e.addr + GET_SIZE e.hdr - 8) = none := by
          unfold readHdr
          rw [if_neg (by simp; omega), if_neg (by simp only [beq_iff_eq]; rw [hbrkw]; omega)]
          rw [findBlock_writeHdr_none ?_ (by rw [ha8v]; omega)]
          · rfl
          · refine findBlock_none_of_pairs
              (W := pre ++ { e with hdr := PACK asize 1 } :: post)
              (by rw [d1, hshs']) ?_
            intro c hc
            rcases List.mem_append.mp hc with hc | hc
            · have := hprefacts c hc
              omega
            · rcases List.mem_cons.mp hc with rfl | hc
              · show e.addr ≠ e.addr + GET_SIZE e.hdr - 8
                omega
              · have := hpostfacts c hc
                omega
        rw [hnext, hnone] at hnw'
        exact absurd hnw' (by simp)
    · -- oversized request: the would-be remainder header lands past the
      -- managed region and the coalesce walk reads an undefined word
      exfalso
      have hbig2 : 2 ^ 31 ≤ asize := by
        rcases hbig with hb | hb
        · omega
        · exact hb
      have hrem3 : (GET_SIZE e.hdr + 2 ^ 64 - asize) % 2 ^ 64 =
          GET_SIZE e.hdr + 2 ^ 64 - asize := by omega
      obtain ⟨nb, hnbfind, hnbhdr, hnbaddr⟩ := findBlock_writeHdr_self (s := t)
        (e.addr + GET_SIZE (PACK asize 1))
        (PACK ((GET_SIZE e.hdr + 2 ^ 64 - asize) % 2 ^ 64) 0)
      obtain ⟨pw, fw, hw, nw, hpw', hfw', hhw', hnw'⟩ := coalesce_reads hco
      have hbrkw : (writeHdr t (e.addr + GET_SIZE (PACK asize 1))
          (PACK ((GET_SIZE e.hdr + 2 ^ 64 - asize) % 2 ^ 64) 0)).brk = s.brk := by
        rw [writeHdr_brk, htbrk]
      have hbp2big : s.brk < e.addr + GET_SIZE (PACK asize 1) := by
        rw [ha8v]
        omega
      have hhw2 : hw = PACK ((GET_SIZE e.hdr + 2 ^ 64 - asize) % 2 ^ 64) 0 := by
        unfold readHdr at hhw'
        rw [if_neg (by simp only [beq_iff_eq]; rw [ha8v]; omega),
          if_neg (by simp only [beq_iff_eq]; rw [hbrkw]; omega), hnbfind] at hhw'
        rw [← hnbhdr]
        simpa using hhw'.symm
      have hr8 : 8 ≤ GET_SIZE hw := by
        rw [hhw2, GET_SIZE_PACK0, hrem3]
        omega
      have hnone : readHdr (writeHdr t (e.addr + GET_SIZE (PACK asize 1))
          (PACK ((GET_SIZE e.hdr + 2 ^ 64 - asize) % 2 ^ 64) 0))
          (e.addr + GET_SIZE (PACK asize 1) + GET_SIZE hw) = none := by
        unfold readHdr
        rw [if_neg (by simp only [beq_iff_eq]; rw [ha8v]; omega),
          if_neg (by simp only [beq_iff_eq]; rw [hbrkw, ha8v]; omega)]
        rw [findBlock_writeHdr_none ?_ (by omega)]
        · rfl
        · refine findBlock_none_of_pairs
            (W := pre ++ { e with hdr := PACK asize 1 } :: post)
            (by rw [d1, hshs']) ?_
          intro c hc
          rcases List.mem_append.mp hc with hc | hc
          · have := hprefacts c hc
            rw [ha8v]
            omega
          · rcases List.mem_cons.mp hc with rfl | hc
            · show e.addr ≠ e.addr + GET_SIZE (PACK asize 1) + GET_SIZE hw
              rw [ha8v]
              omega
            · have := hpostfacts c hc
              rw [ha8v]
              omega
      rw [hnone] at hnw'
      exact absurd hnw' (by simp)
  · -- no split: retag the block as allocated in place
    rw [if_neg hsplit] at h
    have hlee : asize ≤ GET_SIZE e.hdr := by
      by_cases hle : asize ≤ GET_SIZE e.hdr
      · exact hle
      · exfalso
        have : (GET_SIZE e.hdr + 2 ^ 64 - asize) % 2 ^ 64 =
            GET_SIZE e.hdr + 2 ^ 64 - asize := by omega
        rw [this] at hsplit
        omega
    have hshs' : shape (writeHdr s e.addr (PACK (GET_SIZE e.hdr) 1)) =
        (pre ++ { e with hdr := PACK (GET_SIZE e.hdr) 1 } :: post).map
          (fun c => (c.addr, c.hdr)) := by
      rw [shape_writeHdr_update hfinds', hsh]
      have hx := upd_pairs_decomp (P := pre.map (fun c => (c.addr, c.hdr)))
        (Q := post.map (fun c => (c.addr, c.hdr))) (d := e.addr)
        (t := PACK (GET_SIZE e.hdr) 1) (w := e.hdr)
        (fun q hq => by
          obtain ⟨c, hc, rfl⟩ := List.mem_map.mp hq
          have := hprefacts c hc
          simp
          omega)
        (fun q hq => by
          obtain ⟨c, hc, rfl⟩ := List.mem_map.mp hq
          have := hpostfacts c hc
          simp
          omega)
      simpa using hx
    obtain ⟨d1, d2, d3⟩ := delete_node_frame h
    have hbrk1 : s1.brk = s.brk := by rw [d2, writeHdr_brk]
    have hgr1 : s1.grown = s.grown := by rw [d3, writeHdr_grown]
    have hcsz : GET_SIZE (PACK (GET_SIZE e.hdr) 1) = GET_SIZE e.hdr :=
      GET_SIZE_PACK hedvd heszlt (by norm_num)
    have hsh1 : shape s1 =
        (pre ++ { e with hdr := PACK (GET_SIZE e.hdr) 1 } :: post).map
          (fun c => (c.addr, c.hdr)) := by
      rw [d1, hshs']
    have hWF1 : WF cap s1 := by
      refine WF_of_pairs hsh1 ?_ ?_ ?_ ?_ ?_ ?_
      · rw [hbrk1]
        refine tiles_append.mpr ⟨e.addr, htpre, tiles_cons.mpr ⟨rfl, ?_, ?_⟩⟩
        · rw [hcsz]
          omega
        · rw [hcsz]
          exact htpost
      · intro c hc
        rcases List.mem_append.mp hc with hc | hc
        · exact htags0 c (by simp [hc])
        · rcases List.mem_cons.mp hc with rfl | hc
          · refine ⟨goodTag_PACK hedvd heszlt (by norm_num), ?_⟩
            rw [hcsz]
            omega
          · exact htags0 c (by simp [hc])
      · refine noadj_append.mpr ⟨hnapre, noadj_cons.mpr ⟨?_, ?_⟩, ?_⟩
        · exact edgeOk_left_alloc _ (GET_ALLOC_PACK hedvd heszlt (by norm_num))
        · exact (noadj_cons.mp hnarest).2
        · exact edgeOk_right_alloc _ (GET_ALLOC_PACK hedvd heszlt (by norm_num))
      · rw [hgr1, hbrk1]
        exact hWF.grown_eq
      · rw [hbrk1]
        exact hWF.le_cap
      · rw [hbrk1]
        exact hWF.lo
    refine ⟨hWF1, hbrk1, hgr1, ?_⟩
    have hqin : (e.addr, PACK (GET_SIZE e.hdr) 1) ∈ shape s1 := by
      rw [hsh1]
      have hmem : ({ e with hdr := PACK (GET_SIZE e.hdr) 1 } : Block) ∈
          pre ++ ({ e with hdr := PACK (GET_SIZE e.hdr) 1 } : Block) :: post := by
        simp
      exact List.mem_map_of_mem _ hmem
    obtain ⟨e1, he1find, he1hdr⟩ := findBlock_surv hWF1.tiles hqin
    refine ⟨e1, he1find, by rw [he1hdr]; exact GET_ALLOC_PACK hedvd heszlt (by norm_num), ?_⟩
    rw [he1hdr, hcsz, GET_SIZE_PACK1 ha32]
    omega

theorem extend_heap_spec {cap : Nat} {s s1 : MState} {words r : Nat}
    (hcap : cap ≤ 2 ^ 31) (hWF : WF cap s) (hw0 : 0 < words)
    (h : extend_heap cap s words = some (s1, r)) :
    WF cap s1 ∧ s.brk ≤ s1.brk ∧
      (r = 0 → s1 = s) ∧
      (r ≠ 0 → ∃ rb, findBlock s1 r = some rb ∧ GET_ALLOC rb.hdr = 0 ∧
        (if words % 2 == 1 then (words + 1) * WSIZE else words * WSIZE) ≤
          GET_SIZE rb.hdr) := by
  have hhs : HEAP_SIZE = 24 := rfl
  have hws : WSIZE = 4 := rfl
  have hS8 : 8 ∣ (if words % 2 == 1 then (words + 1) * WSIZE else words * WSIZE) := by
    by_cases hpar : (words % 2 == 1) = true
    · rw [if_pos hpar]
      simp at hpar
      rw [hws]
      omega
    · rw [if_neg hpar]
      simp at hpar
      rw [hws]
      omega
  have hS0 : 0 < (if words % 2 == 1 then (words + 1) * WSIZE else words * WSIZE) := by
    by_cases hpar : (words % 2 == 1) = true
    · rw [if_pos hpar]
      rw [hws]
      omega
    · rw [if_neg hpar]
      rw [hws]
      omega
  unfold extend_heap at h
  simp only [Option.pure_def] at h
  by_cases hfail : cap < s.grown +
      (if words % 2 == 1 then (words + 1) * WSIZE else words * WSIZE)
  · rw [if_pos hfail] at h
    have h2 : s = s1 ∧ 0 = r := by simpa using h
    obtain ⟨rfl, hr⟩ := h2
    exact ⟨hWF, Nat.le_refl _, fun _ => rfl, fun hr0 => absurd hr.symm hr0⟩
  · rw [if_neg hfail] at h
    have hScap : s.grown +
        (if words % 2 == 1 then (words + 1) * WSIZE else words * WSIZE) ≤ cap := by
      omega
    have hSlt : (if words % 2 == 1 then (words + 1) * WSIZE else words * WSIZE) <
        2 ^ 32 := by omega
    have hgr := hWF.grown_eq
    have hallbelow : ∀ c ∈ s.blocks, c.addr < s.brk := by
      intro c hc
      have := tiles_bounds hWF.tiles c hc
      omega
    rw [writeHdr_append_end (by intro c hc; exact hallbelow c hc)] at h
    have hco := coalesce_spec (K := cap) (A := s.blocks) (B := [])
      (b := ⟨s.brk, PACK (if words % 2 == 1 then (words + 1) * WSIZE
        else words * WSIZE) 0, 0, 0⟩)
      hcap (by rfl)
      (by
        refine tiles_append.mpr ⟨s.brk, hWF.tiles, tiles_cons.mpr ⟨rfl, ?_, ?_⟩⟩
        · show 0 < GET_SIZE (PACK (if words % 2 == 1 then (words + 1) * WSIZE
            else words * WSIZE) 0)
          rw [GET_SIZE_PACK hS8 hSlt (by norm_num)]
          omega
        · refine tiles_nil_iff.mpr ?_
          show s.brk + _ = s.brk + GET_SIZE (PACK (if words % 2 == 1 then
            (words + 1) * WSIZE else words * WSIZE) 0)
          rw [GET_SIZE_PACK hS8 hSlt (by norm_num)])
      (by
        intro c hc
        rcases List.mem_append.mp hc with hc | hc
        · exact hWF.tags c hc
        · have hc2 : c = (⟨s.brk, PACK (if words % 2 == 1 then (words + 1) * WSIZE
              else words * WSIZE) 0, 0, 0⟩ : Block) := by simpa using hc
          subst hc2
          refine ⟨goodTag_PACK hS8 hSlt (by norm_num), ?_⟩
          show 8 ≤ GET_SIZE (PACK (if words % 2 == 1 then (words + 1) * WSIZE
            else words * WSIZE) 0)
          rw [GET_SIZE_PACK hS8 hSlt (by norm_num)]
          omega)
      (by
        show s.grown + _ = s.brk + _
        rw [hgr])
      (by
        show s.brk + _ ≤ cap
        omega)
      (by
        show GET_ALLOC (PACK (if words % 2 == 1 then (words + 1) * WSIZE
          else words * WSIZE) 0) = 0
        exact GET_ALLOC_PACK hS8 hSlt (by norm_num))
      hWF.noadj
      trivial
      h
    obtain ⟨hWF1, hsum1, hbrk1, hgr1, hsurv1, rb, hrb1, hrb2, hrb3⟩ := hco
    have hbrkval : s1.brk = s.brk +
        (if words % 2 == 1 then (words + 1) * WSIZE else words * WSIZE) := hbrk1
    refine ⟨hWF1, by omega, ?_, ?_⟩
    · intro hr0
      exfalso
      obtain ⟨hbe, pre1, post1, hbl1⟩ := findBlock_mem_decomp hrb1
      have hmem : rb ∈ s1.blocks := by
        rw [hbl1]
        simp
      have := tiles_bounds hWF1.tiles rb hmem
      omega
    · intro hr0
      refine ⟨rb, hrb1, hrb2, ?_⟩
      have := hrb3
      rw [show GET_SIZE ((⟨s.brk, PACK (if words % 2 == 1 then (words + 1) * WSIZE
          else words * WSIZE) 0, 0, 0⟩ : Block)).hdr =
          (if words % 2 == 1 then (words + 1) * WSIZE else words * WSIZE) from
        GET_SIZE_PACK hS8 hSlt (by norm_num)] at this
      exact this

theorem mm_free_spec {cap : Nat} {s s1 : MState} {bp : Nat}
    (hcap : cap ≤ 2 ^ 31) (hWF : WF cap s)
    (hb8 : bp ≠ 8) (hbbrk : bp ≠ s.brk)
    (h : mm_free s bp = some s1) :
    WF cap s1 ∧ s1.brk = s.brk ∧ s1.grown = s.grown := by
  unfold mm_free at h
  simp only [Option.pure_def, Option.bind_eq_bind] at h
  obtain ⟨hw, hread, h2⟩ := Option.bind_eq_some.mp h
  obtain ⟨e, hfind, hehdr⟩ := readHdr_entry_inv hread hb8 hbbrk
  subst hehdr
  obtain ⟨hbe, pre, post, hblocks⟩ := findBlock_mem_decomp hfind
  subst hbe
  have htiles : Tiles (2 * HEAP_SIZE) (pre ++ e :: post) s.brk := by
    rw [← hblocks]
    exact hWF.tiles
  obtain ⟨m, htpre, htrest⟩ := tiles_append.mp htiles
  obtain ⟨hea, hepos, htpost⟩ := tiles_cons.mp htrest
  rw [← hea] at htpre htpost
  have htags0 : ∀ c ∈ pre ++ e :: post, goodTag c.hdr ∧ 8 ≤ GET_SIZE c.hdr := by
    rw [← hblocks]
    exact hWF.tags
  obtain ⟨htage, hesz⟩ := htags0 e (by simp)
  have hedvd : 8 ∣ GET_SIZE e.hdr := goodTag_size_dvd htage
  have heszlt : GET_SIZE e.hdr < 2 ^ 32 := goodTag_size_lt htage
  have hnoadj : NoAdjFree (pre ++ e :: post) := by
    rw [← hblocks]
    exact hWF.noadj
  obtain ⟨hnapre, hnarest, hnaedge⟩ := noadj_append.mp hnoadj
  have hprefacts := tiles_bounds htpre
  have hpostfacts := tiles_bounds htpost
  have hsh : shape s = (pre ++ e :: post).map (fun c => (c.addr, c.hdr)) := by
    unfold shape
    rw [hblocks]
  have hfinds' : (findBlock s e.addr).isSome = true := by
    rw [hfind]
    rfl
  have hshs' : shape (writeHdr s e.addr (PACK (GET_SIZE e.hdr) 0)) =
      (pre ++ { e with hdr := PACK (GET_SIZE e.hdr) 0 } :: post).map
        (fun c => (c.addr, c.hdr)) := by
    rw [shape_writeHdr_update hfinds', hsh]
    have hx := upd_pairs_decomp (P := pre.map (fun c => (c.addr, c.hdr)))
      (Q := post.map (fun c => (c.addr, c.hdr))) (d := e.addr)
      (t := PACK (GET_SIZE e.hdr) 0) (w := e.hdr)
      (fun q hq => by
        obtain ⟨c, hc, rfl⟩ := List.mem_map.mp hq
        have := hprefacts c hc
        simp
        omega)
      (fun q hq => by
        obtain ⟨c, hc, rfl⟩ := List.mem_map.mp hq
        have := hpostfacts c hc
        simp
        omega)
    simpa using hx
  obtain ⟨rr, hco, hr1⟩ := Option.bind_eq_some.mp h2
  obtain ⟨rs, rp⟩ := rr
  have hrs : rs = s1 := by simpa using hr1
  subst hrs
  have hcsz : GET_SIZE (PACK (GET_SIZE e.hdr) 0) = GET_SIZE e.hdr :=
    GET_SIZE_PACK hedvd heszlt (by norm_num)
  have hco2 := coalesce_spec (K := cap) (A := pre) (B := post)
    (b := { e with hdr := PACK (GET_SIZE e.hdr) 0 })
    hcap hshs'
    (by
      rw [writeHdr_brk]
      refine tiles_append.mpr ⟨e.addr, htpre, tiles_cons.mpr ⟨rfl, ?_, ?_⟩⟩
      · show 0 < GET_SIZE (PACK (GET_SIZE e.hdr) 0)
        rw [hcsz]
        omega
      · show Tiles (e.addr + GET_SIZE (PACK (GET_SIZE e.hdr) 0)) post s.brk
        rw [hcsz]
        exact htpost)
    (by
      intro c hc
      rcases List.mem_append.mp hc with hc | hc
      · exact htags0 c (by simp [hc])
      · rcases List.mem_cons.mp hc with rfl | hc
        · refine ⟨goodTag_PACK hedvd heszlt (by norm_num), ?_⟩
          show 8 ≤ GET_SIZE (PACK (GET_SIZE e.hdr) 0)
          rw [hcsz]
          omega
        · exact htags0 c (by simp [hc]))
    (by rw [writeHdr_grown, writeHdr_brk]; exact hWF.grown_eq)
    (by rw [writeHdr_brk]; exact hWF.le_cap)
    (by
      show GET_ALLOC (PACK (GET_SIZE e.hdr) 0) = 0
      exact GET_ALLOC_PACK hedvd heszlt (by norm_num))
    hnapre
    ((noadj_cons.mp hnarest).2)
    hco
  obtain ⟨hWF1, hsum1, hbrk1, hgr1, hsurv1, hrb⟩ := hco2
  exact ⟨hWF1, by rw [hbrk1, writeHdr_brk], by rw [hgr1, writeHdr_grown]⟩

theorem malloc_size_arith {n sz : Nat} (hn32 : n < 2 ^ 32)
    (hs : GET_SIZE (PACK ((if ALIGN n + DSIZE < HEAP_SIZE then HEAP_SIZE
      else ALIGN n + DSIZE) % 2 ^ 32) 1) ≤ sz) :
    n ≤ sz ∨ 2 ^ 31 ≤ n := by
  have hhs : HEAP_SIZE = 24 := rfl
  have hds : DSIZE = 8 := rfl
  have hA : ALIGN n = 8 * ((n + 7) / 8) := ALIGN_eq (by omega)
  rw [GET_SIZE_PACK1 (Nat.mod_lt _ (by norm_num))] at hs
  by_cases hsm : ALIGN n + DSIZE < HEAP_SIZE
  · rw [if_pos hsm] at hs
    rw [hA, hds, hhs] at hsm
    rw [hhs] at hs
    omega
  · rw [if_neg hsm] at hs
    rw [hA, hds, hhs] at hsm
    rw [hA, hds] at hs
    omega

theorem mm_malloc_spec {cap : Nat} {s s1 : MState} {n p : Nat}
    (hcap : cap ≤ 2 ^ 31) (hWF : WF cap s) (hn32 : n < 2 ^ 32)
    (h : mm_malloc cap s n = some (s1, p)) :
    WF cap s1 ∧ s.brk ≤ s1.brk ∧
      (p = 0 ∨ ∃ e1, findBlock s1 p = some e1 ∧ GET_ALLOC e1.hdr = 1 ∧
        (n ≤ GET_SIZE e1.hdr ∨ 2 ^ 31 ≤ n)) := by
  have hhs : HEAP_SIZE = 24 := rfl
  have hds : DSIZE = 8 := rfl
  have hws : WSIZE = 4 := rfl
  have hA : ALIGN n = 8 * ((n + 7) / 8) := ALIGN_eq (by omega)
  have hadvd : 8 ∣ (if ALIGN n + DSIZE < HEAP_SIZE then HEAP_SIZE
      else ALIGN n + DSIZE) := by
    by_cases hsm : ALIGN n + DSIZE < HEAP_SIZE
    · rw [if_pos hsm, hhs]
      omega
    · rw [if_neg hsm, hA, hds]
      omega
  have ha32dvd : 8 ∣ (if ALIGN n + DSIZE < HEAP_SIZE then HEAP_SIZE
      else ALIGN n + DSIZE) % 2 ^ 32 := by
    obtain ⟨k, hk⟩ := hadvd
    rw [hk]
    omega
  have ha32lt : (if ALIGN n + DSIZE < HEAP_SIZE then HEAP_SIZE
      else ALIGN n + DSIZE) % 2 ^ 32 < 2 ^ 32 := Nat.mod_lt _ (by norm_num)
  unfold mm_malloc at h
  by_cases hn0 : (n == 0) = true
  · rw [if_pos hn0] at h
    have h2 : s = s1 ∧ 0 = p := by simpa using h
    obtain ⟨rfl, hp⟩ := h2
    exact ⟨hWF, Nat.le_refl _, Or.inl hp.symm⟩
  · rw [if_neg hn0] at h
    simp only [Option.pure_def, Option.bind_eq_bind] at h
    obtain ⟨r0, hff, h2⟩ := Option.bind_eq_some.mp h
    cases r0 with
    | some bp0 =>
      simp only [] at h2
      obtain ⟨t1, hpl, h3⟩ := Option.bind_eq_some.mp h2
      have h4 : t1 = s1 ∧ bp0 = p := by simpa using h3
      obtain ⟨rfl, rfl⟩ := h4
      unfold find_fit at hff
      obtain ⟨efit, hefind, hefree, hefit⟩ := ffLoop_found _ _ _ hff
      obtain ⟨hWF1, hbrk1, hgr1, e1, he1f, he1a, he1s⟩ :=
        place_spec hcap hWF hefind ha32lt (Or.inl hefit) hpl
      exact ⟨hWF1, by rw [hbrk1], Or.inr ⟨e1, he1f, he1a,
        malloc_size_arith hn32 (Nat.le_trans he1s (Nat.le_refl _))⟩⟩
    | none =>
      simp only [] at h2
      obtain ⟨er, hex, h3⟩ := Option.bind_eq_some.mp h2
      obtain ⟨es, ep⟩ := er
      -- the extension request is at least a full chunk
      have hkey : ∀ AS : Nat,
          4096 ≤ ((MAXint (toInt32 AS) (toInt32 CHUNKSIZE)).emod (2 ^ 64)).toNat ∧
          (AS % 2 ^ 32 < 2 ^ 31 →
            AS % 2 ^ 32 ≤
              ((MAXint (toInt32 AS) (toInt32 CHUNKSIZE)).emod (2 ^ 64)).toNat) := by
        intro AS
        have hC2 : toInt32 CHUNKSIZE = 4096 := by
          unfold toInt32 CHUNKSIZE
          norm_num
        rw [hC2]
        unfold toInt32 MAXint
        have h0 : (0 : Int) ≤ (AS : Int) % 2 ^ 32 := Int.emod_nonneg _ (by norm_num)
        have h1 : (AS : Int) % 2 ^ 32 < 2 ^ 32 :=
          Int.emod_lt_of_pos _ (by norm_num)
        by_cases hm : AS % 2 ^ 32 < 2 ^ 31
        · rw [if_pos hm]
          by_cases hgt : ((AS : Int) % 2 ^ 32 > (4096 : Int))
          · rw [if_pos hgt]
            have hm2 : Int.emod ((AS : Int) % 2 ^ 32) (2 ^ 64) =
                (AS : Int) % 2 ^ 32 := Int.emod_eq_of_lt h0 (by omega)
            rw [hm2]
            constructor
            · omega
            · intro hm3
              omega
          · rw [if_neg hgt]
            have hm2 : Int.emod (4096 : Int) (2 ^ 64) = 4096 := by decide
            rw [hm2]
            constructor
            · norm_num
            · intro hm3
              omega
        · rw [if_neg hm]
          rw [if_neg (by omega)]
          have hm2 : Int.emod (4096 : Int) (2 ^ 64) = 4096 := by decide
          rw [hm2]
          constructor
          · norm_num
          · intro hm3
            omega
      obtain ⟨hexge, hexle⟩ := hkey (if ALIGN n + DSIZE < HEAP_SIZE then HEAP_SIZE
        else ALIGN n + DSIZE)
      have hsp := extend_heap_spec hcap hWF (by rw [hws]; omega) hex
      obtain ⟨hWFe, hbrke, hzero, hpos⟩ := hsp
      by_cases hep : (ep == 0) = true
      · rw [if_pos hep] at h3
        have h4 : es = s1 ∧ 0 = p := by simpa using h3
        obtain ⟨rfl, hp⟩ := h4
        exact ⟨hWFe, hbrke, Or.inl hp.symm⟩
      · rw [if_neg hep] at h3
        simp only [Option.bind_eq_bind] at h3
        obtain ⟨t1, hpl, h4⟩ := Option.bind_eq_some.mp h3
        have h5 : t1 = s1 ∧ ep = p := by simpa using h4
        obtain ⟨rfl, rfl⟩ := h5
        obtain ⟨rb, hrbf, hrbfree, hrbsz⟩ := hpos (by simpa using hep)
        -- the committed size covers the request when it is below 2^31
        have hbig : (if ALIGN n + DSIZE < HEAP_SIZE then HEAP_SIZE
            else ALIGN n + DSIZE) % 2 ^ 32 ≤ GET_SIZE rb.hdr ∨
            2 ^ 31 ≤ (if ALIGN n + DSIZE < HEAP_SIZE then HEAP_SIZE
              else ALIGN n + DSIZE) % 2 ^ 32 := by
          by_cases hi : (if ALIGN n + DSIZE < HEAP_SIZE then HEAP_SIZE
              else ALIGN n + DSIZE) % 2 ^ 32 < 2 ^ 31
          · left
            have h6 := hexle hi
            refine Nat.le_trans ?_ hrbsz
            by_cases hpar : ((((MAXint (toInt32 (if ALIGN n + DSIZE < HEAP_SIZE
                then HEAP_SIZE else ALIGN n + DSIZE)) (toInt32 CHUNKSIZE)).emod
                  (2 ^ 64)).toNat / WSIZE) % 2 == 1) = true
            · rw [if_pos hpar]
              simp at hpar
              rw [hws] at hpar ⊢
              omega
            · rw [if_neg hpar]
              simp at hpar
              rw [hws] at hpar ⊢
              obtain ⟨k, hk⟩ := ha32dvd
              omega
          · right
            omega
        obtain ⟨hWF2, hbrk2, hgr2, e1, he1f, he1a, he1s⟩ :=
          place_spec hcap hWFe hrbf ha32lt hbig hpl
        exact ⟨hWF2, by omega, Or.inr ⟨e1, he1f, he1a,
          malloc_size_arith hn32 he1s⟩⟩

theorem mm_realloc_spec {cap : Nat} {s s1 : MState} {bp n p : Nat}
    (hcap : cap ≤ 2 ^ 31) (hWF : WF cap s) (hn32 : n < 2 ^ 32)
    (hbp : bp = 0 ∨ ∃ b, findBlock s bp = some b ∧ GET_ALLOC b.hdr = 1)
    (h : mm_realloc cap s bp n = some (s1, p)) :
    WF cap s1 := by
  have hhs : HEAP_SIZE = 24 := rfl
  unfold mm_realloc at h
  by_cases hbp0 : (bp == 0) = true
  · rw [if_pos hbp0] at h
    simp only [Option.pure_def, Option.bind_eq_bind] at h
    obtain ⟨r1, hm, h2⟩ := Option.bind_eq_some.mp h
    obtain ⟨rs, rp⟩ := r1
    have h3 : rs = s1 ∧ 0 = p := by simpa using h2
    obtain ⟨rfl, -⟩ := h3
    exact (mm_malloc_spec hcap hWF hn32 hm).1
  · rw [if_neg hbp0] at h
    -- a live target: bounds inside the managed region
    obtain ⟨b, hfindb, hballoc⟩ := hbp.resolve_left (by simpa using hbp0)
    obtain ⟨hbe, pre, post, hblocks⟩ := findBlock_mem_decomp hfindb
    subst hbe
    have hmem : b ∈ s.blocks := by
      rw [hblocks]
      simp
    obtain ⟨hblo, hbhi, hbpos⟩ := tiles_bounds hWF.tiles b hmem
    have hb8 : b.addr ≠ 8 := by omega
    have hbbrk : b.addr ≠ s.brk := by omega
    by_cases hn0 : (n == 0) = true
    · rw [if_pos hn0] at h
      simp only [Option.pure_def, Option.bind_eq_bind] at h
      obtain ⟨t, hf, h2⟩ := Option.bind_eq_some.mp h
      have h3 : t = s1 ∧ 0 = p := by simpa using h2
      obtain ⟨rfl, -⟩ := h3
      exact (mm_free_spec hcap hWF hb8 hbbrk hf).1
    · rw [if_neg hn0] at h
      rw [if_pos (show 0 < n by simp at hn0; omega)] at h
      simp only [Option.pure_def, Option.bind_eq_bind] at h
      obtain ⟨hw, hread, h2⟩ := Option.bind_eq_some.mp h
      have hreadb : readHdr s b.addr = some b.hdr := by
        unfold readHdr
        rw [if_neg (by simp [hb8]), if_neg (by simp [hbbrk]), hfindb]
        rfl
      rw [hreadb] at hread
      have hw2 : hw = b.hdr := by simpa using hread.symm
      subst hw2
      by_cases harm1 : n + HEAP_SIZE ≤ GET_SIZE b.hdr
      · rw [if_pos harm1] at h2
        have h3 : s = s1 ∧ b.addr = p := by simpa using h2
        obtain ⟨rfl, -⟩ := h3
        exact hWF
      · rw [if_neg harm1] at h2
        obtain ⟨nw, hreadn, h2⟩ := Option.bind_eq_some.mp h2
        by_cases harm2 : (GET_ALLOC nw == 0 &&
            decide (n + HEAP_SIZE ≤ GET_SIZE b.hdr + GET_SIZE nw)) = true
        · -- absorb the free successor in place
          rw [if_pos harm2] at h2
          simp only [Bool.and_eq_true, beq_iff_eq, decide_eq_true_eq] at harm2
          obtain ⟨hna0, hle2⟩ := harm2
          obtain ⟨t, hdel, h3⟩ := Option.bind_eq_some.mp h2
          have h4 : writeHdr (removeBlock t (b.addr + GET_SIZE b.hdr)) b.addr
              (PACK (GET_SIZE b.hdr + GET_SIZE nw) 1) = s1 ∧ b.addr = p := by
            simpa using h3
          obtain ⟨hs1, -⟩ := h4
          obtain ⟨nb2, hfindn2, hn2hdr⟩ := readHdr_free_entry hreadn hna0
          subst hn2hdr
          -- structural facts
          have htiles : Tiles (2 * HEAP_SIZE) (pre ++ b :: post) s.brk := by
            rw [← hblocks]
            exact hWF.tiles
          obtain ⟨m, htpre, htrest⟩ := tiles_append.mp htiles
          obtain ⟨hea, hepos, htpost⟩ := tiles_cons.mp htrest
          rw [← hea] at htpre htpost
          have htags0 : ∀ c ∈ pre ++ b :: post,
              goodTag c.hdr ∧ 8 ≤ GET_SIZE c.hdr := by
            rw [← hblocks]
            exact hWF.tags
          have hnoadj : NoAdjFree (pre ++ b :: post) := by
            rw [← hblocks]
            exact hWF.noadj
          obtain ⟨hnapre, hnarest, hnaedge⟩ := noadj_append.mp hnoadj
          have hprefacts := tiles_bounds htpre
          have hpostfacts := tiles_bounds htpost
          have hsh : shape s = (pre ++ b :: post).map (fun c => (c.addr, c.hdr)) := by
            unfold shape
            rw [hblocks]
          -- the successor is the head of post
          rcases hpost0 : post with _ | ⟨n2, post2⟩
          · exfalso
            subst hpost0
            have hbrke : s.brk = b.addr + GET_SIZE b.hdr := tiles_nil htpost
            obtain ⟨hbe2, pre2, post2, hbl2⟩ := findBlock_mem_decomp hfindn2
            have hmem2 : nb2 ∈ s.blocks := by
              rw [hbl2]
              simp
            have := tiles_bounds hWF.tiles nb2 hmem2
            omega
          · subst hpost0
            obtain ⟨hnaddr, hnpos, htpost2⟩ := tiles_cons.mp htpost
            have hfindn2' : ((pre ++ [b]) ++ n2 :: post2).find?
                (fun c => c.addr == b.addr + GET_SIZE b.hdr) = some n2 := by
              refine find?_addr_decomp ?_ hnaddr
              intro c hc
              rcases List.mem_append.mp hc with hc | hc
              · have := hprefacts c hc
                omega
              · have hc2 : c = b := by simpa using hc
                subst hc2
                omega
            have hn2eq : nb2 = n2 := by
              unfold findBlock at hfindn2
              rw [hblocks] at hfindn2
              have hfix : (pre ++ b :: n2 :: post2).find?
                  (fun c => c.addr == b.addr + GET_SIZE b.hdr) = some n2 := by
                have := hfindn2'
                simpa using this
              rw [hfix] at hfindn2
              simpa using hfindn2.symm
            subst hn2eq
            obtain ⟨htagn2, hn2sz⟩ := htags0 nb2 (by simp)
            obtain ⟨htagb, hbsz⟩ := htags0 b (by simp)
            have hn2end : nb2.addr + GET_SIZE nb2.hdr ≤ s.brk := by
              have := tiles_le htpost2
              omega
            have hpost2facts := tiles_bounds htpost2
            -- shapes
            have hSdvd : 8 ∣ GET_SIZE b.hdr + GET_SIZE nb2.hdr :=
              Nat.dvd_add (goodTag_size_dvd htagb) (goodTag_size_dvd htagn2)
            have hSlt : GET_SIZE b.hdr + GET_SIZE nb2.hdr < 2 ^ 32 := by
              have := hWF.le_cap
              omega
            have hS : GET_SIZE (PACK (GET_SIZE b.hdr + GET_SIZE nb2.hdr) 1) =
                GET_SIZE b.hdr + GET_SIZE nb2.hdr :=
              GET_SIZE_PACK hSdvd hSlt (by norm_num)
            obtain ⟨d1, d2, d3⟩ := delete_node_frame hdel
            have hshrem : shape (removeBlock t (b.addr + GET_SIZE b.hdr)) =
                pre.map (fun c => (c.addr, c.hdr)) ++ (b.addr, b.hdr) ::
                  post2.map (fun c => (c.addr, c.hdr)) := by
              rw [shape_removeBlock, d1, hsh]
              simp only [List.map_append, List.map_cons]
              have hx := filter_pairs_decomp
                (P := pre.map (fun c => (c.addr, c.hdr)) ++ [(b.addr, b.hdr)])
                (r := (nb2.addr, nb2.hdr))
                (Q := post2.map (fun c => (c.addr, c.hdr)))
                (x := b.addr + GET_SIZE b.hdr) (by simpa using hnaddr)
                (fun q hq => by
                  rcases List.mem_append.mp hq with hq | hq
                  · obtain ⟨c, hc, rfl⟩ := List.mem_map.mp hq
                    have := hprefacts c hc
                    simp
                    omega
                  · have hq2 : q = (b.addr, b.hdr) := by simpa using hq
                    subst hq2
                    simp
                    omega)
                (fun q hq => by
                  obtain ⟨c, hc, rfl⟩ := List.mem_map.mp hq
                  have := hpost2facts c hc
                  simp
                  omega)
              simpa using hx
            have hfindrem : (findBlock (removeBlock t (b.addr + GET_SIZE b.hdr))
                b.addr).isSome = true := by
              refine findBlock_isSome_of_pairs (W := pre ++ b :: post2) (b := b) ?_ ?_
              · rw [hshrem]
                simp
              · exact find?_addr_decomp
                  (fun c hc => by have := hprefacts c hc; omega) rfl
            have hshs1 : shape s1 =
                ((pre ++ { b with hdr := PACK (GET_SIZE b.hdr + GET_SIZE nb2.hdr) 1 } ::
                  post2).map (fun c => (c.addr, c.hdr))) := by
              rw [← hs1, shape_writeHdr_update hfindrem, hshrem]
              have hx := upd_pairs_decomp (P := pre.map (fun c => (c.addr, c.hdr)))
                (Q := post2.map (fun c => (c.addr, c.hdr))) (d := b.addr)
                (t := PACK (GET_SIZE b.hdr + GET_SIZE nb2.hdr) 1) (w := b.hdr)
                (fun q hq => by
                  obtain ⟨c, hc, rfl⟩ := List.mem_map.mp hq
                  have := hprefacts c hc
                  simp
                  omega)
                (fun q hq => by
                  obtain ⟨c, hc, rfl⟩ := List.mem_map.mp hq
                  have := hpost2facts c hc
                  simp
                  omega)
              simpa using hx
            have hbrk1 : s1.brk = s.brk := by
              rw [← hs1, writeHdr_brk, removeBlock_brk, d2]
            have hgr1 : s1.grown = s.grown := by
              rw [← hs1, writeHdr_grown, removeBlock_grown, d3]
            refine WF_of_pairs hshs1 ?_ ?_ ?_ ?_ ?_ ?_
            · rw [hbrk1]
              refine tiles_append.mpr ⟨b.addr, htpre, tiles_cons.mpr ⟨rfl, ?_, ?_⟩⟩
              · show 0 < GET_SIZE (PACK (GET_SIZE b.hdr + GET_SIZE nb2.hdr) 1)
                rw [hS]
                omega
              · show Tiles (b.addr +
                  GET_SIZE (PACK (GET_SIZE b.hdr + GET_SIZE nb2.hdr) 1)) post2 s.brk
                rw [hS]
                have he2 : b.addr + (GET_SIZE b.hdr + GET_SIZE nb2.hdr) =
                    b.addr + GET_SIZE b.hdr + GET_SIZE nb2.hdr := by omega
                rw [he2]
                exact htpost2
            · intro c hc
              rcases List.mem_append.mp hc with hc | hc
              · exact htags0 c (by simp [hc])
              · rcases List.mem_cons.mp hc with rfl | hc
                · refine ⟨goodTag_PACK hSdvd hSlt (by norm_num), ?_⟩
                  show 8 ≤ GET_SIZE (PACK (GET_SIZE b.hdr + GET_SIZE nb2.hdr) 1)
                  rw [hS]
                  omega
                · exact htags0 c (by simp [hc])
            · refine noadj_append.mpr ⟨hnapre, noadj_cons.mpr ⟨?_, ?_⟩, ?_⟩
              · exact edgeOk_left_alloc _ (GET_ALLOC_PACK hSdvd hSlt (by norm_num))
              · exact (noadj_cons.mp (noadj_cons.mp hnarest).2).2
              · exact edgeOk_right_alloc _ (GET_ALLOC_PACK hSdvd hSlt (by norm_num))
            · rw [hgr1, hbrk1]
              exact hWF.grown_eq
            · rw [hbrk1]
              exact hWF.le_cap
            · rw [hbrk1]
              exact hWF.lo
        · -- fallback: allocate, copy, free
          rw [if_neg harm2] at h2
          obtain ⟨r1, hm, h3⟩ := Option.bind_eq_some.mp h2
          obtain ⟨ms, mp⟩ := r1
          have hnz32 : (n + HEAP_SIZE) % 2 ^ 32 < 2 ^ 32 := Nat.mod_lt _ (by norm_num)
          obtain ⟨hWFm, hbrkm, hmpdisj⟩ := mm_malloc_spec hcap hWF hnz32 hm
          obtain ⟨t2, hpl, h4⟩ := Option.bind_eq_some.mp h3
          rcases hmpdisj with rfl | ⟨e1, he1f, he1a, he1disj⟩
          · -- allocation failed: the second placement reads a null header
            exfalso
            have hnull : readHdr ms 0 = none := by
              unfold readHdr
              rw [if_neg (by simp), if_neg (by
                  simp
                  have := hWFm.lo
                  omega),
                findBlock_none_of_pairs (W := ms.blocks) rfl
                  (fun c hc => by
                    have := tiles_bounds hWFm.tiles c hc
                    omega)]
              rfl
            unfold place at hpl
            simp only [Option.pure_def, Option.bind_eq_bind] at hpl
            rw [hnull] at hpl
            simp at hpl
          · obtain ⟨hWFp, hbrkp, hgrp, -⟩ :=
              place_spec hcap hWFm he1f hnz32 he1disj hpl
            obtain ⟨t3, hmc, h5⟩ := Option.bind_eq_some.mp h4
            have hWFc : WF cap t3 := WF_of_frame (memcpyBlks_frame hmc) hWFp
            obtain ⟨t4, hfr, h6⟩ := Option.bind_eq_some.mp h5
            have h7 : t4 = s1 ∧ mp = p := by simpa using h6
            obtain ⟨rfl, -⟩ := h7
            have hbrkc : t3.brk = t2.brk := (memcpyBlks_frame hmc).2.1
            exact (mm_free_spec hcap hWFc hb8 (by
              rw [hbrkc, hbrkp]
              omega) hfr).1


/-! ### Well-formedness of every reachable state -/

theorem WF_initState {cap : Nat} (hcap : 2 * HEAP_SIZE ≤ cap) : WF cap initState := by
  refine ⟨rfl, ?_, rfl, hcap, Nat.le_refl _, trivial⟩
  intro b hb
  simp [initState] at hb

theorem mm_init_WF {cap : Nat} {s : MState} (hcap : cap ≤ 2 ^ 31)
    (h : mm_init cap = (s, 0)) : WF cap s := by
  unfold mm_init at h
  split at h
  · have h2 := congrArg Prod.snd h
    simp at h2
  · rename_i hlt
    split at h
    · rename_i t bp heq
      split at h
      · have h2 := congrArg Prod.snd h
        simp at h2
      · have hst : t = s := congrArg Prod.fst h
        subst hst
        exact (extend_heap_spec hcap (WF_initState (Nat.not_lt.mp hlt))
          (by norm_num [CHUNKSIZE, DSIZE]) heq).1
    · have h2 := congrArg Prod.snd h
      simp at h2

theorem Reach_WF {cap : Nat} {s : MState} (hcap : cap ≤ 2 ^ 31) (h : Reach cap s) :
    WF cap s := by
  induction h with
  | init s h0 => exact mm_init_WF hcap h0
  | step_malloc s s1 n p hr hn32 hm ih => exact (mm_malloc_spec hcap ih hn32 hm).1
  | step_free s s1 bp b hr hfind hball hfree ih =>
    obtain ⟨hbe, pre, post, hblocks⟩ := findBlock_mem_decomp hfind
    have hb : b ∈ s.blocks := by rw [hblocks]; simp
    obtain ⟨h1, h2, h3⟩ := tiles_bounds ih.tiles b hb
    have hhs : HEAP_SIZE = 24 := rfl
    rw [hhs] at h1
    have hb8 : bp ≠ 8 := by rw [← hbe]; omega
    have hbbrk : bp ≠ s.brk := by rw [← hbe]; omega
    exact (mm_free_spec hcap ih hb8 hbbrk hfree).1
  | step_realloc s s1 bp n p hr hn32 hbp hm ih =>
    exact mm_realloc_spec hcap ih hn32 hbp hm


/-- C2 amended: conservation holds up to the 48-byte bootstrap layout:
in every reachable state the sum of the size fields of the managed
blocks between prologue and epilogue is the total number of bytes
obtained from the heap-grow collaborator so far minus the `2*HEAP_SIZE`
bytes the initial padding/prologue/epilogue layout consumed — the
sentinels themselves are not blocks "between prologue and epilogue",
so the claimed equality misses exactly that bootstrap amount. -/
theorem C2_theorem {cap : Nat} {s : MState} (hcap : cap ≤ 2 ^ 31)
    (h : Reach cap s) : sumSizes s.blocks + 2 * HEAP_SIZE = s.grown := by
  have hWF := Reach_WF hcap h
  have hsum := tiles_sum hWF.tiles
  rw [hWF.grown_eq]
  omega

/-- Witness for C2 on the freshly initialised capacity-10000 heap:
2048 bytes of blocks against 2096 grown bytes. -/
theorem C2_witness :
    cap0 ≤ 2 ^ 31 ∧ Reach cap0 heap0 ∧
      sumSizes heap0.blocks + 2 * HEAP_SIZE = heap0.grown :=
  ⟨by decide, @Reach.init cap0 heap0 (by decide),
    C2_theorem (by decide) (@Reach.init cap0 heap0 (by decide))⟩

/-- C7 confirmed: in every reachable state no two physically adjacent
managed blocks are both free — the allocated bit of consecutive
entries of the heap tiling is never clear twice in a row (and the
bounding prologue and epilogue are always allocated, so block runs
never merge across them). -/
theorem C7_theorem {cap : Nat} {s : MState} (hcap : cap ≤ 2 ^ 31)
    (h : Reach cap s) : NoAdjFree s.blocks :=
  (Reach_WF hcap h).noadj

/-- Witness for C7 after `init; allocate(16)` on the capacity-10000
heap: the allocated block 48 and the free remainder 72 tile the heap
and no adjacent pair is free-free. -/
theorem C7_witness :
    cap0 ≤ 2 ^ 31 ∧ Reach cap0 heap1 ∧ NoAdjFree heap1.blocks :=
  ⟨by decide,
   @Reach.step_malloc cap0 heap0 heap1 16 48 (@Reach.init cap0 heap0 (by decide))
     (by decide) (by decide),
   C7_theorem (by decide)
     (@Reach.step_malloc cap0 heap0 heap1 16 48 (@Reach.init cap0 heap0 (by decide))
       (by decide) (by decide))⟩

end MM
